import Mathlib

set_option maxRecDepth 4000

/-!
Verification of the core of the agentstation/tokenizer Llama 3 tokenizer
(Go implementation) against its natural-language specification.

Modelling conventions:
* Go strings manipulated as runes (`[]rune(s)`) are embedded as `List Nat`
  of Unicode code points; Go byte slices are embedded as `List Nat` whose
  elements are below 256.
* Go maps are embedded as association-list lookups or as functions
  `Nat → Option Nat`; a missing key yields `none` (Go comma-ok form) or
  the zero value (Go plain indexing), matching each use site.
* The Unicode character-class predicates used by the pre-tokenizer
  (`unicode.IsLetter`, `unicode.IsDigit`, `unicode.IsSpace`,
  `unicode.ToLower`) are passed to the state-machine definitions as
  explicit function arguments; theorems about the state machine hold for
  every choice of these functions, in particular for Go's. The predicates
  a claim needs concretely (`unicode.IsDigit`, `unicode.IsSpace`) are also
  defined from Go's tables.
-/

/-- A Go string viewed as its sequence of runes (Unicode code points). -/
abbrev Str := List Nat

/-- UTF-8 encoding of one Unicode scalar value, as Go produces for a rune
in the valid range (below `0x110000`). -/
def utf8Encode (c : Nat) : List Nat :=
  if c < 0x80 then [c]
  else if c < 0x800 then [0xC0 + c / 64, 0x80 + c % 64]
  else if c < 0x10000 then [0xE0 + c / 4096, 0x80 + (c / 64) % 64, 0x80 + c % 64]
  else [0xF0 + c / 262144, 0x80 + (c / 4096) % 64, 0x80 + (c / 64) % 64, 0x80 + c % 64]

/-- The UTF-8 bytes of a rune sequence, Go `[]byte(string(runes))`. -/
def utf8Bytes (s : Str) : List Nat := s.flatMap utf8Encode

/-!
Byte-level codec, from `createByteMappings` in `llama3/utils.go` (and the
identical `CreateByteMappings` in `internal/encoding`): the list `bs` of
directly printable byte values `[0x21..0x7E] ++ [0xA1..0xAC] ++ [0xAE..0xFF]`
is extended by every byte value not already present, in ascending order,
and the appended byte number `n` (0-based among the appended ones) is
mapped to codepoint `256 + n`.  The Go loop re-scans the growing `bs`
slice, but a byte appended by the loop is always smaller than the byte
currently being tested, so membership in the original printable list is
the deciding test; the filter below is that loop.
-/

/-- The directly printable byte values, in the order the Go code appends
them: `'!'..'~'`, then `'¡'..'¬'`, then `'®'..'ÿ'`. -/
def printableBytes : List Nat :=
  List.range' 33 94 ++ List.range' 161 12 ++ List.range' 174 82

/-- The byte values that are not directly printable, in the order the Go
loop over `0..255` appends them to `bs`. -/
def extraBytes : List Nat :=
  (List.range 256).filter (fun b => !printableBytes.contains b)

/-- The final `bs` list of `createByteMappings`. -/
def bsList : List Nat := printableBytes ++ extraBytes

/-- The final `cs` list of `createByteMappings`: printable bytes map to
themselves, the `n`-th extra byte maps to `256 + n`. -/
def csList : List Nat := printableBytes ++ List.range' 256 extraBytes.length

/-- The `bytesToUnicode` map of `llama3/utils.go`: byte value to codepoint
(`bToU[bs[i]] = cs[i]`). -/
def bytesToUnicode (b : Nat) : Option Nat :=
  ((bsList.zip csList).find? (fun p => p.1 == b)).map (·.2)

/-- The `unicodeToBytes` map of `llama3/utils.go`: codepoint back to byte
value (`uToB[cs[i]] = bs[i]`). -/
def unicodeToBytes (r : Nat) : Option Nat :=
  ((bsList.zip csList).find? (fun p => p.2 == r)).map (·.1)

/-- The function `encodeBytes` of `llama3/utils.go`: each byte is looked up
in `bytesToUnicode` and appended when present. -/
def encodeBytes (data : List Nat) : Str := data.filterMap bytesToUnicode

/-- The function `decodeTokenBytes` of `llama3/utils.go`: each codepoint is
looked up in `unicodeToBytes` and appended when present. -/
def decodeTokenBytes (token : Str) : List Nat := token.filterMap unicodeToBytes

section ByteCodecLemmas

/-- Membership in `printableBytes` in interval form. -/
lemma mem_printableBytes {b : Nat} :
    b ∈ printableBytes ↔
      (33 ≤ b ∧ b ≤ 126) ∨ (161 ≤ b ∧ b ≤ 172) ∨ (174 ≤ b ∧ b ≤ 255) := by
  simp only [printableBytes, List.mem_append, List.mem_range'_1]
  omega

lemma printableBytes_nodup : printableBytes.Nodup := by
  have hr : ∀ s n : Nat, (List.range' s n).Nodup := fun s n =>
    List.nodup_range' s n 1 one_pos
  refine List.Nodup.append (List.Nodup.append (hr 33 94) (hr 161 12) ?_)
    (hr 174 82) ?_
  · intro a ha hb
    rw [List.mem_range'_1] at ha hb
    omega
  · intro a ha hb
    rcases List.mem_append.mp ha with h | h <;>
      · rw [List.mem_range'_1] at h hb
        omega

lemma extraBytes_nodup : extraBytes.Nodup :=
  (List.nodup_range 256).filter _

lemma mem_extraBytes {b : Nat} :
    b ∈ extraBytes ↔ b < 256 ∧ b ∉ printableBytes := by
  simp [extraBytes, List.mem_filter, List.mem_range]

lemma bsList_nodup : bsList.Nodup := by
  refine List.Nodup.append printableBytes_nodup extraBytes_nodup ?_
  intro a ha hb
  exact ((mem_extraBytes.mp hb).2 ha)

lemma printableBytes_lt_256 {b : Nat} (h : b ∈ printableBytes) : b < 256 := by
  rcases mem_printableBytes.mp h with h | h | h <;> omega

lemma printableBytes_ge_33 {b : Nat} (h : b ∈ printableBytes) : 33 ≤ b := by
  rcases mem_printableBytes.mp h with h | h | h <;> omega

lemma csList_nodup : csList.Nodup := by
  refine List.Nodup.append printableBytes_nodup
    (List.nodup_range' 256 extraBytes.length 1 one_pos) ?_
  intro a ha hb
  have h1 := printableBytes_lt_256 ha
  rw [List.mem_range'_1] at hb
  omega

lemma mem_csList_ge_33 {v : Nat} (h : v ∈ csList) : 33 ≤ v := by
  rcases List.mem_append.mp h with h | h
  · exact printableBytes_ge_33 h
  · rw [List.mem_range'_1] at h
    omega

lemma mem_bsList {b : Nat} : b ∈ bsList ↔ b < 256 := by
  constructor
  · intro h
    rcases List.mem_append.mp h with h | h
    · exact printableBytes_lt_256 h
    · exact (mem_extraBytes.mp h).1
  · intro h
    rcases Classical.em (b ∈ printableBytes) with hp | hp
    · exact List.mem_append.mpr (Or.inl hp)
    · exact List.mem_append.mpr (Or.inr (mem_extraBytes.mpr ⟨h, hp⟩))

lemma bsList_length_eq_csList_length : bsList.length = csList.length := by
  simp [bsList, csList]

/-- In a zip whose key list has no duplicates, `find?` by a key that is a
member returns exactly that pair. -/
lemma zip_find_fst {ks vs : List Nat} (hnd : ks.Nodup) {k v : Nat}
    (hm : (k, v) ∈ ks.zip vs) :
    ((ks.zip vs).find? (fun p => p.1 == k)) = some (k, v) := by
  induction ks generalizing vs with
  | nil => simp at hm
  | cons k0 ks ih =>
    cases vs with
    | nil => simp at hm
    | cons v0 vs =>
      rw [List.zip_cons_cons] at hm ⊢
      rcases List.mem_cons.mp hm with h | h
      · cases h
        rw [List.find?_cons_of_pos _ (by simp)]
      · have hk0 : k0 ∉ ks := (List.nodup_cons.mp hnd).1
        have hk : k ≠ k0 := fun e => hk0 (e ▸ (List.of_mem_zip h).1)
        rw [List.find?_cons_of_neg _ (by simp; exact fun e => hk e.symm)]
        exact ih (List.nodup_cons.mp hnd).2 h

/-- In a zip whose value list has no duplicates, `find?` by a value that is
a member returns exactly that pair. -/
lemma zip_find_snd {ks vs : List Nat} (hnd : vs.Nodup) {k v : Nat}
    (hm : (k, v) ∈ ks.zip vs) :
    ((ks.zip vs).find? (fun p => p.2 == v)) = some (k, v) := by
  induction ks generalizing vs with
  | nil => simp at hm
  | cons k0 ks ih =>
    cases vs with
    | nil => simp at hm
    | cons v0 vs =>
      rw [List.zip_cons_cons] at hm ⊢
      rcases List.mem_cons.mp hm with h | h
      · cases h
        rw [List.find?_cons_of_pos _ (by simp)]
      · have hv0 : v0 ∉ vs := (List.nodup_cons.mp hnd).1
        have hv : v ≠ v0 := fun e => hv0 (e ▸ (List.of_mem_zip h).2)
        rw [List.find?_cons_of_neg _ (by simp; exact fun e => hv e.symm)]
        exact ih (List.nodup_cons.mp hnd).2 h

/-- Every member of the key list of a zip of equal-length lists appears as
the key of some pair. -/
lemma exists_mem_zip {ks vs : List Nat} (hlen : ks.length = vs.length)
    {k : Nat} (hk : k ∈ ks) : ∃ v, (k, v) ∈ ks.zip vs := by
  induction ks generalizing vs with
  | nil => simp at hk
  | cons k0 ks ih =>
    cases vs with
    | nil => simp at hlen
    | cons v0 vs =>
      rw [List.zip_cons_cons]
      rcases List.mem_cons.mp hk with rfl | h
      · exact ⟨v0, List.mem_cons_self _ _⟩
      · obtain ⟨v, hv⟩ := ih (by simpa using hlen) h
        exact ⟨v, List.mem_cons_of_mem _ hv⟩

/-- Central inversion property of the byte codec: every byte below 256 is
mapped to a codepoint that maps back to it, and that codepoint is at
least 33 (in particular never a space). -/
lemma bytesToUnicode_roundtrip {b : Nat} (hb : b < 256) :
    ∃ v, bytesToUnicode b = some v ∧ unicodeToBytes v = some b ∧ 33 ≤ v := by
  obtain ⟨v, hv⟩ := exists_mem_zip bsList_length_eq_csList_length (mem_bsList.mpr hb)
  refine ⟨v, ?_, ?_, mem_csList_ge_33 (List.of_mem_zip hv).2⟩
  · unfold bytesToUnicode
    rw [zip_find_fst bsList_nodup hv]
    rfl
  · unfold unicodeToBytes
    rw [zip_find_snd csList_nodup hv]
    rfl

lemma encode_decode_bytes {data : List Nat} (h : ∀ b ∈ data, b < 256) :
    decodeTokenBytes (encodeBytes data) = data := by
  induction data with
  | nil => rfl
  | cons b rest ih =>
    obtain ⟨v, h1, h2, _⟩ := bytesToUnicode_roundtrip (h b (List.mem_cons_self _ _))
    have hrest := ih (fun x hx => h x (List.mem_cons_of_mem _ hx))
    simp only [encodeBytes, decodeTokenBytes, List.filterMap_cons, h1] at *
    simp [h2, hrest]

end ByteCodecLemmas

/-- C4: the byte codec is a bijection on all 256 byte values: decoding the
codepoint a byte encodes to yields the byte back, the image of the map on
`0..255` consists of 256 pairwise distinct codepoints, and consequently
`decodeTokenBytes (encodeBytes data) = data` for every byte sequence. -/
theorem byteCodec_bijection :
    (∀ b : Nat, b < 256 → (bytesToUnicode b).bind unicodeToBytes = some b)
    ∧ ((List.range 256).filterMap bytesToUnicode).length = 256
    ∧ ((List.range 256).filterMap bytesToUnicode).Nodup
    ∧ ∀ data : List Nat, (∀ b ∈ data, b < 256) →
        decodeTokenBytes (encodeBytes data) = data := by
  have hrt : ∀ b : Nat, b < 256 → (bytesToUnicode b).bind unicodeToBytes = some b := by
    intro b hb
    obtain ⟨v, h1, h2, _⟩ := bytesToUnicode_roundtrip hb
    rw [h1]
    exact h2
  have hlen : ∀ l : List Nat, (∀ b ∈ l, b < 256) →
      (l.filterMap bytesToUnicode).length = l.length := by
    intro l hl
    induction l with
    | nil => rfl
    | cons b rest ih =>
      obtain ⟨v, h1, _, _⟩ := bytesToUnicode_roundtrip (hl b (List.mem_cons_self _ _))
      simp [List.filterMap_cons, h1,
        ih (fun x hx => hl x (List.mem_cons_of_mem _ hx))]
  have hnd : ∀ l : List Nat, (∀ b ∈ l, b < 256) → l.Nodup →
      (l.filterMap bytesToUnicode).Nodup := by
    intro l hl hnd
    induction l with
    | nil => exact List.nodup_nil
    | cons b rest ih =>
      obtain ⟨v, h1, h2, _⟩ := bytesToUnicode_roundtrip (hl b (List.mem_cons_self _ _))
      rw [List.filterMap_cons, h1]
      refine List.nodup_cons.mpr ⟨?_, ih (fun x hx => hl x (List.mem_cons_of_mem _ hx))
        (List.nodup_cons.mp hnd).2⟩
      intro hvmem
      obtain ⟨b2, hb2mem, hb2⟩ := List.mem_filterMap.mp hvmem
      obtain ⟨v2, g1, g2, _⟩ :=
        bytesToUnicode_roundtrip (hl b2 (List.mem_cons_of_mem _ hb2mem))
      rw [g1] at hb2
      cases hb2
      rw [g2] at h2
      cases h2
      exact (List.nodup_cons.mp hnd).1 hb2mem
  refine ⟨hrt, ?_, hnd _ (fun b hb => List.mem_range.mp hb) (List.nodup_range 256),
    fun data h => encode_decode_bytes h⟩
  rw [hlen _ (fun b hb => List.mem_range.mp hb)]
  exact List.length_range 256

/-- Witness for C4 at concrete inputs: the hypotheses of each conjunct are
discharged at byte 32 and at the byte sequence `[0, 32, 97, 255]`. -/
theorem byteCodec_bijection_witness :
    (bytesToUnicode 32).bind unicodeToBytes = some 32 ∧
      decodeTokenBytes (encodeBytes [0, 32, 97, 255]) = [0, 32, 97, 255] :=
  ⟨byteCodec_bijection.1 32 (by decide),
    byteCodec_bijection.2.2.2 [0, 32, 97, 255] (by decide)⟩

/-!
Pre-tokenizer state machine, from `llama3/state_machine.go`.  The Go code
calls the character-class functions `isLetter = unicode.IsLetter`,
`isNumber = unicode.IsDigit`, `isWhitespace = unicode.IsSpace` and
`unicode.ToLower`; here they are passed explicitly, so every theorem below
holds for the actual Go functions (and any other choice).  Position-tracking
mutation is embedded by returning the emitted token together with the new
position.
-/

/-- The character classifiers of `state_machine.go`, bundled. -/
structure CharClasses where
  isLetter : Nat → Bool
  isNumber : Nat → Bool
  isWhitespace : Nat → Bool
  toLower : Nat → Nat

/-- The slice `input[a:b]` of a rune sequence. -/
def strSlice (input : Str) (a b : Nat) : Str := (input.drop a).take (b - a)

/-- Length of the run of codepoints satisfying `p` starting at `pos`
(the number of loop iterations of a Go `for pos < len && p(input[pos])`
scan). -/
def countWhile (p : Nat → Bool) (input : Str) (pos : Nat) : Nat :=
  ((input.drop pos).takeWhile p).length

/-- The function `matchesAt` of `state_machine.go`: does `s` occur at
`pos`, optionally comparing codepoints after `toLower` on both sides. -/
def matchesAt (toLower : Nat → Nat) (input : Str) (pos : Nat) (s : Str)
    (caseInsensitive : Bool) : Bool :=
  if input.length < pos + s.length then false
  else (List.range s.length).all fun i =>
    let inputR := input.getD (pos + i) 0
    let r := s.getD i 0
    if caseInsensitive then toLower inputR == toLower r else inputR == r

/-- The contraction suffix list of `tryContraction`, as rune sequences:
`'s`, `'t`, `'re`, `'ve`, `'m`, `'ll`, `'d`. -/
def contractions : List Str :=
  [[39, 115], [39, 116], [39, 114, 101], [39, 118, 101], [39, 109],
    [39, 108, 108], [39, 100]]

/-- The function `tryContraction`: if the current codepoint is `'` and one
of the seven contraction patterns matches case-insensitively, emit the
original-case slice and advance past it. -/
def tryContraction (toLower : Nat → Nat) (input : Str) (pos : Nat) :
    Option (Str × Nat) :=
  if pos < input.length ∧ input.getD pos 0 = 39 then
    match contractions.find? (fun c => matchesAt toLower input pos c true) with
    | some c => some (strSlice input pos (pos + c.length), pos + c.length)
    | none => none
  else none

/-- The function `tryWordWithPrefix`, pattern `[^\r\n\p{L}\p{N}]?\p{L}+`:
an optional one-codepoint prefix that is no letter, no number and no
newline, then at least one letter; backtracks to `start` when no letter
follows. -/
def tryWordWithPrefix (isLetter isNumber : Nat → Bool) (input : Str)
    (pos : Nat) : Option (Str × Nat) :=
  let pos1 :=
    if pos < input.length ∧ isLetter (input.getD pos 0) = false ∧
        isNumber (input.getD pos 0) = false ∧ input.getD pos 0 ≠ 13 ∧
        input.getD pos 0 ≠ 10
      then pos + 1 else pos
  if pos1 < input.length ∧ isLetter (input.getD pos1 0) = true then
    let stop := pos1 + countWhile isLetter input pos1
    some (strSlice input pos stop, stop)
  else none

/-- The function `tryNumbers`, pattern `\p{N}{1,3}`: the Go loop advances
while `isNumber` holds and fewer than 3 codepoints were taken, which is
`min 3` of the number run length. -/
def tryNumbers (isNumber : Nat → Bool) (input : Str) (pos : Nat) :
    Option (Str × Nat) :=
  if pos < input.length ∧ isNumber (input.getD pos 0) = true then
    let stop := pos + min 3 (countWhile isNumber input pos)
    some (strSlice input pos stop, stop)
  else none

/-- The function `tryPunctuationWithSpace`, pattern
` ?[^\s\p{L}\p{N}]+[\r\n]*`: an optional leading space, at least one
codepoint that is neither whitespace nor letter nor number, more of the
same, then any run of `\r`/`\n`; backtracks when the body is absent. -/
def tryPunctuationWithSpace (isWhitespace isLetter isNumber : Nat → Bool)
    (input : Str) (pos : Nat) : Option (Str × Nat) :=
  let p1 := if pos < input.length ∧ input.getD pos 0 = 32 then pos + 1 else pos
  if p1 < input.length ∧ isWhitespace (input.getD p1 0) = false ∧
      isLetter (input.getD p1 0) = false ∧ isNumber (input.getD p1 0) = false then
    let p2 := p1 + countWhile
      (fun ch => !(isWhitespace ch || isLetter ch || isNumber ch)) input p1
    let p3 := p2 + countWhile (fun ch => ch == 13 || ch == 10) input p2
    if p3 = pos then none else some (strSlice input pos p3, p3)
  else none

/-- The function `tryNewlineSequence`, pattern `\s*[\r\n]+`: leading
whitespace that is not `\r`/`\n`, then at least one `\r`/`\n`; backtracks
when no newline was found. -/
def tryNewlineSequence (isWhitespace : Nat → Bool) (input : Str) (pos : Nat) :
    Option (Str × Nat) :=
  let p1 := pos + countWhile
    (fun ch => isWhitespace ch && !(ch == 13) && !(ch == 10)) input pos
  let k := countWhile (fun ch => ch == 13 || ch == 10) input p1
  if k = 0 then none else some (strSlice input pos (p1 + k), p1 + k)

/-- The function `tryWhitespace`, pattern `\s+(?!\S)` or `\s+`: the maximal
whitespace run; when it is followed by a non-whitespace codepoint and more
than one codepoint was consumed, back off exactly one codepoint. -/
def tryWhitespace (isWhitespace : Nat → Bool) (input : Str) (pos : Nat) :
    Option (Str × Nat) :=
  if pos < input.length ∧ isWhitespace (input.getD pos 0) = true then
    let p1 := pos + countWhile isWhitespace input pos
    let p2 :=
      if p1 < input.length ∧ isWhitespace (input.getD p1 0) = false ∧
          pos + 1 < p1
        then p1 - 1 else p1
    some (strSlice input pos p2, p2)
  else none

/-- The function `matchNext` of `state_machine.go`: the seven alternatives
tried in order, with the single-codepoint fallback. -/
def matchNext (cc : CharClasses) (input : Str) (pos : Nat) : Str × Nat :=
  match tryContraction cc.toLower input pos with
  | some r => r
  | none =>
  match tryWordWithPrefix cc.isLetter cc.isNumber input pos with
  | some r => r
  | none =>
  match tryNumbers cc.isNumber input pos with
  | some r => r
  | none =>
  match tryPunctuationWithSpace cc.isWhitespace cc.isLetter cc.isNumber input pos with
  | some r => r
  | none =>
  match tryNewlineSequence cc.isWhitespace input pos with
  | some r => r
  | none =>
  match tryWhitespace cc.isWhitespace input pos with
  | some r => r
  | none => ([input.getD pos 0], pos + 1)

section StateMachineLemmas

lemma drop_eq_getD_cons {input : Str} {pos : Nat} (h : pos < input.length) :
    input.drop pos = input.getD pos 0 :: input.drop (pos + 1) := by
  rw [List.drop_eq_getElem_cons h]
  congr 1
  rw [List.getD_eq_getElem?_getD, List.getElem?_eq_getElem h]
  rfl

lemma getD_drop (input : Str) (pos i : Nat) :
    (input.drop pos).getD i 0 = input.getD (pos + i) 0 := by
  rw [List.getD_eq_getElem?_getD, List.getD_eq_getElem?_getD, List.getElem?_drop]

lemma countWhile_pos {p : Nat → Bool} {input : Str} {pos : Nat}
    (h : pos < input.length) (hp : p (input.getD pos 0) = true) :
    0 < countWhile p input pos := by
  unfold countWhile
  rw [drop_eq_getD_cons h, List.takeWhile_cons_of_pos hp]
  simp

lemma countWhile_le (p : Nat → Bool) (input : Str) (pos : Nat) :
    countWhile p input pos ≤ input.length - pos := by
  unfold countWhile
  calc ((input.drop pos).takeWhile p).length ≤ (input.drop pos).length :=
        (List.takeWhile_prefix p).length_le
    _ = input.length - pos := List.length_drop pos input

lemma takeWhile_stop {p : Nat → Bool} :
    ∀ {l : List Nat}, (l.takeWhile p).length < l.length →
      p (l.getD (l.takeWhile p).length 0) = false := by
  intro l
  induction l with
  | nil => simp
  | cons a t ih =>
    intro h
    by_cases hp : p a
    · rw [List.takeWhile_cons_of_pos hp] at h ⊢
      simpa using ih (by simpa using h)
    · rw [List.takeWhile_cons_of_neg hp]
      simpa using eq_false_of_ne_true hp

lemma countWhile_max {p : Nat → Bool} {input : Str} {pos : Nat}
    (h : pos + countWhile p input pos < input.length) :
    p (input.getD (pos + countWhile p input pos) 0) = false := by
  have hlt : countWhile p input pos < (input.drop pos).length := by
    rw [List.length_drop]
    omega
  have := takeWhile_stop (p := p) (l := input.drop pos) hlt
  rwa [getD_drop] at this

lemma strSlice_append_drop {input : Str} {a b : Nat} (hab : a ≤ b) :
    strSlice input a b ++ input.drop b = input.drop a := by
  unfold strSlice
  have hd : input.drop b = (input.drop a).drop (b - a) := by
    rw [List.drop_drop]
    congr 1
    omega
  rw [hd, List.take_append_drop]

lemma strSlice_ne_nil {input : Str} {a b : Nat} (ha : a < input.length)
    (hab : a < b) : strSlice input a b ≠ [] := by
  unfold strSlice
  have : ((input.drop a).take (b - a)).length = min (b - a) (input.length - a) := by
    rw [List.length_take, List.length_drop]
  intro hnil
  rw [hnil] at this
  simp at this
  omega

lemma strSlice_singleton {input : Str} {pos : Nat} (h : pos < input.length) :
    strSlice input pos (pos + 1) = [input.getD pos 0] := by
  unfold strSlice
  rw [drop_eq_getD_cons h]
  simp

lemma tryContraction_spec {tl : Nat → Nat} {input : Str} {pos : Nat}
    {r : Str × Nat} (h : tryContraction tl input pos = some r) :
    r.1 = strSlice input pos r.2 ∧ pos < r.2 := by
  unfold tryContraction at h
  split at h
  · split at h
    · next c hc =>
      have hmem := List.mem_of_find?_eq_some hc
      have hlen : 2 ≤ c.length := by
        have : ∀ x ∈ contractions, 2 ≤ x.length := by decide
        exact this c hmem
      cases h
      exact ⟨rfl, by omega⟩
    · cases h
  · cases h

lemma tryWordWithPrefix_spec {isL isN : Nat → Bool} {input : Str} {pos : Nat}
    {r : Str × Nat} (h : tryWordWithPrefix isL isN input pos = some r) :
    r.1 = strSlice input pos r.2 ∧ pos < r.2 := by
  simp only [tryWordWithPrefix] at h
  split at h
  · next hpre =>
    split at h
    · next hc =>
      cases h
      exact ⟨rfl, by omega⟩
    · exact Option.noConfusion h
  · split at h
    · next hc =>
      cases h
      have h1 := countWhile_pos hc.1 hc.2
      exact ⟨rfl, by omega⟩
    · exact Option.noConfusion h

lemma tryNumbers_spec {isN : Nat → Bool} {input : Str} {pos : Nat}
    {r : Str × Nat} (h : tryNumbers isN input pos = some r) :
    r.1 = strSlice input pos r.2 ∧ pos < r.2 := by
  simp only [tryNumbers] at h
  split at h
  · next hc =>
    cases h
    have h1 := countWhile_pos hc.1 hc.2
    refine ⟨rfl, ?_⟩
    have : 0 < min 3 (countWhile isN input pos) := by omega
    omega
  · exact Option.noConfusion h

lemma tryPunctuationWithSpace_spec {isW isL isN : Nat → Bool} {input : Str}
    {pos : Nat} {r : Str × Nat}
    (h : tryPunctuationWithSpace isW isL isN input pos = some r) :
    r.1 = strSlice input pos r.2 ∧ pos < r.2 := by
  simp only [tryPunctuationWithSpace] at h
  split at h
  · next hsp =>
    split at h
    · split at h
      · exact Option.noConfusion h
      · next hne =>
        cases h
        exact ⟨rfl, by omega⟩
    · exact Option.noConfusion h
  · next hsp =>
    split at h
    · split at h
      · exact Option.noConfusion h
      · next hne =>
        cases h
        exact ⟨rfl, by omega⟩
    · exact Option.noConfusion h

lemma tryNewlineSequence_spec {isW : Nat → Bool} {input : Str} {pos : Nat}
    {r : Str × Nat} (h : tryNewlineSequence isW input pos = some r) :
    r.1 = strSlice input pos r.2 ∧ pos < r.2 := by
  simp only [tryNewlineSequence] at h
  split at h
  · exact Option.noConfusion h
  · next hk =>
    cases h
    exact ⟨rfl, by omega⟩

lemma tryWhitespace_spec {isW : Nat → Bool} {input : Str} {pos : Nat}
    {r : Str × Nat} (h : tryWhitespace isW input pos = some r) :
    r.1 = strSlice input pos r.2 ∧ pos < r.2 := by
  simp only [tryWhitespace] at h
  split at h
  · next hc =>
    cases h
    have h1 := countWhile_pos hc.1 hc.2
    refine ⟨rfl, ?_⟩
    split <;> omega
  · exact Option.noConfusion h

lemma matchNext_spec (cc : CharClasses) (input : Str) (pos : Nat)
    (h : pos < input.length) :
    (matchNext cc input pos).1 = strSlice input pos (matchNext cc input pos).2 ∧
      pos < (matchNext cc input pos).2 := by
  unfold matchNext
  cases h1 : tryContraction cc.toLower input pos with
  | some r => simpa using tryContraction_spec h1
  | none =>
  cases h2 : tryWordWithPrefix cc.isLetter cc.isNumber input pos with
  | some r => simpa using tryWordWithPrefix_spec h2
  | none =>
  cases h3 : tryNumbers cc.isNumber input pos with
  | some r => simpa using tryNumbers_spec h3
  | none =>
  cases h4 : tryPunctuationWithSpace cc.isWhitespace cc.isLetter cc.isNumber input pos with
  | some r => simpa using tryPunctuationWithSpace_spec h4
  | none =>
  cases h5 : tryNewlineSequence cc.isWhitespace input pos with
  | some r => simpa using tryNewlineSequence_spec h5
  | none =>
  cases h6 : tryWhitespace cc.isWhitespace input pos with
  | some r => simpa using tryWhitespace_spec h6
  | none => exact ⟨(strSlice_singleton h).symm, Nat.lt_succ_self pos⟩

lemma matchNext_advances (cc : CharClasses) (input : Str) (pos : Nat)
    (h : pos < input.length) : pos < (matchNext cc input pos).2 :=
  (matchNext_spec cc input pos h).2

end StateMachineLemmas

/-- The loop of `Tokenize` and `TokenizeWithStateMachine` in
`state_machine.go`: repeat `matchNext` until the position reaches the end
of the input.  Termination is exactly the strict-advance property of
`matchNext`. -/
def tokenizeLoop (cc : CharClasses) (input : Str) (pos : Nat) : List Str :=
  if h : pos < input.length then
    (matchNext cc input pos).1 :: tokenizeLoop cc input (matchNext cc input pos).2
  else []
termination_by input.length - pos
decreasing_by
  have := matchNext_advances cc input pos h
  omega

/-- The function `Tokenize` of `state_machine.go` (pre-tokenization of a
rune sequence). -/
def Tokenize (cc : CharClasses) (text : Str) : List Str :=
  tokenizeLoop cc text 0

lemma tokenizeLoop_flatten (cc : CharClasses) (input : Str) (pos : Nat) :
    (tokenizeLoop cc input pos).flatten = input.drop pos := by
  rw [tokenizeLoop]
  split
  · next h =>
    have hadv : pos < (matchNext cc input pos).2 := matchNext_advances cc input pos h
    have hs := matchNext_spec cc input pos h
    rw [List.flatten_cons,
      tokenizeLoop_flatten cc input (matchNext cc input pos).2, hs.1,
      strSlice_append_drop (le_of_lt hs.2)]
  · next h =>
    rw [List.flatten_nil, eq_comm]
    exact List.drop_eq_nil_of_le (by omega)
termination_by input.length - pos
decreasing_by omega

lemma tokenizeLoop_ne_nil (cc : CharClasses) (input : Str) (pos : Nat) :
    ∀ t ∈ tokenizeLoop cc input pos, t ≠ [] := by
  intro t ht
  rw [tokenizeLoop] at ht
  split at ht
  · next h =>
    have hadv : pos < (matchNext cc input pos).2 := matchNext_advances cc input pos h
    have hs := matchNext_spec cc input pos h
    rcases List.mem_cons.mp ht with rfl | ht2
    · rw [hs.1]
      exact strSlice_ne_nil h hs.2
    · exact tokenizeLoop_ne_nil cc input (matchNext cc input pos).2 t ht2
  · cases ht
termination_by input.length - pos
decreasing_by omega

/-- ASCII-only instances of the character classes (letters `A..Z`/`a..z`,
digits `0..9`, whitespace `\t \n \r space`, ASCII lower-casing), used to
instantiate witnesses at concrete inputs. -/
def asciiClasses : CharClasses where
  isLetter := fun c => (65 ≤ c && c ≤ 90) || (97 ≤ c && c ≤ 122)
  isNumber := fun c => 48 ≤ c && c ≤ 57
  isWhitespace := fun c => c == 9 || c == 10 || c == 13 || c == 32
  toLower := fun c => if 65 ≤ c && c ≤ 90 then c + 32 else c

/-- C2: for every input, the pre-tokenizer output is a list of non-empty
strings whose concatenation, in order, is exactly the input; this holds for
every choice of the character-class functions, in particular Go's. -/
theorem pretokenize_total_coverage (cc : CharClasses) (text : Str) :
    (Tokenize cc text).flatten = text ∧ ∀ t ∈ Tokenize cc text, t ≠ [] :=
  ⟨by simpa using tokenizeLoop_flatten cc text 0, tokenizeLoop_ne_nil cc text 0⟩

/-- C9: each call to `matchNext` strictly advances the position by at least
one codepoint, for every choice of the character-class functions; this is
the fact that makes the `Tokenize` loop (defined by recursion on the
remaining length) total. -/
theorem matchNext_strictly_advances (cc : CharClasses) (input : Str)
    (pos : Nat) (h : pos < input.length) :
    pos + 1 ≤ (matchNext cc input pos).2 :=
  matchNext_advances cc input pos h

/-- Witness for C9: on the concrete input `hi` at position 0 the state
machine strictly advances. -/
theorem matchNext_strictly_advances_witness :
    0 + 1 ≤ (matchNext asciiClasses [104, 105] 0).2 :=
  matchNext_strictly_advances asciiClasses [104, 105] 0 (by decide)

/-- C3: when the whitespace rule applies (the current codepoint is
whitespace), `tryWhitespace` consumes the maximal whitespace run; if the
run is followed by a further codepoint (necessarily non-whitespace, by
maximality) and has length at least 2, the emitted pre-token stops one
codepoint short of the run, otherwise the whole run is emitted. -/
theorem whitespace_rule_backoff (isW : Nat → Bool) (input : Str) (pos : Nat)
    (h : pos < input.length) (hw : isW (input.getD pos 0) = true) :
    tryWhitespace isW input pos =
      (let run := countWhile isW input pos
      let stop := if pos + run < input.length ∧ 2 ≤ run
        then pos + run - 1 else pos + run
      some (strSlice input pos stop, stop)) := by
  simp only [tryWhitespace, if_pos (And.intro h hw)]
  by_cases hA : pos + countWhile isW input pos < input.length ∧
      2 ≤ countWhile isW input pos
  · rw [if_pos ⟨hA.1, countWhile_max hA.1, by omega⟩, if_pos hA]
  · rw [if_neg, if_neg hA]
    intro hc
    exact hA ⟨hc.1, by omega⟩

/-- Witness for C3, the example from the specification: 11 spaces followed
by a word character pre-tokenize to a 10-space run first. -/
theorem whitespace_rule_backoff_witness :
    tryWhitespace (fun c => c == 32) (List.replicate 11 32 ++ [103]) 0 =
      some (List.replicate 10 32, 10) := by
  rw [whitespace_rule_backoff (fun c => c == 32) (List.replicate 11 32 ++ [103])
    0 (by decide) (by decide)]
  decide

/-!
Character classification for the digit rule.  `state_machine.go` defines
`isNumber(r) = unicode.IsDigit(r)`.  Go's `unicode.IsDigit` tests `0-9`
directly for Latin-1 codepoints and otherwise membership in the decimal
digit (category Nd) table.  The spec instead defines `number` as Unicode
general category N (which also contains categories Nl and No).  Both
tables are transcribed below (Unicode 14.0; the claims settled with them
depend only on rows that are stable across Unicode versions).
-/

/-- The decimal-digit (category Nd) ranges above Latin-1, the table behind
Go `unicode.IsDigit` outside the Latin-1 fast path. -/
def ndRangesAboveLatin1 : List (Nat × Nat) := [
  (0x660, 0x669), (0x6F0, 0x6F9), (0x7C0, 0x7C9), (0x966, 0x96F), (0x9E6, 0x9EF),
  (0xA66, 0xA6F), (0xAE6, 0xAEF), (0xB66, 0xB6F), (0xBE6, 0xBEF), (0xC66, 0xC6F),
  (0xCE6, 0xCEF), (0xD66, 0xD6F), (0xDE6, 0xDEF), (0xE50, 0xE59), (0xED0, 0xED9),
  (0xF20, 0xF29), (0x1040, 0x1049), (0x1090, 0x1099), (0x17E0, 0x17E9), (0x1810,
  0x1819), (0x1946, 0x194F), (0x19D0, 0x19D9), (0x1A80, 0x1A89), (0x1A90, 0x1A99),
  (0x1B50, 0x1B59), (0x1BB0, 0x1BB9), (0x1C40, 0x1C49), (0x1C50, 0x1C59), (0xA620,
  0xA629), (0xA8D0, 0xA8D9), (0xA900, 0xA909), (0xA9D0, 0xA9D9), (0xA9F0, 0xA9F9),
  (0xAA50, 0xAA59), (0xABF0, 0xABF9), (0xFF10, 0xFF19), (0x104A0, 0x104A9), (0x10D30,
  0x10D39), (0x11066, 0x1106F), (0x110F0, 0x110F9), (0x11136, 0x1113F), (0x111D0,
  0x111D9), (0x112F0, 0x112F9), (0x11450, 0x11459), (0x114D0, 0x114D9), (0x11650,
  0x11659), (0x116C0, 0x116C9), (0x11730, 0x11739), (0x118E0, 0x118E9), (0x11950,
  0x11959), (0x11C50, 0x11C59), (0x11D50, 0x11D59), (0x11DA0, 0x11DA9), (0x16A60,
  0x16A69), (0x16AC0, 0x16AC9), (0x16B50, 0x16B59), (0x1D7CE, 0x1D7FF), (0x1E140,
  0x1E149), (0x1E2F0, 0x1E2F9), (0x1E950, 0x1E959), (0x1FBF0, 0x1FBF9)]


/-- Go `unicode.IsDigit`: for Latin-1 codepoints exactly `0..9`; above
Latin-1, membership in the category-Nd table. -/
def goIsDigit (r : Nat) : Bool :=
  if r ≤ 0xFF then 48 ≤ r && r ≤ 57
  else ndRangesAboveLatin1.any (fun p => p.1 ≤ r && r ≤ p.2)

/-- Go `unicode.IsSpace`: the Latin-1 cases `\t \n \v \f \r space U+0085
U+00A0` plus the White_Space ranges above Latin-1. -/
def goIsSpace (r : Nat) : Bool :=
  if r ≤ 0xFF then
    r == 9 || r == 10 || r == 11 || r == 12 || r == 13 || r == 32 ||
      r == 0x85 || r == 0xA0
  else
    [(0x1680, 0x1680), (0x2000, 0x200A), (0x2028, 0x2029), (0x202F, 0x202F),
      (0x205F, 0x205F), (0x3000, 0x3000)].any (fun p => p.1 ≤ r && r ≤ p.2)

/-- The predicate of the specification sentence "number = general category
N": membership in the full category-N table (Nd, Nl and No).  This is the
one definition here that follows the wording of the spec rather than the
code, for comparison against the code predicate `goIsDigit`. -/
def categoryNRanges : List (Nat × Nat) := [
  (0x30, 0x39), (0xB2, 0xB3), (0xB9, 0xB9), (0xBC, 0xBE), (0x660, 0x669), (0x6F0,
  0x6F9), (0x7C0, 0x7C9), (0x966, 0x96F), (0x9E6, 0x9EF), (0x9F4, 0x9F9), (0xA66,
  0xA6F), (0xAE6, 0xAEF), (0xB66, 0xB6F), (0xB72, 0xB77), (0xBE6, 0xBF2), (0xC66,
  0xC6F), (0xC78, 0xC7E), (0xCE6, 0xCEF), (0xD58, 0xD5E), (0xD66, 0xD78), (0xDE6,
  0xDEF), (0xE50, 0xE59), (0xED0, 0xED9), (0xF20, 0xF33), (0x1040, 0x1049), (0x1090,
  0x1099), (0x1369, 0x137C), (0x16EE, 0x16F0), (0x17E0, 0x17E9), (0x17F0, 0x17F9),
  (0x1810, 0x1819), (0x1946, 0x194F), (0x19D0, 0x19DA), (0x1A80, 0x1A89), (0x1A90,
  0x1A99), (0x1B50, 0x1B59), (0x1BB0, 0x1BB9), (0x1C40, 0x1C49), (0x1C50, 0x1C59),
  (0x2070, 0x2070), (0x2074, 0x2079), (0x2080, 0x2089), (0x2150, 0x2182), (0x2185,
  0x2189), (0x2460, 0x249B), (0x24EA, 0x24FF), (0x2776, 0x2793), (0x2CFD, 0x2CFD),
  (0x3007, 0x3007), (0x3021, 0x3029), (0x3038, 0x303A), (0x3192, 0x3195), (0x3220,
  0x3229), (0x3248, 0x324F), (0x3251, 0x325F), (0x3280, 0x3289), (0x32B1, 0x32BF),
  (0xA620, 0xA629), (0xA6E6, 0xA6EF), (0xA830, 0xA835), (0xA8D0, 0xA8D9), (0xA900,
  0xA909), (0xA9D0, 0xA9D9), (0xA9F0, 0xA9F9), (0xAA50, 0xAA59), (0xABF0, 0xABF9),
  (0xFF10, 0xFF19), (0x10107, 0x10133), (0x10140, 0x10178), (0x1018A, 0x1018B),
  (0x102E1, 0x102FB), (0x10320, 0x10323), (0x10341, 0x10341), (0x1034A, 0x1034A),
  (0x103D1, 0x103D5), (0x104A0, 0x104A9), (0x10858, 0x1085F), (0x10879, 0x1087F),
  (0x108A7, 0x108AF), (0x108FB, 0x108FF), (0x10916, 0x1091B), (0x109BC, 0x109BD),
  (0x109C0, 0x109CF), (0x109D2, 0x109FF), (0x10A40, 0x10A48), (0x10A7D, 0x10A7E),
  (0x10A9D, 0x10A9F), (0x10AEB, 0x10AEF), (0x10B58, 0x10B5F), (0x10B78, 0x10B7F),
  (0x10BA9, 0x10BAF), (0x10CFA, 0x10CFF), (0x10D30, 0x10D39), (0x10E60, 0x10E7E),
  (0x10F1D, 0x10F26), (0x10F51, 0x10F54), (0x10FC5, 0x10FCB), (0x11052, 0x1106F),
  (0x110F0, 0x110F9), (0x11136, 0x1113F), (0x111D0, 0x111D9), (0x111E1, 0x111F4),
  (0x112F0, 0x112F9), (0x11450, 0x11459), (0x114D0, 0x114D9), (0x11650, 0x11659),
  (0x116C0, 0x116C9), (0x11730, 0x1173B), (0x118E0, 0x118F2), (0x11950, 0x11959),
  (0x11C50, 0x11C6C), (0x11D50, 0x11D59), (0x11DA0, 0x11DA9), (0x11FC0, 0x11FD4),
  (0x12400, 0x1246E), (0x16A60, 0x16A69), (0x16AC0, 0x16AC9), (0x16B50, 0x16B59),
  (0x16B5B, 0x16B61), (0x16E80, 0x16E96), (0x1D2E0, 0x1D2F3), (0x1D360, 0x1D378),
  (0x1D7CE, 0x1D7FF), (0x1E140, 0x1E149), (0x1E2F0, 0x1E2F9), (0x1E8C7, 0x1E8CF),
  (0x1E950, 0x1E959), (0x1EC71, 0x1ECAB), (0x1ECAD, 0x1ECAF), (0x1ECB1, 0x1ECB4),
  (0x1ED01, 0x1ED2D), (0x1ED2F, 0x1ED3D), (0x1F100, 0x1F10C), (0x1FBF0, 0x1FBF9)]

/-- Membership in Unicode general category N. -/
def specCategoryN (r : Nat) : Bool :=
  categoryNRanges.any (fun p => p.1 ≤ r && r ≤ p.2)

/-- Counterexample to C8 as stated: U+00B2 SUPERSCRIPT TWO is in general
category N (subcategory No), yet the digit rule does not match it, because
the code predicate is `unicode.IsDigit` (category Nd only): `tryNumbers`
returns no match on the one-codepoint input `²`. -/
theorem digit_rule_categoryN_counterexample :
    specCategoryN 0xB2 = true ∧ tryNumbers goIsDigit [0xB2] 0 = none := by
  constructor
  · decide
  · decide

/-- C8 as amended: the digit rule matches 1 to 3 consecutive codepoints
satisfying Go `unicode.IsDigit` (decimal digits, category Nd), stopping at
3 even if more follow; for every such codepoint at the current position
the rule produces a match. -/
theorem digit_rule_matches_goIsDigit (input : Str) (pos : Nat)
    (h : pos < input.length) (hd : goIsDigit (input.getD pos 0) = true) :
    tryNumbers goIsDigit input pos =
      some (strSlice input pos (pos + min 3 (countWhile goIsDigit input pos)),
        pos + min 3 (countWhile goIsDigit input pos)) ∧
    1 ≤ min 3 (countWhile goIsDigit input pos) ∧
    min 3 (countWhile goIsDigit input pos) ≤ 3 := by
  refine ⟨?_, ?_, by omega⟩
  · simp only [tryNumbers, if_pos (And.intro h hd)]
  · have h1 := countWhile_pos h hd
    omega

/-- Witness for the amended C8 on the digit string `1234`: exactly the
first three digits are consumed. -/
theorem digit_rule_matches_goIsDigit_witness :
    tryNumbers goIsDigit [49, 50, 51, 52] 0 = some ([49, 50, 51], 3) := by
  rw [(digit_rule_matches_goIsDigit [49, 50, 51, 52] 0 (by decide) (by decide)).1]
  decide

/-!
Merge-blob decoding, from `unpack17BitIntegers` and
`Tokenizer.decompressMerges` (old-generation `llama3` data file; the same
pair loop backs the current head through `DecompressMergeRules`).  The
base64 layer is elided: functions take the decoded byte blob.
-/

/-- The `bitMask` table of `unpack17BitIntegers`: masks of 17 to 24 bits. -/
def bitMask : List Nat :=
  [0b11111111111111111, 0b111111111111111111, 0b1111111111111111111,
    0b11111111111111111111, 0b111111111111111111111, 0b1111111111111111111111,
    0b11111111111111111111111, 0b111111111111111111111111]

/-- The loop body of `unpack17BitIntegers`, iterated over the successive
values of `bitIndex` (`0, 17, 34, ...`, all below `firstPaddingBit`):
read a 24-bit window at the containing byte, mask off the leading
`bitIndex % 8` bits, shift out the trailing bits; stop (`break`) when
fewer than 3 window bytes remain. -/
def unpack17Loop (data : List Nat) : List Nat → List Nat
  | [] => []
  | bitIndex :: rest =>
    let byteIndex := bitIndex / 8
    if data.length ≤ byteIndex + 2 then []
    else
      let byte1 := data.getD byteIndex 0
      let byte2 := data.getD (byteIndex + 1) 0
      let byte3 := data.getD (byteIndex + 2) 0
      let tokenID := (byte1 <<< 16) + (byte2 <<< 8) + byte3
      let bitOffset := bitIndex % 8
      let tokenID1 := if bitOffset < bitMask.length
        then tokenID &&& bitMask.getD (8 - bitOffset - 1) 0 else tokenID
      let rightShift := 8 - (17 - 8 - (8 - bitOffset))
      let tokenID2 := if 0 < rightShift ∧ rightShift < 24
        then tokenID1 >>> rightShift else tokenID1
      tokenID2 :: unpack17Loop data rest

/-- The function `unpack17BitIntegers`: 17-bit unsigned values packed
MSB-first; trailing padding bits are ignored.  The Go `for` loop steps
`bitIndex` by 17 while it is below `firstPaddingBit` (a multiple of 17),
which is exactly the index list `range' 0 (firstPaddingBit / 17) 17`. -/
def unpack17BitIntegers (data : List Nat) : List Nat :=
  let maxBits := data.length * 8
  let firstPaddingBit := maxBits - maxBits % 17
  unpack17Loop data (List.range' 0 (firstPaddingBit / 17) 17)

/-- The function `getMergeIdentifier`: the two token strings joined by a
single space. -/
def getMergeIdentifier (vocabByID : List Str) (id1 id2 : Nat) : Str :=
  vocabByID.getD id1 [] ++ [32] ++ vocabByID.getD id2 []

/-- The pair loop of `decompressMerges`, iterated over the successive even
values of `i` for which the pair `(ts[i], ts[i+1])` is complete (the Go
loop breaks at `i+1 >= len(ts)`): a pair with an out-of-range ID is
skipped; otherwise pair `i/2` is inserted with priority `i/2 + 1`.  The
returned list records the map insertions in program order. -/
def mergePairsLoop (vocabByID : List Str) (ts : List Nat) :
    List Nat → List (Str × Nat)
  | [] => []
  | i :: rest =>
    let id1 := ts.getD i 0
    let id2 := ts.getD (i + 1) 0
    if vocabByID.length ≤ id1 ∨ vocabByID.length ≤ id2 then
      mergePairsLoop vocabByID ts rest
    else
      (getMergeIdentifier vocabByID id1 id2, i / 2 + 1) ::
        mergePairsLoop vocabByID ts rest

/-- The function `decompressMerges` on the decoded blob: the sequence of
`merges[mergeIdentifier] = i/2 + 1` map insertions. -/
def decompressMerges (vocabByID : List Str) (decoded : List Nat) :
    List (Str × Nat) :=
  let ts := unpack17BitIntegers decoded
  mergePairsLoop vocabByID ts (List.range' 0 (ts.length / 2) 2)

/-- Replay of Go map insertion semantics: a later assignment to the same
key overwrites the earlier one, so a lookup returns the value of the last
insertion. -/
def mapGetLast (m : List (Str × Nat)) (k : Str) : Option Nat :=
  m.foldl (fun acc p => if p.1 == k then some p.2 else acc) none

/-- Counterexample to C6 as stated: with vocabulary `["a", "b"]` and a blob
packing the 17-bit values `0, 1, 0, 1` (pairs `(0,1)` and `(0,1)`), the
identifier `"a b"` is produced at pair positions 1 and 2; the map retains
priority 2, the priority of the LATER occurrence, because the second
insertion overwrites the first. -/
theorem decompressMerges_duplicate_counterexample :
    unpack17BitIntegers [0, 0, 0, 0, 64, 0, 0, 0, 16] = [0, 1, 0, 1] ∧
      decompressMerges [[97], [98]] [0, 0, 0, 0, 64, 0, 0, 0, 16] =
        [([97, 32, 98], 1), ([97, 32, 98], 2)] ∧
      mapGetLast (decompressMerges [[97], [98]] [0, 0, 0, 0, 64, 0, 0, 0, 16])
        [97, 32, 98] = some 2 := by
  refine ⟨by decide, by decide, by decide⟩

/-- C6 as amended: when the same merge identifier is produced by two
different pair positions, the merge table retains the priority of the
latest occurrence: a map lookup returns the value of the last insertion
with that key. -/
theorem decompressMerges_last_duplicate_wins (vocabByID : List Str)
    (decoded : List Nat) (k : Str) :
    mapGetLast (decompressMerges vocabByID decoded) k =
      (((decompressMerges vocabByID decoded).filter
        (fun p => p.1 == k)).getLast?).map (·.2) := by
  have main : ∀ (m : List (Str × Nat)) (acc : Option Nat),
      m.foldl (fun acc p => if p.1 == k then some p.2 else acc) acc =
        match (m.filter (fun p => p.1 == k)).getLast? with
        | some p => some p.2
        | none => acc := by
    intro m
    induction m with
    | nil => intro acc; rfl
    | cons p m ih =>
      intro acc
      rw [List.foldl_cons, ih, List.filter_cons]
      by_cases hk : (p.1 == k) = true
      · rw [if_pos hk, if_pos hk]
        cases hfm : m.filter (fun p => p.1 == k) with
        | nil => rfl
        | cons q rest =>
          rw [List.getLast?_cons_cons]
          cases hg : (q :: rest).getLast? with
          | some r => rfl
          | none => exact absurd hg (by simp)
      · rw [if_neg hk, if_neg hk]
  rw [mapGetLast, main]
  cases (((decompressMerges vocabByID decoded).filter
      (fun p => p.1 == k)).getLast?) <;> rfl

/-!
Vocabulary decoding.  The new-generation loader's
`internal/vocabulary.DecodeVocabulary` body is missing from the sources
(`loader.go` only calls it), but the old-generation `decodeVocabulary`
of `part_006` is present, and `New` of `tokenizer.go` (lines 547-592,
the constructor that calls it) is present as well; both are embedded
here.  Neither performs any validation of the decoded list's length.
-/

/-- `decodeVocabulary` of `part_006` (lines 21-41): base64-decode the
input, split the decoded text on `'\n'` (byte 10), drop empty tokens,
and return the rest.  The base64 layer is elided (the argument is the
decoded byte text), so the function's only error path, a malformed
base64 input, cannot arise here; after decoding there is no further
error condition, and in particular no check of the token count. -/
def decodeVocabulary (decoded : Str) : Except Unit (List Str) :=
  Except.ok ((decoded.splitOn 10).filter (fun tk => !tk.isEmpty))

/-- The vocabulary phase of `New` in `tokenizer.go` (lines 547-571):
decode the vocabulary into `t.vocabByID`, then append the special
tokens (the defaults when none are given).  A decode error aborts
construction; no other condition does. -/
def newVocabulary (decoded : Str) (specialTokens : List Str) :
    Except Unit (List Str) :=
  match decodeVocabulary decoded with
  | Except.error e => Except.error e
  | Except.ok voc => Except.ok (voc ++ specialTokens)

/-- C7 counterexample: construction does not reject a vocabulary whose
decoded token list has a length other than 128000.  The two-line text
`"a\nb"` decodes to the 2-entry list `["a", "b"]`, yet `decodeVocabulary`
succeeds and `New`'s vocabulary phase constructs `vocabByID` from it
(here with a single special token appended) without error. -/
theorem vocabulary_length_unchecked_counterexample :
    decodeVocabulary [97, 10, 98] = Except.ok [[97], [98]] ∧
      newVocabulary [97, 10, 98] [[60, 115, 62]] =
        Except.ok [[97], [98], [60, 115, 62]] ∧
      ([[97], [98]] : List Str).length ≠ 128000 := by
  refine ⟨rfl, rfl, by decide⟩

/-- C7 amended: for every decoded vocabulary input, `decodeVocabulary`
splits on newlines and drops empty tokens only, and `New`'s vocabulary
phase always succeeds, appending the special tokens to whatever list
results — no length validation is performed anywhere between decoding
and construction. -/
theorem vocabulary_length_never_checked (decoded : Str) (specials : List Str) :
    newVocabulary decoded specials =
      Except.ok (((decoded.splitOn 10).filter (fun tk => !tk.isEmpty))
        ++ specials) := rfl

/-!
BPE priority queue, from the `priorityQueue` of `llama3/bpe.go` /
`internal/bpe` and Go's `container/heap`.  The heap is the slice of
node indices ordered by `Less`, which compares the nodes' `mergePrio`
keys; `Push` appends and sifts up, `Pop` swaps the root with the last
element, sifts down, and removes the last element.  The float64 key
`float64(mergePrio) + float64(origPos)/float64(pretokenLen)` is modelled
with exact rational arithmetic.
-/

/-- The priority key set by `addToMergeQueue`:
`mergePrio + origPos/pretokenLen` (exact-rational model of the float64
computation). -/
def mergeKey (mergePrio origPos pretokenLen : Nat) : ℚ :=
  (mergePrio : ℚ) + (origPos : ℚ) / (pretokenLen : ℚ)

/-- Go slice element swap `h[i], h[j] = h[j], h[i]`. -/
def listSwap (h : List Nat) (i j : Nat) : List Nat :=
  (h.set i (h.getD j 0)).set j (h.getD i 0)

/-- Go `container/heap` `up`: while the element at `j` sorts strictly
before its parent, swap them and continue from the parent. -/
def siftUp (k : Nat → ℚ) (h : List Nat) (j : Nat) : List Nat :=
  if hj : 0 < j then
    let i := (j - 1) / 2
    if k (h.getD j 0) < k (h.getD i 0) then siftUp k (listSwap h i j) i
    else h
  else h
termination_by j
decreasing_by omega

/-- Go `container/heap` `down` on the prefix of length `n`: move the
element at `i` down, always swapping with the smaller-keyed child. -/
def siftDown (k : Nat → ℚ) (h : List Nat) (i n : Nat) : List Nat :=
  let j1 := 2 * i + 1
  if hj : j1 < n then
    let j2 := j1 + 1
    let j := if j2 < n ∧ k (h.getD j2 0) < k (h.getD j1 0) then j2 else j1
    if k (h.getD j 0) < k (h.getD i 0) then siftDown k (listSwap h i j) j n
    else h
  else h
termination_by n - i
decreasing_by
  split <;> omega

/-- Go `heap.Push`: append the element, then sift it up. -/
def heapPush (k : Nat → ℚ) (h : List Nat) (x : Nat) : List Nat :=
  siftUp k (h ++ [x]) h.length

/-- Go `heap.Pop`: swap the root with the last element, sift the new root
down over the shortened prefix, then remove and return the last element
(the old root). -/
def heapPop (k : Nat → ℚ) (h : List Nat) : Option (Nat × List Nat) :=
  if h.length = 0 then none
  else
    let n := h.length - 1
    let h2 := siftDown k (listSwap h 0 n) 0 n
    some (h2.getD n 0, h2.take n)

section HeapLemmas

lemma listSwap_length (h : List Nat) (a b : Nat) :
    (listSwap h a b).length = h.length := by
  simp [listSwap]

lemma siftDown_length (k : Nat → ℚ) (h : List Nat) (i n : Nat) :
    (siftDown k h i n).length = h.length := by
  rw [siftDown]
  split
  · dsimp only
    split <;> split <;>
      first
        | rw [siftDown_length, listSwap_length]
        | rfl
  · rfl
termination_by n - i
decreasing_by all_goals omega

end HeapLemmas

/-!
The float64 key of `addToMergeQueue`.  The exact-rational `mergeKey`
above idealises the key; the Go program computes it in IEEE-754 binary64
arithmetic, where every conversion and every operation rounds the exact
value to 53 significant bits.  That rounding is modelled here exactly,
over ℚ: `rle` is round-to-nearest with ties to even at integer
granularity, and `fl` scales a rational into the 53-bit grid of its
binade, rounds, and scales back.
-/

/-- Round a rational to the nearest integer with ties to even: the
rounding rule of IEEE-754 round-to-nearest-even, at integer
granularity. -/
def rle (q : ℚ) : ℤ :=
  if q - (⌊q⌋ : ℚ) < 1/2 then ⌊q⌋
  else if (1:ℚ)/2 < q - (⌊q⌋ : ℚ) then ⌊q⌋ + 1
  else if ⌊q⌋ % 2 = 0 then ⌊q⌋ else ⌊q⌋ + 1

/-- IEEE-754 binary64 rounding of an exact rational under
round-to-nearest-even: the value is scaled into the 53-bit integer grid
of its binade (binade exponent `Int.log 2 |q|`; grid step
`max (e - 52) (-1074)`, the `max` clamping to the fixed subnormal grid
below `2^(-1022)`), rounded to the nearest grid point with ties to even,
and scaled back.  Overflow to infinity (binade exponent above 1023) is
not modelled: the program's merge keys stay far below that range. -/
def fl (q : ℚ) : ℚ :=
  if q = 0 then 0
  else (rle (q / 2 ^ (max (Int.log 2 |q| - 52) (-1074))) : ℚ)
    * 2 ^ (max (Int.log 2 |q| - 52) (-1074))

/-- The float64 priority key set by `addToMergeQueue` in `bpe.go`:
`float64(mergePrio) + float64(leftNode.origPos)/float64(pretokenLen)`,
with each `int`-to-`float64` conversion and each arithmetic operation
rounded to binary64 (`fl`), exactly as Go evaluates the expression.
(`mergeKey` is the exact-rational idealisation of this key used by the
arena model of the merge loop.) -/
def mergeKeyF (mergePrio origPos pretokenLen : Nat) : ℚ :=
  fl (fl (mergePrio : ℚ) + fl (fl (origPos : ℚ) / fl (pretokenLen : ℚ)))

section FloatRounding

lemma rle_intCast (n : ℤ) : rle (n : ℚ) = n := by
  rw [rle, Int.floor_intCast, if_pos (by norm_num)]

lemma floor_le_rle (q : ℚ) : ⌊q⌋ ≤ rle q := by
  rw [rle]
  split_ifs <;> omega

lemma rle_le_floor_add_one (q : ℚ) : rle q ≤ ⌊q⌋ + 1 := by
  rw [rle]
  split_ifs <;> omega

lemma rle_nonneg {q : ℚ} (h : 0 ≤ q) : 0 ≤ rle q := by
  have h1 := floor_le_rle q
  have h2 : 0 ≤ ⌊q⌋ := Int.floor_nonneg.mpr h
  omega

lemma rle_le_ceil (q : ℚ) : rle q ≤ ⌈q⌉ := by
  by_cases hq : q - (⌊q⌋ : ℚ) < 1/2
  · rw [rle, if_pos hq]
    exact Int.floor_le_ceil q
  · have hfrac : (⌊q⌋ : ℚ) < q := by
      push_neg at hq
      linarith
    have hlt : ⌊q⌋ < ⌈q⌉ := by
      have := Int.le_ceil q
      exact_mod_cast lt_of_lt_of_le hfrac this
    have := rle_le_floor_add_one q
    omega

lemma rle_mono {a b : ℚ} (h : a ≤ b) : rle a ≤ rle b := by
  rcases lt_or_le ⌊a⌋ ⌊b⌋ with hf | hf
  · have h1 := rle_le_floor_add_one a
    have h2 := floor_le_rle b
    omega
  · have heq : ⌊b⌋ = ⌊a⌋ := le_antisymm hf (Int.floor_mono h)
    have hfr : a - (⌊a⌋ : ℚ) ≤ b - (⌊a⌋ : ℚ) := by linarith
    rw [rle, rle, heq]
    split_ifs <;> first | omega | linarith

lemma intCast_two_pow_toNat {z : ℤ} (h : 0 ≤ z) :
    ((2 ^ z.toNat : ℤ) : ℚ) = (2:ℚ) ^ z := by
  rw [Int.cast_pow, ← zpow_natCast, Int.toNat_of_nonneg h]
  norm_num

lemma intCast_two_pow_52 : ((2 ^ 52 : ℤ) : ℚ) = (2:ℚ) ^ (52:ℤ) := by
  rw [Int.cast_pow, ← zpow_natCast]
  norm_num

lemma rle_le_two_zpow {x : ℚ} {m : ℤ} (hx : 0 ≤ x) (h : x < 2 ^ m) :
    (rle x : ℚ) ≤ 2 ^ m := by
  rcases le_or_lt 0 m with hm | hm
  · have hcast : ((2 ^ m.toNat : ℤ) : ℚ) = (2:ℚ) ^ m := intCast_two_pow_toNat hm
    have hceil : ⌈x⌉ ≤ 2 ^ m.toNat := by
      apply Int.ceil_le.mpr
      rw [hcast]
      exact le_of_lt h
    have hr := rle_le_ceil x
    calc (rle x : ℚ) ≤ ((2 ^ m.toNat : ℤ) : ℚ) := by
          exact_mod_cast le_trans hr hceil
      _ = 2 ^ m := hcast
  · have hsmall : x < 1/2 := by
      have h2 : (2:ℚ) ^ m ≤ 2 ^ (-1 : ℤ) := zpow_le_zpow_right₀ (by norm_num) (by omega)
      have h3 : (2:ℚ) ^ (-1 : ℤ) = 1/2 := by norm_num
      rw [h3] at h2
      exact lt_of_lt_of_le h h2
    have hfloor : ⌊x⌋ = 0 := by
      rw [Int.floor_eq_zero_iff]
      constructor
      · exact hx
      · linarith
    have hrle : rle x = 0 := by
      rw [rle, hfloor, if_pos]
      push_cast
      linarith
    rw [hrle]
    push_cast
    positivity

lemma fl_zero : fl 0 = 0 := by
  simp [fl]

lemma fl_nonneg {q : ℚ} (h : 0 ≤ q) : 0 ≤ fl q := by
  rw [fl]
  split_ifs with h0
  · exact le_refl 0
  · have h1 : (0:ℚ) ≤ (rle (q / 2 ^ (max (Int.log 2 |q| - 52) (-1074))) : ℚ) := by
      exact_mod_cast rle_nonneg (div_nonneg h (by positivity))
    have h2 : (0:ℚ) ≤ 2 ^ (max (Int.log 2 |q| - 52) (-1074)) := by positivity
    exact mul_nonneg h1 h2

lemma two_zpow_log_le_fl {q : ℚ} (hq : 0 < q)
    (he : -1074 ≤ Int.log 2 q - 52) : (2:ℚ) ^ (Int.log 2 q) ≤ fl q := by
  have habs : |q| = q := abs_of_pos hq
  have hmax : max (Int.log 2 q - 52) (-1074) = Int.log 2 q - 52 := max_eq_left he
  have hself : (2:ℚ) ^ (Int.log 2 q) ≤ q := Int.zpow_log_le_self (by norm_num) hq
  have hsplit : ((2 ^ 52 : ℤ) : ℚ) * 2 ^ (Int.log 2 q - 52) = 2 ^ (Int.log 2 q) := by
    rw [intCast_two_pow_52, ← zpow_add₀ (by norm_num : (2:ℚ) ≠ 0)]
    congr 1
    omega
  have hxge : ((2 ^ 52 : ℤ) : ℚ) ≤ q / 2 ^ (Int.log 2 q - 52) := by
    rw [le_div_iff₀ (by positivity), hsplit]
    exact hself
  have hfloor : (2 ^ 52 : ℤ) ≤ rle (q / 2 ^ (Int.log 2 q - 52)) := by
    have h1 : (2 ^ 52 : ℤ) ≤ ⌊q / 2 ^ (Int.log 2 q - 52)⌋ := Int.le_floor.mpr hxge
    have h2 := floor_le_rle (q / 2 ^ (Int.log 2 q - 52))
    omega
  rw [fl, if_neg (ne_of_gt hq), habs, hmax, ← hsplit]
  have hpos : (0:ℚ) < 2 ^ (Int.log 2 q - 52) := by positivity
  exact mul_le_mul_of_nonneg_right (by exact_mod_cast hfloor) (le_of_lt hpos)

lemma fl_le_two_zpow {q : ℚ} (hq : 0 < q) :
    fl q ≤ 2 ^ (Int.log 2 q + 1) := by
  have habs : |q| = q := abs_of_pos hq
  have hlt : q < (2:ℚ) ^ (Int.log 2 q + 1) := Int.lt_zpow_succ_log_self (by norm_num) q
  rw [fl, if_neg (ne_of_gt hq), habs]
  have hxlt : q / 2 ^ (max (Int.log 2 q - 52) (-1074))
      < 2 ^ (Int.log 2 q + 1 - max (Int.log 2 q - 52) (-1074)) := by
    rw [div_lt_iff₀ (by positivity), ← zpow_add₀ (by norm_num : (2:ℚ) ≠ 0)]
    have harith : Int.log 2 q + 1 - max (Int.log 2 q - 52) (-1074)
        + max (Int.log 2 q - 52) (-1074) = Int.log 2 q + 1 := by omega
    rw [harith]
    exact hlt
  have hrle := rle_le_two_zpow (div_nonneg (le_of_lt hq) (by positivity)) hxlt
  calc (rle (q / 2 ^ (max (Int.log 2 q - 52) (-1074))) : ℚ)
        * 2 ^ (max (Int.log 2 q - 52) (-1074))
      ≤ 2 ^ (Int.log 2 q + 1 - max (Int.log 2 q - 52) (-1074))
        * 2 ^ (max (Int.log 2 q - 52) (-1074)) := by
        have hpos : (0:ℚ) < 2 ^ (max (Int.log 2 q - 52) (-1074)) := by positivity
        exact mul_le_mul_of_nonneg_right hrle (le_of_lt hpos)
    _ = 2 ^ (Int.log 2 q + 1) := by
        rw [← zpow_add₀ (by norm_num : (2:ℚ) ≠ 0)]
        congr 1
        omega

lemma fl_mono {a b : ℚ} (ha : 0 ≤ a) (hab : a ≤ b) : fl a ≤ fl b := by
  rcases eq_or_lt_of_le ha with h0 | hapos
  · rw [← h0, fl_zero]
    exact fl_nonneg (le_trans ha hab)
  · have hbpos : 0 < b := lt_of_lt_of_le hapos hab
    have hloga : |a| = a := abs_of_pos hapos
    have hlogb : |b| = b := abs_of_pos hbpos
    have hlog : Int.log 2 a ≤ Int.log 2 b := Int.log_mono_right hapos hab
    have hstep : max (Int.log 2 a - 52) (-1074) ≤ max (Int.log 2 b - 52) (-1074) := by
      rcases max_cases (Int.log 2 a - 52) (-1074) with ⟨h1, h2⟩ | ⟨h1, h2⟩ <;>
        rcases max_cases (Int.log 2 b - 52) (-1074) with ⟨h3, h4⟩ | ⟨h3, h4⟩ <;> omega
    rcases eq_or_lt_of_le hstep with hseq | hslt
    · rw [fl, fl, if_neg (ne_of_gt hapos), if_neg (ne_of_gt hbpos), hloga, hlogb, hseq]
      have hdiv : a / 2 ^ (max (Int.log 2 b - 52) (-1074))
          ≤ b / 2 ^ (max (Int.log 2 b - 52) (-1074)) :=
        div_le_div_of_nonneg_right hab (by positivity)
      have hpos : (0:ℚ) ≤ 2 ^ (max (Int.log 2 b - 52) (-1074)) := by positivity
      exact mul_le_mul_of_nonneg_right (by exact_mod_cast rle_mono hdiv) hpos
    · have hsb : max (Int.log 2 b - 52) (-1074) = Int.log 2 b - 52 := by
        rcases max_cases (Int.log 2 b - 52) (-1074) with ⟨h1, h2⟩ | ⟨h1, h2⟩ <;> omega
      have hea : Int.log 2 a - 52 ≤ max (Int.log 2 a - 52) (-1074) := le_max_left _ _
      have hb52 : -1074 ≤ Int.log 2 b - 52 := by omega
      calc fl a ≤ 2 ^ (Int.log 2 a + 1) := fl_le_two_zpow hapos
        _ ≤ 2 ^ (Int.log 2 b) := zpow_le_zpow_right₀ (by norm_num) (by omega)
        _ ≤ fl b := two_zpow_log_le_fl hbpos hb52

lemma fl_two_zpow (z : ℤ) (hz : -1074 ≤ z) : fl ((2:ℚ) ^ z) = 2 ^ z := by
  have hpos : (0:ℚ) < 2 ^ z := by positivity
  have habs : |(2:ℚ) ^ z| = 2 ^ z := abs_of_pos hpos
  have hlog : Int.log 2 ((2:ℚ) ^ z) = z := Int.log_zpow (by norm_num) z
  rw [fl, if_neg (ne_of_gt hpos), habs, hlog]
  have hxcast : (2:ℚ) ^ z / 2 ^ (max (z - 52) (-1074))
      = ((2 ^ (z - max (z - 52) (-1074)).toNat : ℤ) : ℚ) := by
    rw [← zpow_sub₀ (by norm_num : (2:ℚ) ≠ 0), intCast_two_pow_toNat (by omega)]
  have hbne : ((2:ℚ) ^ (max (z - 52) (-1074))) ≠ 0 := by positivity
  rw [hxcast, rle_intCast, ← hxcast, div_mul_cancel₀ _ hbne]

lemma fl_one : fl 1 = 1 := by
  have h := fl_two_zpow 0 (by norm_num)
  rw [zpow_zero] at h
  exact h

lemma fl_one_le {q : ℚ} (h : 1 ≤ q) : 1 ≤ fl q := by
  have hpos : (0:ℚ) < q := lt_of_lt_of_le (by norm_num) h
  have hlog : 0 ≤ Int.log 2 q := by
    have h1 : Int.log 2 (1:ℚ) ≤ Int.log 2 q := Int.log_mono_right (by norm_num) h
    rwa [Int.log_one_right] at h1
  calc (1:ℚ) = 2 ^ (0:ℤ) := by norm_num
    _ ≤ 2 ^ (Int.log 2 q) := zpow_le_zpow_right₀ (by norm_num) hlog
    _ ≤ fl q := two_zpow_log_le_fl hpos (by omega)

end FloatRounding

/-- C5 counterexample: the float64 tie-breaking key of `addToMergeQueue`
is not strictly monotone in the left node's original position.  At
integer merge priority 1 and pre-token length `2^54`, the exact keys of
positions 0 and 1 are `1` and `1 + 2^(-54)`, but binary64 addition
rounds the latter back to `1`: the two keys the program computes are
equal, so nothing orders these two equal-priority merges left-to-right.
(The exact-rational idealisation `mergeKey` keeps them apart, which is
why strict monotonicity is provable of the idealisation but false of
the program.) -/
theorem merge_priority_float_collapse_counterexample :
    mergeKeyF 1 0 (2 ^ 54) = mergeKeyF 1 1 (2 ^ 54) ∧
      mergeKey 1 0 (2 ^ 54) < mergeKey 1 1 (2 ^ 54) := by
  have hlen : ((2 ^ 54 : ℕ) : ℚ) = (2:ℚ) ^ (54:ℤ) := by
    rw [Nat.cast_pow, ← zpow_natCast]
    norm_num
  have hfllen : fl ((2 ^ 54 : ℕ) : ℚ) = (2:ℚ) ^ (54:ℤ) := by
    rw [hlen, fl_two_zpow 54 (by norm_num)]
  have hinv : (1:ℚ) / (2:ℚ) ^ (54:ℤ) = (2:ℚ) ^ (-54:ℤ) := by
    rw [zpow_neg, one_div]
  have hflinv : fl ((2:ℚ) ^ (-54:ℤ)) = (2:ℚ) ^ (-54:ℤ) :=
    fl_two_zpow (-54) (by norm_num)
  have hqpos : (0:ℚ) < 1 + (2:ℚ) ^ (-54:ℤ) := by positivity
  have hsmall : (2:ℚ) ^ (-54:ℤ) = 1 / 2 ^ (54:ℕ) := by
    rw [zpow_neg, ← zpow_natCast]
    norm_num
  have hlog1 : Int.log 2 (1 + (2:ℚ) ^ (-54:ℤ)) = 0 := by
    have hge : (1:ℚ) ≤ 1 + (2:ℚ) ^ (-54:ℤ) := le_add_of_nonneg_right (by positivity)
    have hnn : 0 ≤ Int.log 2 (1 + (2:ℚ) ^ (-54:ℤ)) := by
      have h1 : Int.log 2 (1:ℚ) ≤ Int.log 2 (1 + (2:ℚ) ^ (-54:ℤ)) :=
        Int.log_mono_right (by norm_num) hge
      rwa [Int.log_one_right] at h1
    have hlt2 : 1 + (2:ℚ) ^ (-54:ℤ) < 2 := by
      rw [hsmall]
      norm_num
    by_contra hne
    have hone : 1 ≤ Int.log 2 (1 + (2:ℚ) ^ (-54:ℤ)) := by omega
    have h2le : (2:ℚ) ≤ 1 + (2:ℚ) ^ (-54:ℤ) := by
      calc (2:ℚ) = 2 ^ (1:ℤ) := by norm_num
        _ ≤ 2 ^ (Int.log 2 (1 + (2:ℚ) ^ (-54:ℤ))) := zpow_le_zpow_right₀ (by norm_num) hone
        _ ≤ 1 + (2:ℚ) ^ (-54:ℤ) := Int.zpow_log_le_self (by norm_num) hqpos
    linarith
  have hm52 : (2:ℚ) ^ (-52:ℤ) = 1 / 2 ^ (52:ℕ) := by
    rw [zpow_neg, ← zpow_natCast]
    norm_num
  have hx : (1 + (2:ℚ) ^ (-54:ℤ)) / 2 ^ (-52:ℤ) = ((2 ^ 52 : ℤ) : ℚ) + 1/4 := by
    rw [hsmall, hm52, Int.cast_pow]
    norm_num
  have hfloorx : ⌊((2 ^ 52 : ℤ) : ℚ) + 1/4⌋ = 2 ^ 52 := by
    rw [Int.floor_int_add]
    norm_num
  have hrlex : rle (((2 ^ 52 : ℤ) : ℚ) + 1/4) = 2 ^ 52 := by
    rw [rle, hfloorx, if_pos]
    norm_num
  have hmax0 : max ((0:ℤ) - 52) (-1074) = -52 := by norm_num
  have hfl1p : fl (1 + (2:ℚ) ^ (-54:ℤ)) = 1 := by
    rw [fl, if_neg (ne_of_gt hqpos), abs_of_pos hqpos, hlog1, hmax0, hx, hrlex,
      intCast_two_pow_52, ← zpow_add₀ (by norm_num : (2:ℚ) ≠ 0)]
    norm_num
  have hkey1 : mergeKeyF 1 1 (2 ^ 54) = 1 := by
    rw [mergeKeyF, Nat.cast_one, fl_one, hfllen, hinv, hflinv, hfl1p]
  have hkey0 : mergeKeyF 1 0 (2 ^ 54) = 1 := by
    rw [mergeKeyF, Nat.cast_one, Nat.cast_zero, fl_one, fl_zero, zero_div,
      fl_zero, add_zero, fl_one]
  constructor
  · rw [hkey0, hkey1]
  · rw [mergeKey, mergeKey]
    push_cast
    norm_num

/-- C5 amended: the binary64 tie-breaking key
`float64(mergePrio) + float64(origPos)/float64(pretokenLen)` is weakly
(not strictly) monotone in the left node's original position: a larger
position never yields a smaller key, but distinct positions can round
to equal keys, so equal integer priorities resolve left-to-right only
up to such collapses. -/
theorem merge_priority_weak_monotone (prio p1 p2 len : Nat)
    (hlen : 1 ≤ len) (h12 : p1 ≤ p2) :
    mergeKeyF prio p1 len ≤ mergeKeyF prio p2 len := by
  rw [mergeKeyF, mergeKeyF]
  have hlenQ : (1:ℚ) ≤ (len : ℚ) := by exact_mod_cast hlen
  have hfllen : (1:ℚ) ≤ fl (len : ℚ) := fl_one_le hlenQ
  have hfllenpos : (0:ℚ) < fl (len : ℚ) := lt_of_lt_of_le (by norm_num) hfllen
  have hp : fl (p1 : ℚ) ≤ fl (p2 : ℚ) :=
    fl_mono (by positivity) (by exact_mod_cast h12)
  have hp1 : (0:ℚ) ≤ fl (p1 : ℚ) := fl_nonneg (by positivity)
  have hdiv : fl (p1 : ℚ) / fl (len : ℚ) ≤ fl (p2 : ℚ) / fl (len : ℚ) := by
    gcongr
  have hdiv0 : (0:ℚ) ≤ fl (p1 : ℚ) / fl (len : ℚ) :=
    div_nonneg hp1 (le_of_lt hfllenpos)
  have hinner : fl (fl (p1 : ℚ) / fl (len : ℚ)) ≤ fl (fl (p2 : ℚ) / fl (len : ℚ)) :=
    fl_mono hdiv0 hdiv
  have hinner0 : (0:ℚ) ≤ fl (fl (p1 : ℚ) / fl (len : ℚ)) := fl_nonneg hdiv0
  have hsum0 : (0:ℚ) ≤ fl (prio : ℚ) + fl (fl (p1 : ℚ) / fl (len : ℚ)) :=
    add_nonneg (fl_nonneg (by positivity)) hinner0
  exact fl_mono hsum0 (add_le_add_left hinner _)

/-- Witness for the amended C5 theorem: integer priority 5, positions 2
and 3 in a pre-token of length 4. -/
theorem merge_priority_weak_monotone_witness :
    (1 ≤ 4 ∧ 2 ≤ 3) ∧ mergeKeyF 5 2 4 ≤ mergeKeyF 5 3 4 :=
  ⟨⟨by decide, by decide⟩, merge_priority_weak_monotone 5 2 3 4 (by decide) (by decide)⟩

/-!
Tokenizer data and the BPE engine, from `tokenizer.go` and `bpe.go`
(equivalently `internal/bpe`).  Pointer-linked `mergeNode` objects are
embedded as an arena (list of node records addressed by index, allocation
appends); the priority queue holds arena indices.  The cache is elided:
it only memoizes `performBPE` results (`t.cache != nil` is a real code
path), so the cache-free path defines the function's value.
-/

/-- The `mergeNode` record of `bpe.go` (`heapIndex` is bookkeeping of
`container/heap` with no semantic content and is omitted; the heap is
represented as the index slice itself). -/
structure MergeNode where
  origPos : Nat
  tokenID : Nat
  mergePrio : ℚ
  mergeToString : Str
  prev : Option Nat
  next : Option Nat
  deleted : Bool

/-- Placeholder node returned for an out-of-arena index (never reached on
the paths exercised; marked deleted so validity checks fail). -/
def dNode : MergeNode :=
  { origPos := 0, tokenID := 0, mergePrio := 0, mergeToString := [],
    prev := none, next := none, deleted := true }

/-- Arena read. -/
def nodeAt (a : List MergeNode) (i : Nat) : MergeNode := a.getD i dNode

/-- The tokenizer's immutable data: `tokens` (vocabulary with the special
tokens appended) and the merge-rule map. -/
structure Tok where
  tokens : List Str
  merges : Str → Option Nat

/-- The `tokenLookup` map built by `New`: for each id in order,
`m[tokens[id]] = id`; a later duplicate string overwrites the earlier id. -/
def tokenLookup (tokens : List Str) (s : Str) : Option Nat :=
  (List.range tokens.length).foldl
    (fun acc id => if tokens.getD id [] == s then some id else acc) none

/-- Go `strings.ReplaceAll(s, " ", "")`. -/
def removeSpaces (s : Str) : Str := s.filter (fun c => !(c == 32))

/-- The mutable state of one `performBPE` run: the node arena, the
priority queue of node indices, and the index of `firstNode`. -/
structure BPEState where
  arena : List MergeNode
  heap : List Nat
  first : Nat

/-- The heap key: the node's `mergePrio` field. -/
def heapKey (a : List MergeNode) : Nat → ℚ := fun i => (nodeAt a i).mergePrio

/-- The function `addToMergeQueue` of `bpe.go`: when the node has a next
node and the pair's merge identifier is in the merge table, set the node's
`mergePrio` (integer priority plus position bias) and `mergeToString`
(identifier with spaces removed) and push it on the queue. -/
def addToMergeQueue (t : Tok) (st : BPEState) (i : Nat) (pretokenLen : Nat) :
    BPEState :=
  let nd := nodeAt st.arena i
  match nd.next with
  | none => st
  | some ni =>
    let mergeIdentifier :=
      getMergeIdentifier t.tokens nd.tokenID (nodeAt st.arena ni).tokenID
    match t.merges mergeIdentifier with
    | none => st
    | some mergePrio =>
      let nd2 := { nd with
        mergePrio := mergeKey mergePrio nd.origPos pretokenLen,
        mergeToString := removeSpaces mergeIdentifier }
      let arena2 := st.arena.set i nd2
      { arena := arena2,
        heap := heapPush (heapKey arena2) st.heap i,
        first := st.first }

/-- The function `buildMergeList` of `bpe.go`: one node per initial token,
doubly linked in order, and every adjacent pair offered to
`addToMergeQueue` left to right. -/
def buildMergeList (t : Tok) (tokenIDs : List Nat) (pretokenLen : Nat) :
    BPEState :=
  let n := tokenIDs.length
  let arena0 := (List.range n).map (fun i =>
    { origPos := i, tokenID := tokenIDs.getD i 0, mergePrio := 0,
      mergeToString := [],
      prev := if i = 0 then none else some (i - 1),
      next := if i + 1 < n then some (i + 1) else none,
      deleted := false : MergeNode })
  (List.range (n - 1)).foldl
    (fun st i => addToMergeQueue t st i pretokenLen)
    { arena := arena0, heap := [], first := 0 }

/-- The function `isValidMerge` of `bpe.go`. -/
def isValidMerge (a : List MergeNode) (i : Nat) : Bool :=
  !(nodeAt a i).deleted &&
    (match (nodeAt a i).next with
     | none => false
     | some ni => !(nodeAt a ni).deleted)

/-- The helper `updatePreviousNode` of `bpe.go`: if the merged pair has a
left neighbour, mark it deleted and append a fresh alive copy, relink the
left node's `prev` and the neighbour's own neighbour's `next` to the copy
(or make the copy the first node).  Returns the new arena and first
node. -/
def updatePreviousNode (a2 : List MergeNode) (li : Nat) (first : Nat) :
    List MergeNode × Nat :=
  match (nodeAt a2 li).prev with
  | none => (a2, first)
  | some pi =>
    let oldPrev := nodeAt a2 pi
    let a3 := a2.set pi { oldPrev with deleted := true }
    let np := a3.length
    let newPrev : MergeNode :=
      { origPos := oldPrev.origPos, tokenID := oldPrev.tokenID,
        mergePrio := 0, mergeToString := [],
        prev := oldPrev.prev, next := oldPrev.next, deleted := false }
    let a4 := a3 ++ [newPrev]
    let a5 := a4.set li { nodeAt a4 li with prev := some np }
    match newPrev.prev with
    | some ppi => (a5.set ppi { nodeAt a5 ppi with next := some np }, first)
    | none => (a5, np)

/-- Second half of `updateMergeLinks` of `bpe.go`: if the merged node has
a right neighbour, point that neighbour's `prev` back at it and offer the
new right pair to the queue. -/
def updateMergeLinksSnd (t : Tok) (st : BPEState) (rm : Nat)
    (pretokenLen : Nat) : BPEState :=
  match (nodeAt st.arena rm).next with
  | some nx =>
    addToMergeQueue t
      { arena := st.arena.set nx { nodeAt st.arena nx with prev := some rm },
        heap := st.heap, first := st.first } rm pretokenLen
  | none => st

/-- The helper `updateMergeLinks` of `bpe.go`, on the state whose arena
already holds the merged node at index `rm`: link the left neighbour (or
the first-node marker) to `rm` and offer the new left pair, then link the
right neighbour back and offer the pair at `rm` itself. -/
def updateMergeLinks (t : Tok) (st : BPEState) (rm : Nat) (pretokenLen : Nat) :
    BPEState :=
  let st8 : BPEState :=
    match (nodeAt st.arena rm).prev with
    | some p =>
      addToMergeQueue t
        { arena := st.arena.set p { nodeAt st.arena p with next := some rm },
          heap := st.heap, first := st.first } p pretokenLen
    | none => { arena := st.arena, heap := st.heap, first := rm }
  updateMergeLinksSnd t st8 rm pretokenLen

/-- The function `performMerge` of `bpe.go`: mark the merged pair
deleted, rebuild the left neighbour, and create and link the merged
node, unless its token is missing from the vocabulary.  `li` is the
popped left node (already removed from the queue); its `next` exists and
both are alive, per `isValidMerge`. -/
def performMerge (t : Tok) (st : BPEState) (li : Nat) (pretokenLen : Nat) :
    BPEState :=
  match (nodeAt st.arena li).next with
  | none => st
  | some ri =>
    -- mark both merged nodes deleted
    let a1 := st.arena.set li { nodeAt st.arena li with deleted := true }
    let a2 := a1.set ri { nodeAt a1 ri with deleted := true }
    let res := updatePreviousNode a2 li st.first
    let a6 := res.1
    let first1 := res.2
    -- create the merged node, unless its token is missing from the vocabulary
    match tokenLookup t.tokens (nodeAt a6 li).mergeToString with
    | none => { arena := a6, heap := st.heap, first := first1 }
    | some mergedTokenID =>
      let rm := a6.length
      let rmNode : MergeNode :=
        { origPos := (nodeAt a6 li).origPos, tokenID := mergedTokenID,
          mergePrio := 0, mergeToString := [],
          prev := (nodeAt a6 li).prev, next := (nodeAt a6 ri).next,
          deleted := false }
      let a7 := a6 ++ [rmNode]
      updateMergeLinks t { arena := a7, heap := st.heap, first := first1 }
        rm pretokenLen

/-- The merge loop of `performBPE`: pop the minimum, skip it if no longer
valid, otherwise merge; until the queue is empty.  The loop is fuelled:
each iteration strictly decreases `heap length + 2 * live node count`
(a pop removes one entry, a merge deletes a net live node and pushes at
most two entries), so the fuel chosen by `performBPE` is never exhausted. -/
def mergeLoop (t : Tok) (pretokenLen : Nat) : Nat → BPEState → BPEState
  | 0, st => st
  | fuel + 1, st =>
    match heapPop (heapKey st.arena) st.heap with
    | none => st
    | some (li, heap2) =>
      let st2 : BPEState := { arena := st.arena, heap := heap2, first := st.first }
      if isValidMerge st2.arena li then
        mergeLoop t pretokenLen fuel (performMerge t st2 li pretokenLen)
      else
        mergeLoop t pretokenLen fuel st2

/-- The collection walk at the end of `performBPE`: follow `next` from
`firstNode`, collecting token IDs.  The fuel bounds the walk by the arena
size, which the chain (pairwise distinct live indices) never exceeds. -/
def collectWalk (a : List MergeNode) : Nat → Option Nat → List Nat
  | 0, _ => []
  | _, none => []
  | fuel + 1, some i => (nodeAt a i).tokenID :: collectWalk a fuel (nodeAt a i).next

/-- The function `pretokenToIDs` of `bpe.go`: one id per codepoint of the
pre-token; codepoints missing from the vocabulary are skipped. -/
def pretokenToIDs (t : Tok) (pretoken : Str) : List Nat :=
  pretoken.filterMap (fun r => tokenLookup t.tokens [r])

/-- The function `performBPE` of `bpe.go` (cache elided): direct
vocabulary hit, else seed per-codepoint ids, build the linked list and
queue, run the merge loop, and collect. -/
def performBPE (t : Tok) (pretoken : Str) : List Nat :=
  match tokenLookup t.tokens pretoken with
  | some tokenID => [tokenID]
  | none =>
    let tokenIDs := pretokenToIDs t pretoken
    if tokenIDs.length ≤ 1 then tokenIDs
    else
      let blen := (utf8Bytes pretoken).length
      let st0 := buildMergeList t tokenIDs blen
      let stF := mergeLoop t blen (st0.heap.length + 2 * st0.arena.length + 1) st0
      collectWalk stF.arena (stF.arena.length + 1) (some stF.first)

/-!
Special tokens and splitting, from `special_tokens.go` and the `tokens`
package.  Go's `regexp.FindAllStringIndex` output is passed in as a match
list (start/end positions in runes; regex matches never split a UTF-8
sequence): the functions below are the split logic applied to it.
`MatchString` is modelled by its semantics on these regexes: does some
substring belong to the pattern's language.
-/

/-- Runes of a literal. -/
def strLit (s : String) : Str := s.toList.map Char.toNat

/-- Decimal digits of `n`, most significant first, as runes. -/
def natToDigits (n : Nat) : Str := (Nat.toDigits 10 n).map Char.toNat

/-- The function `getDefaultSpecialTokens`: the 11 named tokens followed by
`<|reserved_special_token_N|>` for `N` in `3..247`. -/
def getDefaultSpecialTokens : List Str :=
  [strLit "<|begin_of_text|>", strLit "<|end_of_text|>",
    strLit "<|reserved_special_token_0|>", strLit "<|reserved_special_token_1|>",
    strLit "<|finetune_right_pad_id|>", strLit "<|reserved_special_token_2|>",
    strLit "<|start_header_id|>", strLit "<|end_header_id|>",
    strLit "<|eom_id|>", strLit "<|eot_id|>", strLit "<|python_tag|>"] ++
  (List.range' 3 245).map (fun i =>
    strLit "<|reserved_special_token_" ++ natToDigits i ++ strLit "|>")

/-- The language of `specialTokenRegex` (`special_tokens.go`): the eight
named tokens, and `<|reserved_special_token_N|>` where the number grammar
`[0-9]|[1-9][0-9]|1[0-9][0-9]|2[0-3][0-9]|24[0-7]` accepts exactly the
canonical decimal forms of `0..247`. -/
def strictSpecialStrings : List Str :=
  [strLit "<|begin_of_text|>", strLit "<|end_of_text|>",
    strLit "<|start_header_id|>", strLit "<|end_header_id|>",
    strLit "<|eot_id|>", strLit "<|eom_id|>", strLit "<|python_tag|>",
    strLit "<|finetune_right_pad_id|>"] ++
  (List.range 248).map (fun i =>
    strLit "<|reserved_special_token_" ++ natToDigits i ++ strLit "|>")

/-- `specialTokenRegex.MatchString`: some substring is in the language. -/
def containsStrict (s : Str) : Bool :=
  (List.range (s.length + 1)).any (fun i =>
    strictSpecialStrings.any (fun tk => (s.drop i).take tk.length == tk))

/-- The function `isSpecialToken` of `special_tokens.go`:
`strings.HasPrefix(s, "<|") && strings.HasSuffix(s, "|>")`. -/
def isSpecialTokenFmt (s : Str) : Bool :=
  s.take 2 == strLit "<|" && s.drop (s.length - 2) == strLit "|>"

/-- The loop of `splitBySpecialTokens`: emit the gap before each match
(when non-empty) and the match itself (when non-empty), then the tail
after the last match. -/
def splitLoop (text : Str) (lastEnd : Nat) : List (Nat × Nat) → List Str
  | [] => if lastEnd < text.length then [strSlice text lastEnd text.length] else []
  | m :: rest =>
    (if lastEnd < m.1 then [strSlice text lastEnd m.1] else []) ++
      (if m.1 < m.2 then [strSlice text m.1 m.2] else []) ++
      splitLoop text m.2 rest

/-- The function `splitBySpecialTokens` of `special_tokens.go`, applied to
the regex engine's match list. -/
def splitBySpecialTokens (text : Str) (ms : List (Nat × Nat)) : List Str :=
  if text.isEmpty then []
  else if ms.isEmpty then [text]
  else splitLoop text 0 ms

/-- The contract of `regexp.FindAllStringIndex` output: matches are
non-empty, within bounds, ordered, and pairwise disjoint. -/
def MatchesSorted (lo hi : Nat) : List (Nat × Nat) → Prop
  | [] => True
  | m :: rest => lo ≤ m.1 ∧ m.1 < m.2 ∧ m.2 ≤ hi ∧ MatchesSorted m.2 hi rest

/-!
Encoder, decoder and optimistic counting, from `tokenizer.go`.
-/

/-- Encoding options (`EncodeOptions`). -/
structure EncodeOptions where
  BOS : Bool
  EOS : Bool

/-- The function `GetSpecialTokenID`: format check, then lookup; an error
is `none`. -/
def GetSpecialTokenID (t : Tok) (token : Str) : Option Nat :=
  if isSpecialTokenFmt token then tokenLookup t.tokens token else none

/-- Go map indexing with the zero default: `t.tokenLookup[s]`. -/
def lookupD (t : Tok) (s : Str) : Nat := (tokenLookup t.tokens s).getD 0

/-- The function `pretokenize` of `tokenizer.go`: state-machine split, then
byte-level encoding of each part (over the part's UTF-8 bytes). -/
def pretokenize (cc : CharClasses) (text : Str) : List Str :=
  (Tokenize cc text).map (fun part => encodeBytes (utf8Bytes part))

/-- The per-piece body of `Encode`'s inner loop: empty pre-tokens are
skipped, the rest are BPE-encoded and concatenated. -/
def encodePiece (t : Tok) (cc : CharClasses) (piece : Str) : List Nat :=
  (pretokenize cc piece).flatMap
    (fun pretoken => if pretoken.isEmpty then [] else performBPE t pretoken)

/-- The body of `Encode`: every split piece either is emitted as one
special-token id (when it matches the special regex and its looked-up id
is non-zero) or goes through the pre-tokenize/BPE pipeline. -/
def encodeBody (t : Tok) (cc : CharClasses) (text : Str)
    (ms : List (Nat × Nat)) : List Nat :=
  (splitBySpecialTokens text ms).flatMap (fun piece =>
    if containsStrict piece ∧ lookupD t piece ≠ 0 then [lookupD t piece]
    else encodePiece t cc piece)

/-- The function `Encode` of `tokenizer.go`: optional BOS id, the body,
optional EOS id (each framing id only when its special token resolves). -/
def Encode (t : Tok) (cc : CharClasses) (text : Str)
    (ms : List (Nat × Nat)) (opts : EncodeOptions) : List Nat :=
  (if opts.BOS then
    (match GetSpecialTokenID t (strLit "<|begin_of_text|>") with
     | some id => [id]
     | none => []) else []) ++
  encodeBody t cc text ms ++
  (if opts.EOS then
    (match GetSpecialTokenID t (strLit "<|end_of_text|>") with
     | some id => [id]
     | none => []) else [])

/-- The function `DecodeBytes` of `tokenizer.go`: concatenate the decoded
bytes of each in-range token id, skipping invalid ids. -/
def DecodeBytes (t : Tok) (tokenIDs : List Nat) : List Nat :=
  tokenIDs.flatMap (fun id =>
    if id < t.tokens.length then decodeTokenBytes (t.tokens.getD id []) else [])

/-- Full match of `optimisticSpecialTokenRegex` (`<\|[a-zA-Z0-9_]+\|>`). -/
def isOptimisticTokenStr (s : Str) : Bool :=
  5 ≤ s.length && s.take 2 == strLit "<|" && s.drop (s.length - 2) == strLit "|>" &&
    (strSlice s 2 (s.length - 2)).all (fun c =>
      (65 ≤ c && c ≤ 90) || (97 ≤ c && c ≤ 122) || (48 ≤ c && c ≤ 57) || c == 95)

/-- `optimisticSpecialTokenRegex.MatchString`: some substring is a full
match. -/
def containsOptimistic (s : Str) : Bool :=
  (List.range (s.length + 1)).any (fun i =>
    (List.range (s.length + 1)).any (fun j =>
      decide (i < j) && isOptimisticTokenStr (strSlice s i j)))

/-- The body of `OptimisticCount`: any piece that looks like a special
token counts as its id when known and as the placeholder id 1 otherwise;
other pieces go through the normal pipeline. -/
def optimisticBodyTokens (t : Tok) (cc : CharClasses) (text : Str)
    (ms : List (Nat × Nat)) : List Nat :=
  (splitBySpecialTokens text ms).flatMap (fun piece =>
    if containsOptimistic piece then
      (match tokenLookup t.tokens piece with
       | some id => [id]
       | none => [1])
    else encodePiece t cc piece)

/-- The function `OptimisticCount` of `tokenizer.go`: BOS id (when it
resolves), the optimistic body, EOS id (when it resolves); the count is
the length of that id list.  The function takes no options. -/
def OptimisticCount (t : Tok) (cc : CharClasses) (text : Str)
    (ms : List (Nat × Nat)) : Nat :=
  ((match GetSpecialTokenID t (strLit "<|begin_of_text|>") with
    | some id => [id]
    | none => []) ++
   optimisticBodyTokens t cc text ms ++
   (match GetSpecialTokenID t (strLit "<|end_of_text|>") with
    | some id => [id]
    | none => [])).length

/-- Data of a minimal tokenizer carrying only the two framing special
tokens, used for concrete witnesses. -/
def witTok : Tok :=
  { tokens := [strLit "<|begin_of_text|>", strLit "<|end_of_text|>"],
    merges := fun _ => none }

/-- C10: `OptimisticCount` takes no options and unconditionally counts the
BOS and EOS tokens: whenever the two framing specials resolve (as they do
for the default vocabulary), the count is exactly 2 more than the number
of non-framing tokens produced for the text, and the count of the empty
string is 2. -/
theorem optimisticCount_counts_bos_eos (t : Tok) (cc : CharClasses)
    (text : Str) (ms : List (Nat × Nat)) (idB idE : Nat)
    (hbos : GetSpecialTokenID t (strLit "<|begin_of_text|>") = some idB)
    (heos : GetSpecialTokenID t (strLit "<|end_of_text|>") = some idE) :
    OptimisticCount t cc text ms = 2 + (optimisticBodyTokens t cc text ms).length
    ∧ OptimisticCount t cc [] [] = 2 := by
  constructor
  · unfold OptimisticCount
    rw [hbos, heos]
    simp [List.length_append]
    omega
  · unfold OptimisticCount optimisticBodyTokens splitBySpecialTokens
    rw [hbos, heos]
    simp

/-- Witness for C10 on the two-special vocabulary: the empty text counts
exactly the two framing tokens. -/
theorem optimisticCount_counts_bos_eos_witness :
    OptimisticCount witTok asciiClasses [] [] = 2 :=
  (optimisticCount_counts_bos_eos witTok asciiClasses [] [] 0 1
    (by decide) (by decide)).2

section PipelineLemmas

/-- A successful `tokenLookup` returns an in-range id whose token string
is the looked-up string. -/
lemma tokenLookup_sound {tokens : List Str} {s : Str} {i : Nat}
    (h : tokenLookup tokens s = some i) :
    i < tokens.length ∧ tokens.getD i [] = s := by
  unfold tokenLookup at h
  have main : ∀ (l : List Nat) (acc : Option Nat),
      (∀ j, acc = some j → j < tokens.length ∧ tokens.getD j [] = s) →
      (∀ j ∈ l, j < tokens.length) →
      l.foldl (fun acc id => if tokens.getD id [] == s then some id else acc) acc
        = some i →
      i < tokens.length ∧ tokens.getD i [] = s := by
    intro l
    induction l with
    | nil => intro acc hacc _ hfold; exact hacc i hfold
    | cons id l ih =>
      intro acc hacc hmem hfold
      rw [List.foldl_cons] at hfold
      refine ih _ ?_ (fun j hj => hmem j (List.mem_cons_of_mem _ hj)) hfold
      intro j hj
      split at hj
      · next heq =>
        cases hj
        exact ⟨hmem id (List.mem_cons_self _ _), by simpa using heq⟩
      · exact hacc j hj
  exact main _ none (fun j hj => Option.noConfusion hj)
    (fun j hj => List.mem_range.mp hj) h

lemma utf8Encode_lt_256 {c : Nat} (hc : c < 0x110000) :
    ∀ b ∈ utf8Encode c, b < 256 := by
  intro b hb
  have h64a : c % 64 < 64 := Nat.mod_lt _ (by omega)
  have h64b : c / 64 % 64 < 64 := Nat.mod_lt _ (by omega)
  have h64c : c / 4096 % 64 < 64 := Nat.mod_lt _ (by omega)
  have hd2 : c / 64 ≤ c / 64 := le_refl _
  unfold utf8Encode at hb
  split at hb
  · simp at hb
    omega
  · split at hb
    · next h2 =>
      have : c / 64 < 32 := by omega
      simp at hb
      rcases hb with rfl | rfl <;> omega
    · split at hb
      · next h3 =>
        have : c / 4096 < 16 := by omega
        simp at hb
        rcases hb with rfl | rfl | rfl <;> omega
      · have : c / 262144 < 5 := by omega
        simp at hb
        rcases hb with rfl | rfl | rfl | rfl <;> omega

/-- A directly printable byte is paired with itself in the codec table. -/
lemma printable_self_pair {c : Nat} (h : c ∈ printableBytes) :
    (c, c) ∈ bsList.zip csList := by
  unfold bsList csList
  have hz : printableBytes.zip printableBytes ++
      extraBytes.zip (List.range' 256 extraBytes.length) =
      (printableBytes ++ extraBytes).zip
        (printableBytes ++ List.range' 256 extraBytes.length) :=
    (List.zip_append rfl).symm
  rw [← hz]
  refine List.mem_append.mpr (Or.inl ?_)
  have helper : ∀ (l : List Nat) (c : Nat), c ∈ l → (c, c) ∈ l.zip l := by
    intro l
    induction l with
    | nil => intro c hc; cases hc
    | cons a l ih =>
      intro c hc
      rw [List.zip_cons_cons]
      rcases List.mem_cons.mp hc with rfl | h2
      · exact List.mem_cons_self _ _
      · exact List.mem_cons_of_mem _ (ih c h2)
  exact helper _ _ h

/-- An ASCII printable codepoint decodes to itself as a single byte. -/
lemma ascii_roundtrip {c : Nat} (h33 : 33 ≤ c) (h126 : c ≤ 126) :
    unicodeToBytes c = some c ∧ utf8Encode c = [c] := by
  have hp : c ∈ printableBytes := mem_printableBytes.mpr (Or.inl ⟨h33, h126⟩)
  constructor
  · unfold unicodeToBytes
    rw [zip_find_snd csList_nodup (printable_self_pair hp)]
    rfl
  · unfold utf8Encode
    rw [if_pos (by omega)]

/-- Gluing adjacent slices. -/
lemma strSlice_glue {t : Str} {a b c : Nat} (hab : a ≤ b) (hbc : b ≤ c) :
    strSlice t a b ++ strSlice t b c = strSlice t a c := by
  unfold strSlice
  have hd : t.drop b = (t.drop a).drop (b - a) := by
    rw [List.drop_drop]
    congr 1
    omega
  rw [hd, ← List.take_add]
  congr 1
  omega

lemma strSlice_self (t : Str) : strSlice t 0 t.length = t := by
  unfold strSlice
  simp

lemma strSlice_subset {t : Str} {a b : Nat} {c : Nat}
    (h : c ∈ strSlice t a b) : c ∈ t := by
  unfold strSlice at h
  exact List.mem_of_mem_drop (List.mem_of_mem_take h)

lemma strSlice_empty {t : Str} {a b : Nat} (h : b ≤ a) :
    strSlice t a b = [] := by
  unfold strSlice
  rw [Nat.sub_eq_zero_of_le h]
  rfl

/-- The split loop reassembles the suffix it was given. -/
lemma splitLoop_flatten (text : Str) :
    ∀ (ms : List (Nat × Nat)) (lastEnd : Nat),
      MatchesSorted lastEnd text.length ms → lastEnd ≤ text.length →
      (splitLoop text lastEnd ms).flatten = strSlice text lastEnd text.length := by
  intro ms
  induction ms with
  | nil =>
    intro lastEnd _ hle
    unfold splitLoop
    split
    · simp
    · next h =>
      rw [strSlice_empty (by omega)]
      rfl
  | cons m rest ih =>
    intro lastEnd hs hle
    obtain ⟨h1, h2, h3, h4⟩ := hs
    unfold splitLoop
    rw [List.flatten_append, List.flatten_append,
      ih m.2 h4 (by omega)]
    have e1 : (if lastEnd < m.1 then [strSlice text lastEnd m.1] else []).flatten
        = strSlice text lastEnd m.1 := by
      split
      · simp
      · next h =>
        rw [strSlice_empty (by omega)]
        rfl
    have e2 : (if m.1 < m.2 then [strSlice text m.1 m.2] else []).flatten
        = strSlice text m.1 m.2 := by
      split
      · simp
      · next h =>
        rw [strSlice_empty (by omega)]
        rfl
    rw [e1, e2, List.append_assoc, strSlice_glue (by omega) (by omega),
      strSlice_glue (by omega) (by omega)]

/-- Concatenation of the split pieces reassembles the text. -/
lemma splitBySpecialTokens_flatten {text : Str} {ms : List (Nat × Nat)}
    (hs : MatchesSorted 0 text.length ms) :
    (splitBySpecialTokens text ms).flatten = text := by
  unfold splitBySpecialTokens
  split
  · next h => rw [List.isEmpty_iff.mp h]; rfl
  · split
    · simp
    · rw [splitLoop_flatten text ms 0 hs (by omega), strSlice_self]

/-- Every codepoint of a split piece is a codepoint of the text. -/
lemma splitLoop_piece_subset (text : Str) :
    ∀ (ms : List (Nat × Nat)) (lastEnd : Nat) (piece : Str),
      piece ∈ splitLoop text lastEnd ms → ∀ c ∈ piece, c ∈ text := by
  intro ms
  induction ms with
  | nil =>
    intro lastEnd piece hp c hc
    unfold splitLoop at hp
    split at hp
    · rcases List.mem_singleton.mp hp with rfl
      exact strSlice_subset hc
    · cases hp
  | cons m rest ih =>
    intro lastEnd piece hp c hc
    unfold splitLoop at hp
    rcases List.mem_append.mp hp with hp1 | hp2
    · rcases List.mem_append.mp hp1 with hp3 | hp4
      · split at hp3
        · rcases List.mem_singleton.mp hp3 with rfl
          exact strSlice_subset hc
        · cases hp3
      · split at hp4
        · rcases List.mem_singleton.mp hp4 with rfl
          exact strSlice_subset hc
        · cases hp4
    · exact ih m.2 piece hp2 c hc

lemma splitBySpecialTokens_piece_subset {text : Str} {ms : List (Nat × Nat)}
    {piece : Str} (hp : piece ∈ splitBySpecialTokens text ms) :
    ∀ c ∈ piece, c ∈ text := by
  unfold splitBySpecialTokens at hp
  split at hp
  · cases hp
  · split at hp
    · rcases List.mem_singleton.mp hp with rfl
      exact fun c hc => hc
    · exact splitLoop_piece_subset text ms 0 piece hp

end PipelineLemmas

section BPEInvariant

/-- Token string of the node at arena index `i`. -/
def nodeStr (t : Tok) (a : List MergeNode) (i : Nat) : Str :=
  t.tokens.getD (nodeAt a i).tokenID []

/-- A string without the space codepoint. -/
def noSpace (s : Str) : Prop := ∀ u ∈ s, u ≠ 32

/-- Chain adjacency: consecutive chain members are doubly linked. -/
def chainAdj (a : List MergeNode) (i j : Nat) : Prop :=
  (nodeAt a i).next = some j ∧ (nodeAt a j).prev = some i

/-- The doubly-linked list structure, as the list of arena indices the
`next` walk visits from the first node. -/
def chainOK (a : List MergeNode) (ch : List Nat) : Prop :=
  List.Chain' (chainAdj a) ch ∧
  (∀ i ∈ ch, i < a.length) ∧
  (∀ hd, ch.head? = some hd → (nodeAt a hd).prev = none) ∧
  (∀ lt, ch.getLast? = some lt → (nodeAt a lt).next = none)

/-- Heap entries are in-arena and, while their node and that node's
successor are both alive, carry the pair's merged string, which resolves
in the vocabulary. -/
def heapEntryOK (t : Tok) (a : List MergeNode) (i : Nat) : Prop :=
  i < a.length ∧
  ((nodeAt a i).deleted = false →
    ∀ j, (nodeAt a i).next = some j → (nodeAt a j).deleted = false →
      (nodeAt a i).mergeToString = nodeStr t a i ++ nodeStr t a j ∧
      (tokenLookup t.tokens (nodeAt a i).mergeToString).isSome = true)

/-- The `performBPE` loop invariant: a chain of pairwise-distinct indices
that starts at `first`, contains every live node, whose strings are
space-free in-vocabulary tokens concatenating to `goal`, with every heap
entry well formed. -/
def BPEInv (t : Tok) (goal : Str) (st : BPEState) : Prop :=
  ∃ ch : List Nat,
    ch ≠ [] ∧
    ch.head? = some st.first ∧
    ch.Nodup ∧
    chainOK st.arena ch ∧
    (∀ i ∈ ch, (nodeAt st.arena i).deleted = false) ∧
    (∀ i, i < st.arena.length → (nodeAt st.arena i).deleted = false → i ∈ ch) ∧
    ((ch.map (fun i => nodeStr t st.arena i)).flatten = goal) ∧
    (∀ i ∈ ch, noSpace (nodeStr t st.arena i) ∧
      (nodeAt st.arena i).tokenID < t.tokens.length) ∧
    (∀ i ∈ st.heap, heapEntryOK t st.arena i)

lemma nodeAt_out {a : List MergeNode} {i : Nat} (h : a.length ≤ i) :
    nodeAt a i = dNode := by
  unfold nodeAt
  rw [List.getD_eq_getElem?_getD, List.getElem?_eq_none (by omega)]
  rfl

lemma alive_lt {a : List MergeNode} {i : Nat}
    (h : (nodeAt a i).deleted = false) : i < a.length := by
  by_contra hc
  rw [nodeAt_out (by omega)] at h
  exact absurd h (by simp [dNode])

lemma nodeAt_set_self {a : List MergeNode} {i : Nat} (h : i < a.length)
    (nd : MergeNode) : nodeAt (a.set i nd) i = nd := by
  unfold nodeAt
  rw [List.getD_eq_getElem?_getD, List.getElem?_set_self (by simpa using h)]
  rfl

lemma nodeAt_set_ne {a : List MergeNode} {i j : Nat} (h : j ≠ i)
    (nd : MergeNode) : nodeAt (a.set i nd) j = nodeAt a j := by
  unfold nodeAt
  rw [List.getD_eq_getElem?_getD, List.getElem?_set_ne (by omega),
    ← List.getD_eq_getElem?_getD]

lemma nodeAt_append_lt {a : List MergeNode} {i : Nat} (h : i < a.length)
    (nd : MergeNode) : nodeAt (a ++ [nd]) i = nodeAt a i := by
  unfold nodeAt
  rw [List.getD_eq_getElem?_getD, List.getElem?_append_left h,
    ← List.getD_eq_getElem?_getD]

lemma nodeAt_append_self (a : List MergeNode) (nd : MergeNode) :
    nodeAt (a ++ [nd]) a.length = nd := by
  unfold nodeAt
  rw [List.getD_eq_getElem?_getD]
  rw [List.getElem?_append_right (le_refl _)]
  simp

lemma removeSpaces_concat {x y : Str} (hx : noSpace x) (hy : noSpace y) :
    removeSpaces (x ++ [32] ++ y) = x ++ y := by
  unfold removeSpaces
  rw [List.filter_append, List.filter_append]
  have h32 : List.filter (fun c => !(c == 32)) [32] = [] := rfl
  rw [h32, List.filter_eq_self.mpr (fun u hu => by simpa using hx u hu),
    List.filter_eq_self.mpr (fun u hu => by simpa using hy u hu)]
  simp

/-- Restriction of `Chain'` transfer to members. -/
lemma chain'_mem_imp {R S : Nat → Nat → Prop} :
    ∀ {l : List Nat}, List.Chain' R l →
      (∀ x ∈ l, ∀ y ∈ l, R x y → S x y) → List.Chain' S l := by
  intro l
  induction l with
  | nil => intro _ _; exact List.chain'_nil
  | cons a l ih =>
    intro h hag
    cases l with
    | nil => exact List.chain'_singleton a
    | cons b l2 =>
      rw [List.chain'_cons] at h ⊢
      refine ⟨hag a (List.mem_cons_self _ _)
        b (List.mem_cons_of_mem _ (List.mem_cons_self _ _)) h.1,
        ih h.2 (fun x hx y hy =>
          hag x (List.mem_cons_of_mem _ hx) y (List.mem_cons_of_mem _ hy))⟩

end BPEInvariant

section HeapMembership

lemma getD_mem {h : List Nat} {i : Nat} (hi : i < h.length) :
    h.getD i 0 ∈ h := by
  rw [List.getD_eq_getElem _ 0 hi]
  exact List.getElem_mem hi

lemma mem_listSwap {h : List Nat} {a b y : Nat} (ha : a < h.length)
    (hb : b < h.length) (hy : y ∈ listSwap h a b) : y ∈ h := by
  unfold listSwap at hy
  rcases List.mem_or_eq_of_mem_set hy with hy2 | rfl
  · rcases List.mem_or_eq_of_mem_set hy2 with hy3 | rfl
    · exact hy3
    · exact getD_mem hb
  · exact getD_mem ha

lemma siftUp_length (k : Nat → ℚ) (h : List Nat) (j : Nat) :
    (siftUp k h j).length = h.length := by
  rw [siftUp]
  split
  · dsimp only
    split
    · rw [siftUp_length, listSwap_length]
    · rfl
  · rfl
termination_by j
decreasing_by omega

lemma mem_siftUp {k : Nat → ℚ} {h : List Nat} {j y : Nat} (hj : j < h.length)
    (hy : y ∈ siftUp k h j) : y ∈ h := by
  rw [siftUp] at hy
  split at hy
  · dsimp only at hy
    split at hy
    · have hlen : ((j - 1) / 2) < h.length := by omega
      have := mem_siftUp (by rw [listSwap_length]; omega) hy
      exact mem_listSwap hlen hj this
    · exact hy
  · exact hy
termination_by j
decreasing_by omega

lemma siftDown_mem {k : Nat → ℚ} {h : List Nat} {i n y : Nat}
    (hn : n ≤ h.length) (hy : y ∈ siftDown k h i n) : y ∈ h := by
  rw [siftDown] at hy
  split at hy
  · next hj =>
    dsimp only at hy
    split at hy
    · next hcmp =>
      split at hy
      · have hi2 : i < h.length := by omega
        have := siftDown_mem (by rw [listSwap_length]; omega) hy
        exact mem_listSwap hi2 (by omega) this
      · exact hy
    · split at hy
      · have hi2 : i < h.length := by omega
        have := siftDown_mem (by rw [listSwap_length]; omega) hy
        exact mem_listSwap hi2 (by omega) this
      · exact hy
  · exact hy
termination_by n - i
decreasing_by all_goals omega

lemma mem_heapPush {k : Nat → ℚ} {h : List Nat} {x y : Nat}
    (hy : y ∈ heapPush k h x) : y ∈ h ∨ y = x := by
  unfold heapPush at hy
  have := mem_siftUp (by simp) hy
  rcases List.mem_append.mp this with h1 | h2
  · exact Or.inl h1
  · exact Or.inr (List.mem_singleton.mp h2)

lemma heapPop_popped_mem {k : Nat → ℚ} {h : List Nat} {li : Nat}
    {heap2 : List Nat} (hpop : heapPop k h = some (li, heap2)) :
    li ∈ h ∧ ∀ y ∈ heap2, y ∈ h := by
  unfold heapPop at hpop
  split at hpop
  · cases hpop
  · next hne =>
    dsimp only at hpop
    rw [Option.some.injEq] at hpop
    injection hpop with h1 h2
    subst h1
    subst h2
    have hlen0 : 0 < h.length := by omega
    have hn : h.length - 1 < h.length := by omega
    have hswlen : (listSwap h 0 (h.length - 1)).length = h.length :=
      listSwap_length ..
    have hsdlen : (siftDown k (listSwap h 0 (h.length - 1)) 0 (h.length - 1)).length
        = h.length := by
      rw [siftDown_length, hswlen]
    have hsub : ∀ y ∈ siftDown k (listSwap h 0 (h.length - 1)) 0 (h.length - 1),
        y ∈ h := by
      intro y hy
      exact mem_listSwap hlen0 hn (siftDown_mem (by omega) hy)
    constructor
    · exact hsub _ (getD_mem (by omega))
    · intro y hy
      exact hsub y (List.mem_of_mem_take hy)

end HeapMembership

section ChainLemmas

/-- The `next`-only spine of a chain, as followed by the collection walk. -/
def nextChain (a : List MergeNode) : List Nat → Prop
  | [] => True
  | [i] => (nodeAt a i).next = none
  | i :: j :: rest => (nodeAt a i).next = some j ∧ nextChain a (j :: rest)

lemma chain'_nextChain {a : List MergeNode} :
    ∀ {ch : List Nat}, List.Chain' (chainAdj a) ch →
      (∀ lt, ch.getLast? = some lt → (nodeAt a lt).next = none) →
      nextChain a ch := by
  intro ch
  induction ch with
  | nil => intro _ _; trivial
  | cons i rest ih =>
    intro hchain hlast
    cases rest with
    | nil => exact hlast i rfl
    | cons j rest2 =>
      rw [List.chain'_cons] at hchain
      refine ⟨hchain.1.1, ih hchain.2 ?_⟩
      intro lt hlt
      apply hlast
      rw [List.getLast?_cons_cons]
      exact hlt

lemma chainOK_nextChain {a : List MergeNode} {ch : List Nat}
    (hOK : chainOK a ch) : nextChain a ch :=
  chain'_nextChain hOK.1 hOK.2.2.2

lemma collectWalk_eq (a : List MergeNode) :
    ∀ (ch : List Nat) (fuel : Nat), nextChain a ch → ch.length ≤ fuel →
      ∀ i, ch.head? = some i →
        collectWalk a fuel (some i) = ch.map (fun x => (nodeAt a x).tokenID) := by
  intro ch
  induction ch with
  | nil => intro fuel _ _ i hi; cases hi
  | cons x rest ih =>
    intro fuel hnc hfl i hi
    rw [List.head?_cons, Option.some.injEq] at hi
    subst hi
    cases fuel with
    | zero => simp at hfl
    | succ f =>
      rw [collectWalk, List.map_cons]
      congr 1
      cases rest with
      | nil =>
        have hnone : (nodeAt a x).next = none := hnc
        rw [hnone]
        cases f <;> rfl
      | cons y rest2 =>
        obtain ⟨hxy, hrest⟩ := hnc
        rw [hxy]
        exact ih f hrest (by simpa using hfl) y rfl

lemma nodup_bounded_length {ch : List Nat} {n : Nat} (hnd : ch.Nodup)
    (hb : ∀ i ∈ ch, i < n) : ch.length ≤ n := by
  have h1 : ch.toFinset.card = ch.length := List.toFinset_card_of_nodup hnd
  have h2 : ch.toFinset ⊆ Finset.range n := by
    intro x hx
    rw [Finset.mem_range]
    exact hb x (List.mem_toFinset.mp hx)
  have := Finset.card_le_card h2
  rw [h1, Finset.card_range] at this
  exact this

/-- A chain member whose `next` is some node is immediately followed by
that node in the chain. -/
lemma chain_decomp {a : List MergeNode} {ch : List Nat}
    (hchain : List.Chain' (chainAdj a) ch)
    (hlast : ∀ lt, ch.getLast? = some lt → (nodeAt a lt).next = none)
    {li ri : Nat} (hmem : li ∈ ch) (hnext : (nodeAt a li).next = some ri) :
    ∃ A B, ch = A ++ li :: ri :: B := by
  obtain ⟨A, B0, hsplit⟩ := List.append_of_mem hmem
  subst hsplit
  cases B0 with
  | nil =>
    exfalso
    have hli : (A ++ [li]).getLast? = some li := List.getLast?_concat _
    rw [hlast li hli] at hnext
    cases hnext
  | cons y B =>
    have hc2 := (List.chain'_append.mp hchain).2.1
    rw [List.chain'_cons] at hc2
    have hyri : y = ri := by
      have h1 := hc2.1.1
      rw [hnext] at h1
      exact (Option.some.inj h1).symm
    exact ⟨A, B, by rw [hyri]⟩

end ChainLemmas

section QueueInvariant

/-- Dichotomy for `addToMergeQueue`: either it changes nothing, or it
replaces node `i` by a copy with the key and merged string set and pushes
`i`. -/
lemma addToMergeQueue_spec (t : Tok) (st : BPEState) (i : Nat) (plen : Nat) :
    addToMergeQueue t st i plen = st ∨
    (i < st.arena.length ∧ ∃ ni,
      (nodeAt st.arena i).next = some ni ∧
      ∃ nd2 : MergeNode, nd2.prev = (nodeAt st.arena i).prev ∧
        nd2.next = (nodeAt st.arena i).next ∧
        nd2.tokenID = (nodeAt st.arena i).tokenID ∧
        nd2.deleted = (nodeAt st.arena i).deleted ∧
        nd2.mergeToString = removeSpaces (getMergeIdentifier t.tokens
          (nodeAt st.arena i).tokenID (nodeAt st.arena ni).tokenID) ∧
        (t.merges (getMergeIdentifier t.tokens
          (nodeAt st.arena i).tokenID (nodeAt st.arena ni).tokenID)).isSome
          = true ∧
        addToMergeQueue t st i plen =
          { arena := st.arena.set i nd2,
            heap := heapPush (heapKey (st.arena.set i nd2)) st.heap i,
            first := st.first }) := by
  simp only [addToMergeQueue]
  cases hnext : (nodeAt st.arena i).next with
  | none => exact Or.inl rfl
  | some ni =>
    dsimp only
    cases hm : t.merges (getMergeIdentifier t.tokens (nodeAt st.arena i).tokenID
        (nodeAt st.arena ni).tokenID) with
    | none => exact Or.inl rfl
    | some prio =>
      dsimp only
      have hi : i < st.arena.length := by
        by_contra hc
        rw [nodeAt_out (by omega)] at hnext
        exact Option.noConfusion hnext
      exact Or.inr ⟨hi, ni, rfl,
        { origPos := (nodeAt st.arena i).origPos,
          tokenID := (nodeAt st.arena i).tokenID,
          mergePrio := mergeKey prio (nodeAt st.arena i).origPos plen,
          mergeToString := removeSpaces (getMergeIdentifier t.tokens
            (nodeAt st.arena i).tokenID (nodeAt st.arena ni).tokenID),
          prev := (nodeAt st.arena i).prev,
          next := some ni,
          deleted := (nodeAt st.arena i).deleted },
        rfl, rfl, rfl, rfl, rfl, by rw [hm]; rfl, rfl⟩

/-- `addToMergeQueue` preserves the loop invariant, provided every merge
result resolves in the vocabulary. -/
lemma addToMergeQueue_inv {t : Tok} {goal : Str} {st : BPEState} {i plen : Nat}
    (hclosed : ∀ s, (t.merges s).isSome = true →
      (tokenLookup t.tokens (removeSpaces s)).isSome = true)
    (hInv : BPEInv t goal st) :
    BPEInv t goal (addToMergeQueue t st i plen) := by
  rcases addToMergeQueue_spec t st i plen with heq | ⟨hi, ni, hni, nd2, hprev, hnext,
    htok, hdel, hmts, hsome, heq⟩
  · rw [heq]; exact hInv
  · rw [heq]
    obtain ⟨ch, hne, hhead, hnd, ⟨hchain, hbnd, hheadprev, hlastnext⟩, halive,
      hexact, hconcat, hstrs, hheap⟩ := hInv
    have hfields : ∀ j, (nodeAt (st.arena.set i nd2) j).prev = (nodeAt st.arena j).prev ∧
        (nodeAt (st.arena.set i nd2) j).next = (nodeAt st.arena j).next ∧
        (nodeAt (st.arena.set i nd2) j).tokenID = (nodeAt st.arena j).tokenID ∧
        (nodeAt (st.arena.set i nd2) j).deleted = (nodeAt st.arena j).deleted := by
      intro j
      rcases eq_or_ne j i with rfl | hji
      · rw [nodeAt_set_self hi]
        exact ⟨hprev, hnext, htok, hdel⟩
      · rw [nodeAt_set_ne hji]
        exact ⟨rfl, rfl, rfl, rfl⟩
    have hstr2 : ∀ j, nodeStr t (st.arena.set i nd2) j = nodeStr t st.arena j := by
      intro j
      unfold nodeStr
      rw [(hfields j).2.2.1]
    refine ⟨ch, hne, hhead, hnd, ⟨?_, ?_, ?_, ?_⟩, ?_, ?_, ?_, ?_, ?_⟩
    · refine chain'_mem_imp hchain (fun x _ y _ hadj => ?_)
      unfold chainAdj at hadj ⊢
      rw [(hfields x).2.1, (hfields y).1]
      exact hadj
    · intro x hx
      rw [List.length_set]
      exact hbnd x hx
    · intro hd hhd
      rw [(hfields hd).1]
      exact hheadprev hd hhd
    · intro lt hlt
      rw [(hfields lt).2.1]
      exact hlastnext lt hlt
    · intro j hj
      rw [(hfields j).2.2.2]
      exact halive j hj
    · intro j hj hal
      rw [List.length_set] at hj
      exact hexact j hj (((hfields j).2.2.2) ▸ hal)
    · rw [List.map_congr_left (fun x _ => hstr2 x)]
      exact hconcat
    · intro x hx
      rw [hstr2 x]
      refine ⟨(hstrs x hx).1, ?_⟩
      rw [(hfields x).2.2.1]
      exact (hstrs x hx).2
    · intro y hy
      rcases mem_heapPush hy with hy2 | rfl
      · have hold := hheap y hy2
        refine ⟨by rw [List.length_set]; exact hold.1, ?_⟩
        intro hal j hj hjal
        rcases eq_or_ne y i with rfl | hyi
        · -- the modified node: its merged string was (re)computed correctly
          rw [nodeAt_set_self hi] at hal hj ⊢
          have hji : j = ni := by
            rw [hnext, hni] at hj
            exact (Option.some.inj hj).symm
          subst hji
          have halj : (nodeAt st.arena j).deleted = false :=
            ((hfields j).2.2.2) ▸ hjal
          have hyal : (nodeAt st.arena y).deleted = false := hdel ▸ hal
          have hyin := hexact y hi hyal
          have hjin := hexact j (alive_lt halj) halj
          refine ⟨?_, ?_⟩
          · rw [hmts, hstr2 y, hstr2 j]
            have hid : getMergeIdentifier t.tokens (nodeAt st.arena y).tokenID
                (nodeAt st.arena j).tokenID =
                nodeStr t st.arena y ++ [32] ++ nodeStr t st.arena j := rfl
            rw [hid, removeSpaces_concat (hstrs y hyin).1 (hstrs j hjin).1]
          · rw [hmts]
            exact hclosed _ hsome
        · rw [nodeAt_set_ne hyi] at hal hj ⊢
          have halj : (nodeAt st.arena j).deleted = false :=
            ((hfields j).2.2.2) ▸ hjal
          rw [hstr2 y, hstr2 j]
          exact hold.2 hal j hj halj
      · refine ⟨by rw [List.length_set]; exact hi, ?_⟩
        intro hal j hj hjal
        rw [nodeAt_set_self hi] at hal hj ⊢
        have hji : j = ni := by
          rw [hnext, hni] at hj
          exact (Option.some.inj hj).symm
        subst hji
        have halj : (nodeAt st.arena j).deleted = false :=
          ((hfields j).2.2.2) ▸ hjal
        have hial : (nodeAt st.arena y).deleted = false := hdel ▸ hal
        have hiin := hexact y hi hial
        have hjin := hexact j (alive_lt halj) halj
        refine ⟨?_, ?_⟩
        · rw [hmts, hstr2 y, hstr2 j]
          have hid : getMergeIdentifier t.tokens (nodeAt st.arena y).tokenID
              (nodeAt st.arena j).tokenID =
              nodeStr t st.arena y ++ [32] ++ nodeStr t st.arena j := rfl
          rw [hid, removeSpaces_concat (hstrs y hiin).1 (hstrs j hjin).1]
        · rw [hmts]
          exact hclosed _ hsome

end QueueInvariant

section BuildInvariant

lemma foldl_addToMergeQueue_inv {t : Tok} {goal : Str} {plen : Nat}
    (hclosed : ∀ s, (t.merges s).isSome = true →
      (tokenLookup t.tokens (removeSpaces s)).isSome = true) :
    ∀ (l : List Nat) (st : BPEState), BPEInv t goal st →
      BPEInv t goal (l.foldl (fun st i => addToMergeQueue t st i plen) st) := by
  intro l
  induction l with
  | nil => intro st h; exact h
  | cons x xs ih =>
    intro st h
    rw [List.foldl_cons]
    exact ih _ (addToMergeQueue_inv hclosed h)

lemma chain'_range {r : Nat → Nat → Prop} {n : Nat}
    (h : ∀ k, k + 1 < n → r k (k + 1)) : List.Chain' r (List.range n) := by
  cases n with
  | zero => simp
  | succ m =>
    rw [List.chain'_range_succ]
    intro k hk
    exact h k (by omega)

lemma nodeAt_map_range {f : Nat → MergeNode} {n i : Nat} (h : i < n) :
    nodeAt ((List.range n).map f) i = f i := by
  unfold nodeAt
  rw [List.getD_eq_getElem _ dNode (by simpa using h)]
  simp [List.getElem_map, List.getElem_range]

lemma range_map_getD (g : Nat → Str) (l : List Nat) :
    (List.range l.length).map (fun i => g (l.getD i 0)) = l.map g := by
  apply List.ext_getElem
  · simp
  · intro n h1 h2
    simp only [List.getElem_map, List.getElem_range]
    rw [List.getD_eq_getElem l 0 (by simpa using h2)]

/-- `buildMergeList` establishes the loop invariant, with the goal string
the concatenation of the seed tokens. -/
lemma buildMergeList_inv {t : Tok} {ids : List Nat} (plen : Nat)
    (hclosed : ∀ s, (t.merges s).isSome = true →
      (tokenLookup t.tokens (removeSpaces s)).isSome = true)
    (hlen : 1 ≤ ids.length)
    (hids : ∀ id ∈ ids, noSpace (t.tokens.getD id []) ∧ id < t.tokens.length) :
    BPEInv t ((ids.map (fun id => t.tokens.getD id [])).flatten)
      (buildMergeList t ids plen) := by
  simp only [buildMergeList]
  apply foldl_addToMergeQueue_inv hclosed
  obtain ⟨m, hm⟩ : ∃ m, ids.length = m + 1 := ⟨ids.length - 1, by omega⟩
  have harena : ∀ i, i < ids.length →
      nodeAt ((List.range ids.length).map (fun i =>
        { origPos := i, tokenID := ids.getD i 0, mergePrio := 0,
          mergeToString := [],
          prev := if i = 0 then none else some (i - 1),
          next := if i + 1 < ids.length then some (i + 1) else none,
          deleted := false : MergeNode })) i =
      { origPos := i, tokenID := ids.getD i 0, mergePrio := 0,
        mergeToString := [],
        prev := if i = 0 then none else some (i - 1),
        next := if i + 1 < ids.length then some (i + 1) else none,
        deleted := false : MergeNode } :=
    fun i h => nodeAt_map_range h
  have hlen0 : ((List.range ids.length).map (fun i =>
      { origPos := i, tokenID := ids.getD i 0, mergePrio := 0,
        mergeToString := [],
        prev := if i = 0 then none else some (i - 1),
        next := if i + 1 < ids.length then some (i + 1) else none,
        deleted := false : MergeNode })).length = ids.length := by
    simp
  refine ⟨List.range ids.length, ?_, ?_, List.nodup_range _, ⟨?_, ?_, ?_, ?_⟩,
    ?_, ?_, ?_, ?_, ?_⟩
  · rw [hm]
    simp [List.range_succ]
  · rw [List.head?_eq_getElem?, List.getElem?_range (by omega)]
  · apply chain'_range
    intro k hk
    refine ⟨?_, ?_⟩
    · rw [harena k (by omega)]
      exact if_pos (by omega)
    · rw [harena (k + 1) (by omega)]
      dsimp only
      rw [if_neg (by omega)]
      simp
  · intro i hi
    rw [hlen0]
    exact List.mem_range.mp hi
  · intro hd hhd
    rw [List.head?_eq_getElem?, List.getElem?_range (by omega),
      Option.some.injEq] at hhd
    subst hhd
    rw [harena 0 (by omega)]
    simp
  · intro lt hlt
    rw [hm, List.range_succ, List.getLast?_concat, Option.some.injEq] at hlt
    subst hlt
    rw [harena m (by omega)]
    simp only [hm]
    rw [if_neg (by omega)]
  · intro i hi
    rw [harena i (List.mem_range.mp hi)]
  · intro i hi _
    rw [hlen0] at hi
    exact List.mem_range.mpr hi
  · rw [List.map_congr_left (fun x hx => by
      unfold nodeStr
      rw [harena x (List.mem_range.mp hx)])]
    rw [range_map_getD (fun id => t.tokens.getD id [])]
  · intro i hi
    have hilt := List.mem_range.mp hi
    have hmem : ids.getD i 0 ∈ ids := getD_mem (by omega)
    constructor
    · unfold nodeStr
      rw [harena i hilt]
      exact (hids _ hmem).1
    · rw [harena i hilt]
      exact (hids _ hmem).2
  · intro i hi
    cases hi

end BuildInvariant

section MergeSurgery

/-- Mid-surgery form of queue preservation: `addToMergeQueue` keeps the
first node, the arena length, and every node's links, token and liveness;
it can only add `i` to the heap, and afterwards every heap entry is still
well formed.  Requires only heap wellformedness and space-freeness of the
live strings, not the full invariant. -/
lemma addToMergeQueue_entries {t : Tok} (st : BPEState) (i plen : Nat)
    (hclosed : ∀ s, (t.merges s).isSome = true →
      (tokenLookup t.tokens (removeSpaces s)).isSome = true)
    (hheap : ∀ y ∈ st.heap, heapEntryOK t st.arena y)
    (hns : ∀ j, (nodeAt st.arena j).deleted = false →
      noSpace (nodeStr t st.arena j)) :
    (addToMergeQueue t st i plen).first = st.first ∧
    (addToMergeQueue t st i plen).arena.length = st.arena.length ∧
    (∀ j, (nodeAt (addToMergeQueue t st i plen).arena j).prev
        = (nodeAt st.arena j).prev ∧
      (nodeAt (addToMergeQueue t st i plen).arena j).next
        = (nodeAt st.arena j).next ∧
      (nodeAt (addToMergeQueue t st i plen).arena j).tokenID
        = (nodeAt st.arena j).tokenID ∧
      (nodeAt (addToMergeQueue t st i plen).arena j).deleted
        = (nodeAt st.arena j).deleted) ∧
    (∀ y ∈ (addToMergeQueue t st i plen).heap, y ∈ st.heap ∨ y = i) ∧
    (∀ y ∈ (addToMergeQueue t st i plen).heap,
      heapEntryOK t (addToMergeQueue t st i plen).arena y) := by
  rcases addToMergeQueue_spec t st i plen with heq | ⟨hi, ni, hni, nd2, hprev, hnext,
    htok, hdel, hmts, hsome, heq⟩
  · rw [heq]
    exact ⟨rfl, rfl, fun j => ⟨rfl, rfl, rfl, rfl⟩, fun y hy => Or.inl hy, hheap⟩
  · rw [heq]
    have hfields : ∀ j, (nodeAt (st.arena.set i nd2) j).prev = (nodeAt st.arena j).prev ∧
        (nodeAt (st.arena.set i nd2) j).next = (nodeAt st.arena j).next ∧
        (nodeAt (st.arena.set i nd2) j).tokenID = (nodeAt st.arena j).tokenID ∧
        (nodeAt (st.arena.set i nd2) j).deleted = (nodeAt st.arena j).deleted := by
      intro j
      rcases eq_or_ne j i with rfl | hji
      · rw [nodeAt_set_self hi]
        exact ⟨hprev, hnext, htok, hdel⟩
      · rw [nodeAt_set_ne hji]
        exact ⟨rfl, rfl, rfl, rfl⟩
    have hstr2 : ∀ j, nodeStr t (st.arena.set i nd2) j = nodeStr t st.arena j := by
      intro j
      unfold nodeStr
      rw [(hfields j).2.2.1]
    refine ⟨rfl, by rw [List.length_set], hfields, fun y hy => mem_heapPush hy, ?_⟩
    intro y hy
    rcases mem_heapPush hy with hy2 | rfl
    · have hold := hheap y hy2
      refine ⟨by rw [List.length_set]; exact hold.1, ?_⟩
      intro hal j hj hjal
      rcases eq_or_ne y i with rfl | hyi
      · rw [nodeAt_set_self hi] at hal hj ⊢
        have hji : j = ni := by
          rw [hnext, hni] at hj
          exact (Option.some.inj hj).symm
        subst hji
        have halj : (nodeAt st.arena j).deleted = false :=
          ((hfields j).2.2.2) ▸ hjal
        have hyal : (nodeAt st.arena y).deleted = false := hdel ▸ hal
        refine ⟨?_, ?_⟩
        · rw [hmts, hstr2 y, hstr2 j]
          have hid : getMergeIdentifier t.tokens (nodeAt st.arena y).tokenID
              (nodeAt st.arena j).tokenID =
              nodeStr t st.arena y ++ [32] ++ nodeStr t st.arena j := rfl
          rw [hid, removeSpaces_concat (hns y hyal) (hns j halj)]
        · rw [hmts]
          exact hclosed _ hsome
      · rw [nodeAt_set_ne hyi] at hal hj ⊢
        have halj : (nodeAt st.arena j).deleted = false :=
          ((hfields j).2.2.2) ▸ hjal
        rw [hstr2 y, hstr2 j]
        exact hold.2 hal j hj halj
    · refine ⟨by rw [List.length_set]; exact hi, ?_⟩
      intro hal j hj hjal
      rw [nodeAt_set_self hi] at hal hj ⊢
      have hji : j = ni := by
        rw [hnext, hni] at hj
        exact (Option.some.inj hj).symm
      subst hji
      have halj : (nodeAt st.arena j).deleted = false :=
        ((hfields j).2.2.2) ▸ hjal
      have hial : (nodeAt st.arena y).deleted = false := hdel ▸ hal
      refine ⟨?_, ?_⟩
      · rw [hmts, hstr2 y, hstr2 j]
        have hid : getMergeIdentifier t.tokens (nodeAt st.arena y).tokenID
            (nodeAt st.arena j).tokenID =
            nodeStr t st.arena y ++ [32] ++ nodeStr t st.arena j := rfl
        rw [hid, removeSpaces_concat (hns y hial) (hns j halj)]
      · rw [hmts]
        exact hclosed _ hsome

end MergeSurgery

section SurgerySupport

lemma noSpace_append {x y : Str} (hx : noSpace x) (hy : noSpace y) :
    noSpace (x ++ y) := by
  intro u hu
  rcases List.mem_append.mp hu with h | h
  · exact hx u h
  · exact hy u h

lemma nodeStr_congr {t : Tok} {a a' : List MergeNode} {j : Nat}
    (h : (nodeAt a' j).tokenID = (nodeAt a j).tokenID) :
    nodeStr t a' j = nodeStr t a j := by
  unfold nodeStr
  rw [h]

/-- Transfer of a heap entry across arena surgery: the entry's node was
deleted, or its relevant fields survived and each old successor was
deleted or survived. -/
lemma heapEntryOK_after {t : Tok} {aOld aNew : List MergeNode} {y : Nat}
    (hlen : aOld.length ≤ aNew.length)
    (hOld : heapEntryOK t aOld y)
    (hcase : (nodeAt aNew y).deleted = true ∨
      ((nodeAt aNew y).next = (nodeAt aOld y).next ∧
       (nodeAt aNew y).tokenID = (nodeAt aOld y).tokenID ∧
       (nodeAt aNew y).deleted = (nodeAt aOld y).deleted ∧
       (nodeAt aNew y).mergeToString = (nodeAt aOld y).mergeToString ∧
       ∀ j, (nodeAt aOld y).deleted = false → (nodeAt aOld y).next = some j →
         ((nodeAt aNew j).deleted = true ∨
          ((nodeAt aNew j).tokenID = (nodeAt aOld j).tokenID ∧
           (nodeAt aNew j).deleted = (nodeAt aOld j).deleted)))) :
    heapEntryOK t aNew y := by
  refine ⟨lt_of_lt_of_le hOld.1 hlen, ?_⟩
  intro hal j hj hjal
  rcases hcase with hdel | ⟨hny, hty, hdy, hmy, hsucc⟩
  · rw [hal] at hdel
    cases hdel
  · rw [hny] at hj
    have hyalold : (nodeAt aOld y).deleted = false := hdy ▸ hal
    rcases hsucc j hyalold hj with hjdel | ⟨htj, hdj⟩
    · rw [hjal] at hjdel
      cases hjdel
    · have hjalold : (nodeAt aOld j).deleted = false := hdj ▸ hjal
      have hmain := hOld.2 hyalold j hj hjalold
      rw [hmy]
      refine ⟨?_, hmain.2⟩
      rw [nodeStr_congr hty, nodeStr_congr htj]
      exact hmain.1

/-- A heap entry survives any arena change that preserves lengthwise
growth and every node's `next`, `tokenID`, `deleted` and `mergeToString`
(a change of `prev` links only, for instance). -/
lemma heapEntryOK_transfer {t : Tok} {a a' : List MergeNode} {y : Nat}
    (hlen : a.length ≤ a'.length)
    (hf : ∀ j, (nodeAt a' j).next = (nodeAt a j).next ∧
      (nodeAt a' j).tokenID = (nodeAt a j).tokenID ∧
      (nodeAt a' j).deleted = (nodeAt a j).deleted ∧
      (nodeAt a' j).mergeToString = (nodeAt a j).mergeToString)
    (h : heapEntryOK t a y) : heapEntryOK t a' y := by
  refine heapEntryOK_after hlen h (Or.inr ⟨(hf y).1, (hf y).2.1, (hf y).2.2.1,
    (hf y).2.2.2, ?_⟩)
  intro j _ _
  exact Or.inr ⟨(hf j).2.1, (hf j).2.2.1⟩

lemma nodup_decomp {A B : List Nat} {li ri : Nat}
    (h : (A ++ li :: ri :: B).Nodup) :
    li ∉ A ∧ ri ∉ A ∧ li ≠ ri ∧ li ∉ B ∧ ri ∉ B := by
  rw [List.nodup_append] at h
  obtain ⟨hA, hC, hdisj⟩ := h
  rw [List.nodup_cons] at hC
  obtain ⟨hli, hC2⟩ := hC
  rw [List.nodup_cons] at hC2
  obtain ⟨hri, hB⟩ := hC2
  refine ⟨fun hm => hdisj hm (by simp), fun hm => hdisj hm (by simp), ?_, ?_, hri⟩
  · intro hcon
    exact hli (by simp [hcon])
  · intro hcon
    exact hli (by simp [hcon])

end SurgerySupport


section MergeShape

lemma updatePreviousNode_none {a2 : List MergeNode} {li f : Nat}
    (h : (nodeAt a2 li).prev = none) :
    updatePreviousNode a2 li f = (a2, f) := by
  unfold updatePreviousNode
  rw [h]

lemma updatePreviousNode_some {a2 : List MergeNode} {li pi : Nat} (f : Nat)
    (h : (nodeAt a2 li).prev = some pi) :
    updatePreviousNode a2 li f =
      (let a3 := a2.set pi { nodeAt a2 pi with deleted := true };
       let a4 := a3 ++ [{ nodeAt a2 pi with
         mergePrio := 0, mergeToString := [], deleted := false }];
       let a5 := a4.set li { nodeAt a4 li with prev := some a2.length };
       match (nodeAt a2 pi).prev with
       | some ppi => (a5.set ppi { nodeAt a5 ppi with next := some a2.length }, f)
       | none => (a5, a2.length)) := by
  unfold updatePreviousNode
  rw [h]
  dsimp only
  rw [List.length_set]

end MergeShape

section RelinkNext

lemma getLast?_append_ne {l1 l2 : List Nat} (h : l2 ≠ []) :
    (l1 ++ l2).getLast? = l2.getLast? := by
  rw [List.getLast?_append]
  cases l2 with
  | nil => exact absurd rfl h
  | cons x xs =>
    cases hgl : (x :: xs).getLast? with
    | none => simp at hgl
    | some y => rfl

/-- Second half of `updateMergeLinks`: relinking the right neighbour's
`prev` to the merged node and offering the merged pair restores the full
invariant, given a state correct in every respect except that link. -/
lemma relinkNext_inv {t : Tok} {goal : Str} {plen : Nat} (st : BPEState)
    (rm : Nat) (C D : List Nat)
    (hclosed : ∀ s, (t.merges s).isSome = true →
      (tokenLookup t.tokens (removeSpaces s)).isSome = true)
    (hhead : (C ++ rm :: D).head? = some st.first)
    (hnd : (C ++ rm :: D).Nodup)
    (hchainC : List.Chain' (chainAdj st.arena) (C ++ [rm]))
    (hchainD : List.Chain' (chainAdj st.arena) D)
    (hrmD : ∀ nx, D.head? = some nx → (nodeAt st.arena rm).next = some nx)
    (hDnil : D = [] → (nodeAt st.arena rm).next = none)
    (hbnd : ∀ i ∈ C ++ rm :: D, i < st.arena.length)
    (hheadprev : ∀ hd, (C ++ rm :: D).head? = some hd →
      (nodeAt st.arena hd).prev = none)
    (hlastnext : ∀ lt, (rm :: D).getLast? = some lt →
      (nodeAt st.arena lt).next = none)
    (halive : ∀ i ∈ C ++ rm :: D, (nodeAt st.arena i).deleted = false)
    (hexact : ∀ i, i < st.arena.length → (nodeAt st.arena i).deleted = false →
      i ∈ C ++ rm :: D)
    (hconcat : ((C ++ rm :: D).map (fun i => nodeStr t st.arena i)).flatten = goal)
    (hstrs : ∀ i ∈ C ++ rm :: D, noSpace (nodeStr t st.arena i) ∧
      (nodeAt st.arena i).tokenID < t.tokens.length)
    (hheap : ∀ y ∈ st.heap, heapEntryOK t st.arena y) :
    BPEInv t goal (updateMergeLinksSnd t st rm plen) := by
  unfold updateMergeLinksSnd
  cases hD : D with
  | nil =>
    rw [hDnil hD]
    subst hD
    refine ⟨C ++ [rm], by simp, hhead, hnd, ⟨hchainC, hbnd, hheadprev, ?_⟩,
      halive, hexact, hconcat, hstrs, hheap⟩
    intro lt hlt
    rw [getLast?_append_ne (by simp)] at hlt
    exact hlastnext lt hlt
  | cons nx D2 =>
    subst hD
    rw [hrmD nx rfl]
    apply addToMergeQueue_inv hclosed
    have hnd' := hnd
    rw [List.nodup_append] at hnd'
    have hndR := hnd'.2.1
    rw [List.nodup_cons] at hndR
    have hndN := hndR.2
    rw [List.nodup_cons] at hndN
    have hnxC : nx ∉ C := fun hc => hnd'.2.2 hc (by simp)
    have hnxrm : nx ≠ rm := fun hc => hndR.1 (by simp [hc.symm])
    have hnxD2 : nx ∉ D2 := hndN.1
    have hnxmem : nx ∈ C ++ rm :: nx :: D2 := by simp
    have hnxlen : nx < st.arena.length := hbnd nx hnxmem
    have hfield : ∀ j, j ≠ nx →
        nodeAt (st.arena.set nx { nodeAt st.arena nx with prev := some rm }) j
          = nodeAt st.arena j := fun j hj => nodeAt_set_ne hj _
    have hfnx : nodeAt (st.arena.set nx { nodeAt st.arena nx with prev := some rm })
        nx = { nodeAt st.arena nx with prev := some rm } := nodeAt_set_self hnxlen _
    have hpres : ∀ j,
        (nodeAt (st.arena.set nx { nodeAt st.arena nx with prev := some rm }) j).next
          = (nodeAt st.arena j).next ∧
        (nodeAt (st.arena.set nx { nodeAt st.arena nx with prev := some rm }) j).tokenID
          = (nodeAt st.arena j).tokenID ∧
        (nodeAt (st.arena.set nx { nodeAt st.arena nx with prev := some rm }) j).deleted
          = (nodeAt st.arena j).deleted ∧
        (nodeAt (st.arena.set nx
          { nodeAt st.arena nx with prev := some rm }) j).mergeToString
          = (nodeAt st.arena j).mergeToString := by
      intro j
      rcases eq_or_ne j nx with rfl | hj
      · rw [hfnx]
        exact ⟨rfl, rfl, rfl, rfl⟩
      · rw [hfield j hj]
        exact ⟨rfl, rfl, rfl, rfl⟩
    have hstr2 : ∀ j,
        nodeStr t (st.arena.set nx { nodeAt st.arena nx with prev := some rm }) j
          = nodeStr t st.arena j := fun j => nodeStr_congr (hpres j).2.1
    refine ⟨C ++ rm :: nx :: D2, by simp, hhead, hnd, ⟨?_, ?_, ?_, ?_⟩,
      ?_, ?_, ?_, ?_, ?_⟩
    · -- the chain is doubly linked in the relinked arena
      have hchC2 : List.Chain'
          (chainAdj (st.arena.set nx { nodeAt st.arena nx with prev := some rm }))
          (C ++ [rm]) := by
        refine chain'_mem_imp hchainC (fun x hx y hy hadj => ?_)
        unfold chainAdj at hadj ⊢
        have hynx : y ≠ nx := by
          rintro rfl
          rcases List.mem_append.mp hy with h1 | h1
          · exact hnxC h1
          · exact hnxrm (List.mem_singleton.mp h1)
        rw [(hpres x).1, hfield y hynx]
        exact hadj
      have hadjrmnx : chainAdj
          (st.arena.set nx { nodeAt st.arena nx with prev := some rm }) rm nx := by
        constructor
        · rw [(hpres rm).1]
          exact hrmD nx rfl
        · rw [hfnx]
      have hchD2 : List.Chain'
          (chainAdj (st.arena.set nx { nodeAt st.arena nx with prev := some rm }))
          (nx :: D2) := by
        cases hD2 : D2 with
        | nil => exact List.chain'_singleton nx
        | cons d1 D3 =>
          subst hD2
          rw [List.chain'_cons] at hchainD ⊢
          constructor
          · unfold chainAdj at hchainD ⊢
            have hd1nx : d1 ≠ nx := by
              rintro rfl
              exact hnxD2 (by simp)
            rw [(hpres nx).1, hfield d1 hd1nx]
            exact hchainD.1
          · refine chain'_mem_imp hchainD.2 (fun x hx y hy hadj => ?_)
            unfold chainAdj at hadj ⊢
            have hynx : y ≠ nx := by
              rintro rfl
              exact hnxD2 hy
            rw [(hpres x).1, hfield y hynx]
            exact hadj
      have hjoin := List.chain'_append.mpr ⟨hchC2, hchD2, ?_⟩
      · rw [List.append_assoc] at hjoin
        simpa using hjoin
      · intro x hx y hy
        rw [List.getLast?_concat] at hx
        rw [List.head?_cons] at hy
        rcases Option.some.inj hx with rfl
        rcases Option.some.inj hy with rfl
        exact hadjrmnx
    · intro i hi
      rw [List.length_set]
      exact hbnd i hi
    · intro hd hhd
      have hhdne : hd ≠ nx := by
        cases C with
        | nil =>
          rw [List.nil_append, List.head?_cons] at hhd
          rcases Option.some.inj hhd with rfl
          exact fun hc => hnxrm hc.symm
        | cons c C2 =>
          rw [List.cons_append, List.head?_cons] at hhd
          rcases Option.some.inj hhd with rfl
          intro hc
          subst hc
          have := hnd
          rw [List.cons_append, List.nodup_cons] at this
          exact this.1 (by simp)
      rw [hfield hd hhdne]
      exact hheadprev hd hhd
    · intro lt hlt
      rw [getLast?_append_ne (by simp)] at hlt
      rw [(hpres lt).1]
      exact hlastnext lt hlt
    · intro i hi
      rw [(hpres i).2.2.1]
      exact halive i hi
    · intro i hi hal
      rw [List.length_set] at hi
      rw [(hpres i).2.2.1] at hal
      exact hexact i hi hal
    · rw [List.map_congr_left (fun x _ => hstr2 x)]
      exact hconcat
    · intro i hi
      rw [hstr2 i, (hpres i).2.1]
      exact hstrs i hi
    · intro y hy
      exact heapEntryOK_transfer (by rw [List.length_set]) hpres (hheap y hy)

end RelinkNext

section MergeNoPrev

/-- `performMerge` preserves the invariant when the popped left node is
the first node (no previous neighbour). -/
lemma performMerge_inv_noPrev {t : Tok} {goal : Str} {st : BPEState}
    {li ri plen : Nat} {B : List Nat}
    (hclosed : ∀ s, (t.merges s).isSome = true →
      (tokenLookup t.tokens (removeSpaces s)).isSome = true)
    (hnd : (li :: ri :: B).Nodup)
    (hchain : List.Chain' (chainAdj st.arena) (li :: ri :: B))
    (hbnd : ∀ i ∈ li :: ri :: B, i < st.arena.length)
    (hPrevLi : (nodeAt st.arena li).prev = none)
    (hlastnext : ∀ lt, (li :: ri :: B).getLast? = some lt →
      (nodeAt st.arena lt).next = none)
    (halive : ∀ i ∈ li :: ri :: B, (nodeAt st.arena i).deleted = false)
    (hexact : ∀ i, i < st.arena.length → (nodeAt st.arena i).deleted = false →
      i ∈ li :: ri :: B)
    (hconcat : ((li :: ri :: B).map (fun i => nodeStr t st.arena i)).flatten = goal)
    (hstrs : ∀ i ∈ li :: ri :: B, noSpace (nodeStr t st.arena i) ∧
      (nodeAt st.arena i).tokenID < t.tokens.length)
    (hheap : ∀ y ∈ st.heap, heapEntryOK t st.arena y)
    (hok : heapEntryOK t st.arena li)
    (hnxLi : (nodeAt st.arena li).next = some ri) :
    BPEInv t goal (performMerge t st li plen) := by
  have hLiAlive : (nodeAt st.arena li).deleted = false := halive li (by simp)
  have hRiAlive : (nodeAt st.arena ri).deleted = false := halive ri (by simp)
  have hliL : li < st.arena.length := hbnd li (by simp)
  have hriL : ri < st.arena.length := hbnd ri (by simp)
  have hnd2 := hnd
  rw [List.nodup_cons] at hnd2
  obtain ⟨hliR, hndR⟩ := hnd2
  rw [List.nodup_cons] at hndR
  obtain ⟨hriB, hndB⟩ := hndR
  have hliri : li ≠ ri := fun hc => hliR (by simp [hc])
  have hliB : li ∉ B := fun hc => hliR (by simp [hc])
  obtain ⟨hmtsEq, hmtsSome⟩ := hok.2 hLiAlive ri hnxLi hRiAlive
  obtain ⟨mid, hlook⟩ := Option.isSome_iff_exists.mp hmtsSome
  have hsound := tokenLookup_sound hlook
  unfold performMerge
  rw [hnxLi]
  dsimp only
  rw [nodeAt_set_ne (Ne.symm hliri)]
  set a2F := (st.arena.set li { nodeAt st.arena li with deleted := true }).set ri
    { nodeAt st.arena ri with deleted := true } with ha2F
  have hA2len : a2F.length = st.arena.length := by
    rw [ha2F]
    simp [List.length_set]
  have hA2li : nodeAt a2F li = { nodeAt st.arena li with deleted := true } := by
    rw [ha2F, nodeAt_set_ne hliri, nodeAt_set_self hliL]
  have hA2ri : nodeAt a2F ri = { nodeAt st.arena ri with deleted := true } := by
    rw [ha2F]
    exact nodeAt_set_self (by rw [List.length_set]; exact hriL) _
  have hA2o : ∀ j, j ≠ li → j ≠ ri → nodeAt a2F j = nodeAt st.arena j := by
    intro j h1 h2
    rw [ha2F, nodeAt_set_ne h2, nodeAt_set_ne h1]
  have hupd : updatePreviousNode a2F li st.first = (a2F, st.first) :=
    updatePreviousNode_none (by rw [hA2li]; exact hPrevLi)
  rw [hupd]
  dsimp only
  have hlook2 : tokenLookup t.tokens (nodeAt a2F li).mergeToString = some mid := by
    rw [hA2li]
    exact hlook
  rw [hlook2]
  dsimp only
  rw [hA2li, hA2ri]
  dsimp only
  rw [hPrevLi]
  set a7G := a2F ++ [({ origPos := (nodeAt st.arena li).origPos, tokenID := mid, mergePrio := 0, mergeToString := [], prev := none, next := (nodeAt st.arena ri).next, deleted := false } : MergeNode)] with ha7G
  have hlen7 : a7G.length = st.arena.length + 1 := by
    rw [ha7G]
    simp [hA2len]
  have hrmlen : nodeAt a7G a2F.length = { origPos := (nodeAt st.arena li).origPos, tokenID := mid, mergePrio := 0, mergeToString := [], prev := none, next := (nodeAt st.arena ri).next, deleted := false } := by
    rw [ha7G]
    exact nodeAt_append_self _ _
  have hfB : ∀ x, x ∈ B → nodeAt a7G x = nodeAt st.arena x := by
    intro x hx
    have hxli : x ≠ li := fun hc => hliB (hc ▸ hx)
    have hxri : x ≠ ri := fun hc => hriB (hc ▸ hx)
    rw [ha7G, nodeAt_append_lt (by rw [hA2len]; exact hbnd x (by simp [hx])),
      hA2o x hxli hxri]
  have hstrRm : nodeStr t a7G a2F.length =
      nodeStr t st.arena li ++ nodeStr t st.arena ri := by
    unfold nodeStr
    rw [hrmlen]
    show t.tokens.getD mid [] = _
    rw [hsound.2, hmtsEq]
    rfl
  unfold updateMergeLinks
  dsimp only
  rw [hrmlen]
  dsimp only
  refine relinkNext_inv _ _ [] B hclosed ?_ ?_ ?_ ?_ ?_ ?_ ?_ ?_ ?_ ?_ ?_ ?_ ?_ ?_
  · rfl
  · simp only [List.nil_append, List.nodup_cons]
    refine ⟨fun hc => ?_, hndB⟩
    have := hbnd a2F.length (by simp [hc])
    rw [hA2len] at this
    omega
  · simp only [List.nil_append]
    exact List.chain'_singleton _
  · have hchainB : List.Chain' (chainAdj st.arena) B := (hchain.tail).tail
    refine chain'_mem_imp hchainB (fun x hx y hy hadj => ?_)
    unfold chainAdj at hadj ⊢
    rw [hfB x hx, hfB y hy]
    exact hadj
  · intro nx hnxB
    dsimp only
    rw [hrmlen]
    show (nodeAt st.arena ri).next = some nx
    cases hB : B with
    | nil =>
      subst hB
      cases hnxB
    | cons b B2 =>
      subst hB
      rw [List.head?_cons, Option.some.injEq] at hnxB
      subst hnxB
      exact ((List.chain'_cons.mp hchain.tail).1).1
  · intro hB
    dsimp only
    rw [hrmlen]
    show (nodeAt st.arena ri).next = none
    refine hlastnext ri ?_
    rw [hB]
    rfl
  · dsimp only
    simp only [List.nil_append]
    intro i hi
    rcases List.mem_cons.mp hi with rfl | hiB
    · rw [hlen7, hA2len]
      omega
    · rw [hlen7]
      have := hbnd i (by simp [hiB])
      omega
  · intro hd hhd
    simp only [List.nil_append, List.head?_cons, Option.some.injEq] at hhd
    subst hhd
    dsimp only
    rw [hrmlen]
  · intro lt hlt
    dsimp only
    cases hB : B with
    | nil =>
      subst hB
      simp only [List.getLast?_singleton, Option.some.injEq] at hlt
      subst hlt
      rw [hrmlen]
      show (nodeAt st.arena ri).next = none
      exact hlastnext ri rfl
    | cons b B2 =>
      subst hB
      rw [List.getLast?_cons_cons] at hlt
      have hltB : lt ∈ b :: B2 := List.mem_of_getLast?_eq_some hlt
      rw [hfB lt hltB]
      refine hlastnext lt ?_
      rw [List.getLast?_cons_cons, List.getLast?_cons_cons]
      exact hlt
  · intro i hi
    dsimp only
    simp only [List.nil_append] at hi
    rcases List.mem_cons.mp hi with rfl | hiB
    · rw [hrmlen]
    · rw [hfB i hiB]
      exact halive i (by simp [hiB])
  · intro i hi hal
    dsimp only at hi hal
    rw [hlen7] at hi
    by_cases hiL : i < st.arena.length
    · by_cases hili : i = li
      · subst hili
        rw [ha7G, nodeAt_append_lt (by rw [hA2len]; exact hiL), hA2li] at hal
        simp at hal
      · by_cases hiri : i = ri
        · subst hiri
          rw [ha7G, nodeAt_append_lt (by rw [hA2len]; exact hiL), hA2ri] at hal
          simp at hal
        · rw [ha7G, nodeAt_append_lt (by rw [hA2len]; exact hiL),
            hA2o i hili hiri] at hal
          have := hexact i hiL hal
          rcases List.mem_cons.mp this with rfl | h2
          · exact absurd rfl hili
          · rcases List.mem_cons.mp h2 with rfl | h3
            · exact absurd rfl hiri
            · simp [h3]
    · have heq : i = a2F.length := by
        rw [hA2len]
        omega
      subst heq
      simp
  · dsimp only
    simp only [List.nil_append, List.map_cons, List.flatten_cons]
    have hmapB : B.map (fun i => nodeStr t a7G i)
        = B.map (fun i => nodeStr t st.arena i) :=
      List.map_congr_left (fun x hx => by
        unfold nodeStr
        rw [hfB x hx])
    rw [hstrRm, hmapB, List.append_assoc]
    have hc2 := hconcat
    simp only [List.map_cons, List.flatten_cons] at hc2
    exact hc2
  · intro i hi
    dsimp only
    simp only [List.nil_append] at hi
    rcases List.mem_cons.mp hi with rfl | hiB
    · constructor
      · rw [hstrRm]
        exact noSpace_append (hstrs li (by simp)).1 (hstrs ri (by simp)).1
      · rw [hrmlen]
        exact hsound.1
    · constructor
      · rw [show nodeStr t a7G i = nodeStr t st.arena i from by
          unfold nodeStr
          rw [hfB i hiB]]
        exact (hstrs i (by simp [hiB])).1
      · rw [hfB i hiB]
        exact (hstrs i (by simp [hiB])).2
  · intro y hy
    dsimp only at hy ⊢
    have hOldE := hheap y hy
    refine heapEntryOK_after (by rw [hlen7]; omega) hOldE ?_
    by_cases hyli : y = li
    · subst hyli
      left
      rw [ha7G, nodeAt_append_lt (by rw [hA2len]; exact hOldE.1), hA2li]
    · by_cases hyri : y = ri
      · subst hyri
        left
        rw [ha7G, nodeAt_append_lt (by rw [hA2len]; exact hOldE.1), hA2ri]
      · have hfy : nodeAt a7G y = nodeAt st.arena y := by
          rw [ha7G, nodeAt_append_lt (by rw [hA2len]; exact hOldE.1),
            hA2o y hyli hyri]
        refine Or.inr ⟨by rw [hfy], by rw [hfy], by rw [hfy], by rw [hfy], ?_⟩
        intro j hyal hj
        have hymem : y ∈ li :: ri :: B := hexact y hOldE.1 hyal
        obtain ⟨C2, D2, hdec⟩ := chain_decomp hchain hlastnext hymem hj
        have hjmem : j ∈ li :: ri :: B := by
          rw [hdec]
          simp
        have hjlt : j < st.arena.length := hbnd j hjmem
        by_cases hjli : j = li
        · subst hjli
          left
          rw [ha7G, nodeAt_append_lt (by rw [hA2len]; exact hjlt), hA2li]
        · by_cases hjri : j = ri
          · subst hjri
            left
            rw [ha7G, nodeAt_append_lt (by rw [hA2len]; exact hjlt), hA2ri]
          · have hfj : nodeAt a7G j = nodeAt st.arena j := by
              rw [ha7G, nodeAt_append_lt (by rw [hA2len]; exact hjlt),
                hA2o j hjli hjri]
            exact Or.inr ⟨by rw [hfj], by rw [hfj]⟩

end MergeNoPrev

section MorePrevSupport

lemma nodeAt_append_eq {a : List MergeNode} {i : Nat} (h : i = a.length)
    (nd : MergeNode) : nodeAt (a ++ [nd]) i = nd := by
  subst h
  exact nodeAt_append_self _ _

lemma head?_append_cons_congr (A : List Nat) (x : Nat) (l l' : List Nat) :
    (A ++ x :: l).head? = (A ++ x :: l').head? := by
  cases A <;> rfl

end MorePrevSupport

section MergePrevSpec

/-- Explicit description of `performMerge` when the left node has a
previous neighbour `pi` and the merged token resolves: the result is the
right-hand link fix applied after the queue offer at the rebuilt
neighbour (arena index `st.arena.length`), with the merged node at
`st.arena.length + 1`.  The arena `a8` is described field by field. -/
lemma performMerge_spec_prev {t : Tok} {st : BPEState} {li ri pi mid plen : Nat}
    (hliL : li < st.arena.length) (hriL : ri < st.arena.length)
    (hpiL : pi < st.arena.length)
    (hliri : li ≠ ri) (hpili : pi ≠ li) (hpiri : pi ≠ ri)
    (hnxLi : (nodeAt st.arena li).next = some ri)
    (hPrevLi : (nodeAt st.arena li).prev = some pi)
    (hlook : tokenLookup t.tokens (nodeAt st.arena li).mergeToString = some mid)
    (hppiH : ∀ ppi, (nodeAt st.arena pi).prev = some ppi →
      ppi < st.arena.length ∧ ppi ≠ li ∧ ppi ≠ ri ∧ ppi ≠ pi) :
    ∃ a8 f1,
      performMerge t st li plen =
        updateMergeLinksSnd t
          (addToMergeQueue t { arena := a8, heap := st.heap, first := f1 }
            st.arena.length plen)
          (st.arena.length + 1) plen ∧
      ((nodeAt st.arena pi).prev = none → f1 = st.arena.length) ∧
      (∀ ppi, (nodeAt st.arena pi).prev = some ppi → f1 = st.first) ∧
      a8.length = st.arena.length + 2 ∧
      (∀ j, j < st.arena.length → j ≠ li → j ≠ ri → j ≠ pi →
        ((nodeAt st.arena pi).prev = some j →
          nodeAt a8 j = { nodeAt st.arena j with next := some st.arena.length }) ∧
        ((nodeAt st.arena pi).prev ≠ some j → nodeAt a8 j = nodeAt st.arena j)) ∧
      (nodeAt a8 li).deleted = true ∧
      (nodeAt a8 ri).deleted = true ∧
      (nodeAt a8 pi).deleted = true ∧
      nodeAt a8 st.arena.length = { nodeAt st.arena pi with mergePrio := 0, mergeToString := [], next := some (st.arena.length + 1), deleted := false } ∧
      nodeAt a8 (st.arena.length + 1) = { origPos := (nodeAt st.arena li).origPos, tokenID := mid, mergePrio := 0, mergeToString := [], prev := some st.arena.length, next := (nodeAt st.arena ri).next, deleted := false } := by
  have hA2len : ((st.arena.set li { nodeAt st.arena li with deleted := true }).set ri { nodeAt st.arena ri with deleted := true }).length = st.arena.length := by
    simp only [List.length_set, List.length_append, List.length_cons, List.length_nil, Nat.zero_add]
  have hA2li : nodeAt ((st.arena.set li { nodeAt st.arena li with deleted := true }).set ri { nodeAt st.arena ri with deleted := true }) li = { nodeAt st.arena li with deleted := true } := by
    rw [nodeAt_set_ne hliri, nodeAt_set_self hliL]
  have hA2ri : nodeAt ((st.arena.set li { nodeAt st.arena li with deleted := true }).set ri { nodeAt st.arena ri with deleted := true }) ri = { nodeAt st.arena ri with deleted := true } := by
    rw [nodeAt_set_self (by rw [List.length_set]; exact hriL)]
  have hA2o : ∀ j, j ≠ li → j ≠ ri → nodeAt ((st.arena.set li { nodeAt st.arena li with deleted := true }).set ri { nodeAt st.arena ri with deleted := true }) j = nodeAt st.arena j := by
    intro j h1 h2
    rw [nodeAt_set_ne h2, nodeAt_set_ne h1]
  have hprev2 : (nodeAt ((st.arena.set li { nodeAt st.arena li with deleted := true }).set ri { nodeAt st.arena ri with deleted := true }) li).prev = some pi := by
    rw [hA2li]
    exact hPrevLi
  have hupd := updatePreviousNode_some st.first hprev2
  dsimp only at hupd
  rw [hA2o pi hpili hpiri] at hupd
  have h4li : nodeAt ((((st.arena.set li { nodeAt st.arena li with deleted := true }).set ri { nodeAt st.arena ri with deleted := true }).set pi { nodeAt st.arena pi with deleted := true }) ++ [{ nodeAt st.arena pi with mergePrio := 0, mergeToString := [], deleted := false }]) li = { nodeAt st.arena li with deleted := true } := by
    rw [nodeAt_append_lt (by rw [List.length_set]; rw [hA2len]; exact hliL),
      nodeAt_set_ne (Ne.symm hpili), hA2li]
  rw [h4li] at hupd
  unfold performMerge
  rw [hnxLi]
  dsimp only
  rw [nodeAt_set_ne (Ne.symm hliri)]
  cases hpp : (nodeAt st.arena pi).prev with
  | none =>
    rw [hpp] at hupd
    dsimp only at hupd
    rw [hupd]
    dsimp only
    rw [nodeAt_set_self (by simp only [List.length_set, List.length_append, List.length_cons, List.length_nil, Nat.zero_add]; omega)]
    dsimp only
    rw [hlook]
    dsimp only
    rw [nodeAt_set_ne (Ne.symm hliri),
      nodeAt_append_lt (by rw [List.length_set]; rw [hA2len]; exact hriL),
      nodeAt_set_ne (Ne.symm hpiri), hA2ri]
    dsimp only
    unfold updateMergeLinks
    dsimp only
    rw [nodeAt_append_self]
    dsimp only
    rw [nodeAt_append_lt (by simp only [List.length_set, List.length_append, List.length_cons, List.length_nil, Nat.zero_add]; omega),
      nodeAt_set_ne (by rw [hA2len]; omega : ((st.arena.set li { nodeAt st.arena li with deleted := true }).set ri { nodeAt st.arena ri with deleted := true }).length ≠ li),
      nodeAt_append_eq (by simp only [List.length_set])]
    dsimp only
    rw [hA2len]
    simp only [List.length_set, List.length_append, List.length_cons, List.length_nil, Nat.zero_add]
    refine ⟨_, _, rfl, ?_, ?_, ?_, ?_, ?_, ?_, ?_, ?_, ?_⟩
    · intro _
      rfl
    · intro ppi hcon
      cases hcon
    · simp only [List.length_set, List.length_append, List.length_cons, List.length_nil, Nat.zero_add]
    · intro j hj hjli hjri hjpi
      constructor
      · intro hcon
        cases hcon
      intro _
      rw [nodeAt_set_ne (by omega : j ≠ st.arena.length),
        nodeAt_append_lt (by simp only [List.length_set, List.length_append, List.length_cons, List.length_nil, Nat.zero_add]; omega),
        nodeAt_set_ne hjli,
        nodeAt_append_lt (by simp only [List.length_set, List.length_append, List.length_cons, List.length_nil, Nat.zero_add]; omega),
        nodeAt_set_ne hjpi, hA2o j hjli hjri]
    · rw [nodeAt_set_ne (by omega : li ≠ st.arena.length),
        nodeAt_append_lt (by simp only [List.length_set, List.length_append, List.length_cons, List.length_nil, Nat.zero_add]; omega),
        nodeAt_set_self (by simp only [List.length_set, List.length_append, List.length_cons, List.length_nil, Nat.zero_add]; omega)]
    · rw [nodeAt_set_ne (by omega : ri ≠ st.arena.length),
        nodeAt_append_lt (by simp only [List.length_set, List.length_append, List.length_cons, List.length_nil, Nat.zero_add]; omega),
        nodeAt_set_ne (Ne.symm hliri),
        nodeAt_append_lt (by simp only [List.length_set, List.length_append, List.length_cons, List.length_nil, Nat.zero_add]; omega),
        nodeAt_set_ne (Ne.symm hpiri), hA2ri]
    · rw [nodeAt_set_ne (by omega : pi ≠ st.arena.length),
        nodeAt_append_lt (by simp only [List.length_set, List.length_append, List.length_cons, List.length_nil, Nat.zero_add]; omega),
        nodeAt_set_ne hpili,
        nodeAt_append_lt (by simp only [List.length_set, List.length_append, List.length_cons, List.length_nil, Nat.zero_add]; omega),
        nodeAt_set_self (by rw [hA2len]; exact hpiL)]
    · rw [nodeAt_set_self (by simp only [List.length_set, List.length_append, List.length_cons, List.length_nil, Nat.zero_add]; omega)]
    · rw [nodeAt_set_ne (by omega : st.arena.length + 1 ≠ st.arena.length),
        nodeAt_append_eq (by simp only [List.length_set, List.length_append, List.length_cons, List.length_nil, Nat.zero_add])]
  | some ppi =>
    obtain ⟨hppiL, hppili, hppiri, hppipi⟩ := hppiH ppi hpp
    rw [hpp] at hupd
    dsimp only at hupd
    rw [nodeAt_set_ne hppili,
      nodeAt_append_lt (by rw [List.length_set]; rw [hA2len]; exact hppiL),
      nodeAt_set_ne hppipi, hA2o ppi hppili hppiri] at hupd
    rw [hupd]
    dsimp only
    rw [nodeAt_set_ne (by omega : li ≠ ppi)]
    rw [nodeAt_set_self (by simp only [List.length_set, List.length_append, List.length_cons, List.length_nil, Nat.zero_add]; omega)]
    dsimp only
    rw [hlook]
    dsimp only
    rw [nodeAt_set_ne (by omega : ri ≠ ppi),
      nodeAt_set_ne (Ne.symm hliri),
      nodeAt_append_lt (by rw [List.length_set]; rw [hA2len]; exact hriL),
      nodeAt_set_ne (Ne.symm hpiri), hA2ri]
    dsimp only
    unfold updateMergeLinks
    dsimp only
    rw [nodeAt_append_self]
    dsimp only
    rw [nodeAt_append_lt (by simp only [List.length_set, List.length_append, List.length_cons, List.length_nil, Nat.zero_add]; omega),
      nodeAt_set_ne (by rw [hA2len]; omega : ((st.arena.set li { nodeAt st.arena li with deleted := true }).set ri { nodeAt st.arena ri with deleted := true }).length ≠ ppi),
      nodeAt_set_ne (by rw [hA2len]; omega : ((st.arena.set li { nodeAt st.arena li with deleted := true }).set ri { nodeAt st.arena ri with deleted := true }).length ≠ li),
      nodeAt_append_eq (by simp only [List.length_set])]
    dsimp only
    rw [hA2len]
    simp only [List.length_set, List.length_append, List.length_cons, List.length_nil, Nat.zero_add]
    refine ⟨_, _, rfl, ?_, ?_, ?_, ?_, ?_, ?_, ?_, ?_, ?_⟩
    · intro hcon
      cases hcon
    · intro _ _
      rfl
    · simp only [List.length_set, List.length_append, List.length_cons, List.length_nil, Nat.zero_add]
    · intro j hj hjli hjri hjpi
      constructor
      · intro hsome
        have hjppi : j = ppi := by
          rw [Option.some.injEq] at hsome
          exact hsome.symm
        subst hjppi
        rw [nodeAt_set_ne (by omega : j ≠ st.arena.length),
          nodeAt_append_lt (by simp only [List.length_set, List.length_append, List.length_cons, List.length_nil, Nat.zero_add]; omega),
          nodeAt_set_self (by simp only [List.length_set, List.length_append, List.length_cons, List.length_nil, Nat.zero_add]; omega)]
      · intro hnsome
        have hjppi : j ≠ ppi := by
          intro hc
          exact hnsome (by rw [hc])
        rw [nodeAt_set_ne (by omega : j ≠ st.arena.length),
          nodeAt_append_lt (by simp only [List.length_set, List.length_append, List.length_cons, List.length_nil, Nat.zero_add]; omega),
          nodeAt_set_ne hjppi,
          nodeAt_set_ne hjli,
          nodeAt_append_lt (by simp only [List.length_set, List.length_append, List.length_cons, List.length_nil, Nat.zero_add]; omega),
          nodeAt_set_ne hjpi, hA2o j hjli hjri]
    · rw [nodeAt_set_ne (by omega : li ≠ st.arena.length),
        nodeAt_append_lt (by simp only [List.length_set, List.length_append, List.length_cons, List.length_nil, Nat.zero_add]; omega),
        nodeAt_set_ne (by omega : li ≠ ppi),
        nodeAt_set_self (by simp only [List.length_set, List.length_append, List.length_cons, List.length_nil, Nat.zero_add]; omega)]
    · rw [nodeAt_set_ne (by omega : ri ≠ st.arena.length),
        nodeAt_append_lt (by simp only [List.length_set, List.length_append, List.length_cons, List.length_nil, Nat.zero_add]; omega),
        nodeAt_set_ne (by omega : ri ≠ ppi),
        nodeAt_set_ne (Ne.symm hliri),
        nodeAt_append_lt (by simp only [List.length_set, List.length_append, List.length_cons, List.length_nil, Nat.zero_add]; omega),
        nodeAt_set_ne (Ne.symm hpiri), hA2ri]
    · rw [nodeAt_set_ne (by omega : pi ≠ st.arena.length),
        nodeAt_append_lt (by simp only [List.length_set, List.length_append, List.length_cons, List.length_nil, Nat.zero_add]; omega),
        nodeAt_set_ne (by omega : pi ≠ ppi),
        nodeAt_set_ne hpili,
        nodeAt_append_lt (by simp only [List.length_set, List.length_append, List.length_cons, List.length_nil, Nat.zero_add]; omega),
        nodeAt_set_self (by rw [hA2len]; exact hpiL)]
    · rw [nodeAt_set_self (by simp only [List.length_set, List.length_append, List.length_cons, List.length_nil, Nat.zero_add]; omega)]
    · rw [nodeAt_set_ne (by omega : st.arena.length + 1 ≠ st.arena.length),
        nodeAt_append_eq (by simp only [List.length_set, List.length_append, List.length_cons, List.length_nil, Nat.zero_add])]

end MergePrevSpec

section MergePrevHead

/-- `performMerge` preserves the invariant when the popped left node's
previous neighbour is the first node. -/
lemma performMerge_inv_prevHead {t : Tok} {goal : Str} {st : BPEState}
    {pi li ri plen : Nat} {B : List Nat}
    (hclosed : ∀ s, (t.merges s).isSome = true →
      (tokenLookup t.tokens (removeSpaces s)).isSome = true)
    (hnd : (pi :: li :: ri :: B).Nodup)
    (hchain : List.Chain' (chainAdj st.arena) (pi :: li :: ri :: B))
    (hbnd : ∀ i ∈ pi :: li :: ri :: B, i < st.arena.length)
    (hPrevPi : (nodeAt st.arena pi).prev = none)
    (hlastnext : ∀ lt, (pi :: li :: ri :: B).getLast? = some lt →
      (nodeAt st.arena lt).next = none)
    (halive : ∀ i ∈ pi :: li :: ri :: B, (nodeAt st.arena i).deleted = false)
    (hexact : ∀ i, i < st.arena.length → (nodeAt st.arena i).deleted = false →
      i ∈ pi :: li :: ri :: B)
    (hconcat : ((pi :: li :: ri :: B).map (fun i => nodeStr t st.arena i)).flatten
      = goal)
    (hstrs : ∀ i ∈ pi :: li :: ri :: B, noSpace (nodeStr t st.arena i) ∧
      (nodeAt st.arena i).tokenID < t.tokens.length)
    (hheap : ∀ y ∈ st.heap, heapEntryOK t st.arena y)
    (hok : heapEntryOK t st.arena li)
    (hnxLi : (nodeAt st.arena li).next = some ri) :
    BPEInv t goal (performMerge t st li plen) := by
  have hPrevLi : (nodeAt st.arena li).prev = some pi :=
    (List.chain'_cons.mp hchain).1.2
  have hLiAlive : (nodeAt st.arena li).deleted = false := halive li (by simp)
  have hRiAlive : (nodeAt st.arena ri).deleted = false := halive ri (by simp)
  have hliL : li < st.arena.length := hbnd li (by simp)
  have hriL : ri < st.arena.length := hbnd ri (by simp)
  have hpiL : pi < st.arena.length := hbnd pi (by simp)
  have hnd2 := hnd
  rw [List.nodup_cons] at hnd2
  obtain ⟨hpiNot, hndT⟩ := hnd2
  rw [List.nodup_cons] at hndT
  obtain ⟨hliR, hndR⟩ := hndT
  rw [List.nodup_cons] at hndR
  obtain ⟨hriB, hndB⟩ := hndR
  have hpili : pi ≠ li := fun hc => hpiNot (by simp [hc])
  have hpiri : pi ≠ ri := fun hc => hpiNot (by simp [hc])
  have hpiB : pi ∉ B := fun hc => hpiNot (by simp [hc])
  have hliri : li ≠ ri := fun hc => hliR (by simp [hc])
  have hliB : li ∉ B := fun hc => hliR (by simp [hc])
  obtain ⟨hmtsEq, hmtsSome⟩ := hok.2 hLiAlive ri hnxLi hRiAlive
  obtain ⟨mid, hlook⟩ := Option.isSome_iff_exists.mp hmtsSome
  have hsound := tokenLookup_sound hlook
  have hppiH : ∀ ppi, (nodeAt st.arena pi).prev = some ppi →
      ppi < st.arena.length ∧ ppi ≠ li ∧ ppi ≠ ri ∧ ppi ≠ pi := by
    intro ppi hcon
    rw [hPrevPi] at hcon
    exact Option.noConfusion hcon
  obtain ⟨a8, f1, heq, hf1n, _, hlen8, hother8, hdelLi, hdelRi, hdelPi, hnp8, hrm8⟩ :=
    performMerge_spec_prev hliL hriL hpiL hliri hpili hpiri hnxLi hPrevLi hlook hppiH
  have hf1 : f1 = st.arena.length := hf1n hPrevPi
  subst hf1
  rw [heq]
  have h8o : ∀ j, j < st.arena.length → j ≠ li → j ≠ ri → j ≠ pi →
      nodeAt a8 j = nodeAt st.arena j := by
    intro j h1 h2 h3 h4
    refine (hother8 j h1 h2 h3 h4).2 ?_
    rw [hPrevPi]
    intro hc
    exact Option.noConfusion hc
  have hstrNp : nodeStr t a8 st.arena.length = nodeStr t st.arena pi := by
    unfold nodeStr
    rw [hnp8]
  have hstrRm : nodeStr t a8 (st.arena.length + 1) =
      nodeStr t st.arena li ++ nodeStr t st.arena ri := by
    unfold nodeStr
    rw [hrm8]
    show t.tokens.getD mid [] = _
    rw [hsound.2, hmtsEq]
    rfl
  have hnsPreQ : ∀ j, (nodeAt a8 j).deleted = false →
      noSpace (nodeStr t a8 j) := by
    intro j hal
    have hjlt : j < a8.length := alive_lt hal
    rw [hlen8] at hjlt
    by_cases hjL : j < st.arena.length
    · by_cases hjli : j = li
      · subst hjli
        rw [hdelLi] at hal
        cases hal
      · by_cases hjri : j = ri
        · subst hjri
          rw [hdelRi] at hal
          cases hal
        · by_cases hjpi : j = pi
          · subst hjpi
            rw [hdelPi] at hal
            cases hal
          · rw [h8o j hjL hjli hjri hjpi] at hal
            rw [show nodeStr t a8 j = nodeStr t st.arena j from by
              unfold nodeStr
              rw [h8o j hjL hjli hjri hjpi]]
            exact (hstrs j (hexact j hjL hal)).1
    · by_cases hjnp : j = st.arena.length
      · subst hjnp
        rw [hstrNp]
        exact (hstrs pi (by simp)).1
      · have hjrm : j = st.arena.length + 1 := by omega
        subst hjrm
        rw [hstrRm]
        exact noSpace_append (hstrs li (by simp)).1 (hstrs ri (by simp)).1
  have hheapPreQ : ∀ y ∈ st.heap, heapEntryOK t a8 y := by
    intro y hy
    have hOldE := hheap y hy
    refine heapEntryOK_after (by rw [hlen8]; omega) hOldE ?_
    by_cases hyli : y = li
    · subst hyli
      exact Or.inl hdelLi
    · by_cases hyri : y = ri
      · subst hyri
        exact Or.inl hdelRi
      · by_cases hypi : y = pi
        · subst hypi
          exact Or.inl hdelPi
        · have hfy := h8o y hOldE.1 hyli hyri hypi
          refine Or.inr ⟨by rw [hfy], by rw [hfy], by rw [hfy], by rw [hfy], ?_⟩
          intro j hyal hj
          have hymem := hexact y hOldE.1 hyal
          obtain ⟨C2, D2, hdec⟩ := chain_decomp hchain hlastnext hymem hj
          have hjmem : j ∈ pi :: li :: ri :: B := by
            rw [hdec]
            simp
          have hjlt : j < st.arena.length := hbnd j hjmem
          by_cases hjli : j = li
          · subst hjli
            exact Or.inl hdelLi
          · by_cases hjri : j = ri
            · subst hjri
              exact Or.inl hdelRi
            · by_cases hjpi : j = pi
              · subst hjpi
                exact Or.inl hdelPi
              · have hfj := h8o j hjlt hjli hjri hjpi
                exact Or.inr ⟨by rw [hfj], by rw [hfj]⟩
  obtain ⟨hQfirst, hQlen, hQf, hQsub, hQok⟩ :=
    addToMergeQueue_entries { arena := a8, heap := st.heap, first := st.arena.length }
      st.arena.length plen hclosed hheapPreQ hnsPreQ
  have hQstr : ∀ j, nodeStr t (addToMergeQueue t
      { arena := a8, heap := st.heap, first := st.arena.length }
      st.arena.length plen).arena j = nodeStr t a8 j :=
    fun j => nodeStr_congr (hQf j).2.2.1
  refine relinkNext_inv _ _ [st.arena.length] B hclosed ?_ ?_ ?_ ?_ ?_ ?_ ?_ ?_ ?_
    ?_ ?_ ?_ ?_ ?_
  · simp only [List.cons_append, List.nil_append, List.head?_cons]
    rw [hQfirst]
  · simp only [List.cons_append, List.nil_append, List.nodup_cons]
    refine ⟨?_, ?_, hndB⟩
    · intro hc
      rcases List.mem_cons.mp hc with hc1 | hc2
      · omega
      · have := hbnd st.arena.length (by simp [hc2])
        omega
    · intro hc
      have := hbnd (st.arena.length + 1) (by simp [hc])
      omega
  · simp only [List.cons_append, List.nil_append]
    refine List.chain'_cons.mpr ⟨?_, List.chain'_singleton _⟩
    constructor
    · rw [(hQf st.arena.length).2.1, hnp8]
    · rw [(hQf (st.arena.length + 1)).1, hrm8]
  · have hchainB : List.Chain' (chainAdj st.arena) B := (hchain.tail.tail).tail
    refine chain'_mem_imp hchainB (fun x hx y hy hadj => ?_)
    have hxB : x < st.arena.length := hbnd x (by simp [hx])
    have hyB : y < st.arena.length := hbnd y (by simp [hy])
    unfold chainAdj at hadj ⊢
    rw [(hQf x).2.1, (hQf y).1,
      h8o x hxB (fun hc => hliB (hc ▸ hx)) (fun hc => hriB (hc ▸ hx))
        (fun hc => hpiB (hc ▸ hx)),
      h8o y hyB (fun hc => hliB (hc ▸ hy)) (fun hc => hriB (hc ▸ hy))
        (fun hc => hpiB (hc ▸ hy))]
    exact hadj
  · intro nx hnxB
    rw [(hQf (st.arena.length + 1)).2.1, hrm8]
    show (nodeAt st.arena ri).next = some nx
    cases hB : B with
    | nil =>
      subst hB
      cases hnxB
    | cons b B2 =>
      subst hB
      rw [List.head?_cons, Option.some.injEq] at hnxB
      subst hnxB
      exact ((List.chain'_cons.mp (hchain.tail.tail)).1).1
  · intro hB
    rw [(hQf (st.arena.length + 1)).2.1, hrm8]
    show (nodeAt st.arena ri).next = none
    refine hlastnext ri ?_
    rw [hB]
    rfl
  · intro i hi
    rw [hQlen]
    show i < a8.length
    rw [hlen8]
    simp only [List.cons_append, List.nil_append] at hi
    rcases List.mem_cons.mp hi with rfl | hi2
    · omega
    · rcases List.mem_cons.mp hi2 with rfl | hi3
      · omega
      · have := hbnd i (by simp [hi3])
        omega
  · intro hd hhd
    simp only [List.cons_append, List.nil_append, List.head?_cons,
      Option.some.injEq] at hhd
    subst hhd
    rw [(hQf st.arena.length).1, hnp8]
    show (nodeAt st.arena pi).prev = none
    exact hPrevPi
  · intro lt hlt
    cases hB : B with
    | nil =>
      subst hB
      simp only [List.getLast?_singleton, Option.some.injEq] at hlt
      subst hlt
      rw [(hQf (st.arena.length + 1)).2.1, hrm8]
      show (nodeAt st.arena ri).next = none
      exact hlastnext ri rfl
    | cons b B2 =>
      subst hB
      rw [List.getLast?_cons_cons] at hlt
      have hltB : lt ∈ b :: B2 := List.mem_of_getLast?_eq_some hlt
      have hltL : lt < st.arena.length := hbnd lt (by simp [hltB])
      rw [(hQf lt).2.1,
        h8o lt hltL (fun hc => hliB (hc ▸ hltB)) (fun hc => hriB (hc ▸ hltB))
          (fun hc => hpiB (hc ▸ hltB))]
      refine hlastnext lt ?_
      rw [List.getLast?_cons_cons, List.getLast?_cons_cons,
        List.getLast?_cons_cons]
      exact hlt
  · intro i hi
    simp only [List.cons_append, List.nil_append] at hi
    rcases List.mem_cons.mp hi with rfl | hi2
    · rw [(hQf st.arena.length).2.2.2, hnp8]
    · rcases List.mem_cons.mp hi2 with rfl | hi3
      · rw [(hQf (st.arena.length + 1)).2.2.2, hrm8]
      · have hiL : i < st.arena.length := hbnd i (by simp [hi3])
        rw [(hQf i).2.2.2,
          h8o i hiL (fun hc => hliB (hc ▸ hi3)) (fun hc => hriB (hc ▸ hi3))
            (fun hc => hpiB (hc ▸ hi3))]
        exact halive i (by simp [hi3])
  · intro i hi hal
    rw [hQlen] at hi
    rw [(hQf i).2.2.2] at hal
    have hi8 : i < a8.length := hi
    rw [hlen8] at hi8
    simp only [List.cons_append, List.nil_append]
    by_cases hiL : i < st.arena.length
    · by_cases hili : i = li
      · subst hili
        rw [hdelLi] at hal
        cases hal
      · by_cases hiri : i = ri
        · subst hiri
          rw [hdelRi] at hal
          cases hal
        · by_cases hipi : i = pi
          · subst hipi
            rw [hdelPi] at hal
            cases hal
          · rw [h8o i hiL hili hiri hipi] at hal
            have := hexact i hiL hal
            rcases List.mem_cons.mp this with rfl | h2
            · exact absurd rfl hipi
            · rcases List.mem_cons.mp h2 with rfl | h3
              · exact absurd rfl hili
              · rcases List.mem_cons.mp h3 with rfl | h4
                · exact absurd rfl hiri
                · simp [h4]
    · by_cases hinp : i = st.arena.length
      · simp [hinp]
      · have : i = st.arena.length + 1 := by omega
        simp [this]
  · simp only [List.cons_append, List.nil_append, List.map_cons,
      List.flatten_cons]
    rw [hQstr st.arena.length, hQstr (st.arena.length + 1), hstrNp, hstrRm]
    have hmapB : B.map (fun i => nodeStr t (addToMergeQueue t
        { arena := a8, heap := st.heap, first := st.arena.length }
        st.arena.length plen).arena i) = B.map (fun i => nodeStr t st.arena i) :=
      List.map_congr_left (fun x hx => by
        rw [hQstr x]
        unfold nodeStr
        rw [h8o x (hbnd x (by simp [hx])) (fun hc => hliB (hc ▸ hx))
          (fun hc => hriB (hc ▸ hx)) (fun hc => hpiB (hc ▸ hx))])
    rw [hmapB, List.append_assoc]
    have hc2 := hconcat
    simp only [List.map_cons, List.flatten_cons] at hc2
    exact hc2
  · intro i hi
    simp only [List.cons_append, List.nil_append] at hi
    rcases List.mem_cons.mp hi with rfl | hi2
    · constructor
      · rw [hQstr st.arena.length, hstrNp]
        exact (hstrs pi (by simp)).1
      · rw [(hQf st.arena.length).2.2.1, hnp8]
        show (nodeAt st.arena pi).tokenID < t.tokens.length
        exact (hstrs pi (by simp)).2
    · rcases List.mem_cons.mp hi2 with rfl | hi3
      · constructor
        · rw [hQstr (st.arena.length + 1), hstrRm]
          exact noSpace_append (hstrs li (by simp)).1 (hstrs ri (by simp)).1
        · rw [(hQf (st.arena.length + 1)).2.2.1, hrm8]
          exact hsound.1
      · have hiL : i < st.arena.length := hbnd i (by simp [hi3])
        have hio := h8o i hiL (fun hc => hliB (hc ▸ hi3))
          (fun hc => hriB (hc ▸ hi3)) (fun hc => hpiB (hc ▸ hi3))
        constructor
        · rw [hQstr i]
          rw [show nodeStr t a8 i = nodeStr t st.arena i from by
            unfold nodeStr
            rw [hio]]
          exact (hstrs i (by simp [hi3])).1
        · rw [(hQf i).2.2.1, hio]
          exact (hstrs i (by simp [hi3])).2
  · exact hQok

end MergePrevHead

section MergePrevInner

/-- `performMerge` preserves the invariant when the popped left node's
previous neighbour itself has a predecessor. -/
lemma performMerge_inv_prevInner {t : Tok} {goal : Str} {st : BPEState}
    {ppi pi li ri plen : Nat} {A00 B : List Nat}
    (hclosed : ∀ s, (t.merges s).isSome = true →
      (tokenLookup t.tokens (removeSpaces s)).isSome = true)
    (hhead : (A00 ++ ppi :: pi :: li :: ri :: B).head? = some st.first)
    (hnd : (A00 ++ ppi :: pi :: li :: ri :: B).Nodup)
    (hchain : List.Chain' (chainAdj st.arena) (A00 ++ ppi :: pi :: li :: ri :: B))
    (hbnd : ∀ i ∈ A00 ++ ppi :: pi :: li :: ri :: B, i < st.arena.length)
    (hheadprev : ∀ hd, (A00 ++ ppi :: pi :: li :: ri :: B).head? = some hd →
      (nodeAt st.arena hd).prev = none)
    (hlastnext : ∀ lt, (A00 ++ ppi :: pi :: li :: ri :: B).getLast? = some lt →
      (nodeAt st.arena lt).next = none)
    (halive : ∀ i ∈ A00 ++ ppi :: pi :: li :: ri :: B,
      (nodeAt st.arena i).deleted = false)
    (hexact : ∀ i, i < st.arena.length → (nodeAt st.arena i).deleted = false →
      i ∈ A00 ++ ppi :: pi :: li :: ri :: B)
    (hconcat : ((A00 ++ ppi :: pi :: li :: ri :: B).map
      (fun i => nodeStr t st.arena i)).flatten = goal)
    (hstrs : ∀ i ∈ A00 ++ ppi :: pi :: li :: ri :: B,
      noSpace (nodeStr t st.arena i) ∧
      (nodeAt st.arena i).tokenID < t.tokens.length)
    (hheap : ∀ y ∈ st.heap, heapEntryOK t st.arena y)
    (hok : heapEntryOK t st.arena li)
    (hnxLi : (nodeAt st.arena li).next = some ri) :
    BPEInv t goal (performMerge t st li plen) := by
  have hsplit := List.chain'_append.mp hchain
  obtain ⟨hchainA00, hchainR, hboundA⟩ := hsplit
  have hadjPpiPi : chainAdj st.arena ppi pi := (List.chain'_cons.mp hchainR).1
  have hchainR2 : List.Chain' (chainAdj st.arena) (pi :: li :: ri :: B) :=
    (List.chain'_cons.mp hchainR).2
  have hPrevPi : (nodeAt st.arena pi).prev = some ppi := hadjPpiPi.2
  have hNextPpi : (nodeAt st.arena ppi).next = some pi := hadjPpiPi.1
  have hPrevLi : (nodeAt st.arena li).prev = some pi :=
    (List.chain'_cons.mp hchainR2).1.2
  have hLiAlive : (nodeAt st.arena li).deleted = false := halive li (by simp)
  have hRiAlive : (nodeAt st.arena ri).deleted = false := halive ri (by simp)
  have hPpiAlive : (nodeAt st.arena ppi).deleted = false := halive ppi (by simp)
  have hPiAlive : (nodeAt st.arena pi).deleted = false := halive pi (by simp)
  have hliL : li < st.arena.length := hbnd li (by simp)
  have hriL : ri < st.arena.length := hbnd ri (by simp)
  have hpiL : pi < st.arena.length := hbnd pi (by simp)
  have hppiL : ppi < st.arena.length := hbnd ppi (by simp)
  have hnd2 := hnd
  rw [List.nodup_append] at hnd2
  obtain ⟨hndA00, hndR, hdisj⟩ := hnd2
  rw [List.nodup_cons] at hndR
  obtain ⟨hppiNot, hndR2⟩ := hndR
  rw [List.nodup_cons] at hndR2
  obtain ⟨hpiNot, hndT⟩ := hndR2
  rw [List.nodup_cons] at hndT
  obtain ⟨hliR, hndR3⟩ := hndT
  rw [List.nodup_cons] at hndR3
  obtain ⟨hriB, hndB⟩ := hndR3
  have hppipi : ppi ≠ pi := fun hc => hppiNot (by simp [hc])
  have hppili : ppi ≠ li := fun hc => hppiNot (by simp [hc])
  have hppiri : ppi ≠ ri := fun hc => hppiNot (by simp [hc])
  have hppiB : ppi ∉ B := fun hc => hppiNot (by simp [hc])
  have hpili : pi ≠ li := fun hc => hpiNot (by simp [hc])
  have hpiri : pi ≠ ri := fun hc => hpiNot (by simp [hc])
  have hpiB : pi ∉ B := fun hc => hpiNot (by simp [hc])
  have hliri : li ≠ ri := fun hc => hliR (by simp [hc])
  have hliB : li ∉ B := fun hc => hliR (by simp [hc])
  have hA00not : ∀ x ∈ A00, x ≠ ppi ∧ x ≠ pi ∧ x ≠ li ∧ x ≠ ri ∧ x ∉ B := by
    intro x hx
    refine ⟨fun hc => hdisj hx (by simp [hc]), fun hc => hdisj hx (by simp [hc]),
      fun hc => hdisj hx (by simp [hc]), fun hc => hdisj hx (by simp [hc]),
      fun hc => hdisj hx (by simp [hc])⟩
  obtain ⟨hmtsEq, hmtsSome⟩ := hok.2 hLiAlive ri hnxLi hRiAlive
  obtain ⟨mid, hlook⟩ := Option.isSome_iff_exists.mp hmtsSome
  have hsound := tokenLookup_sound hlook
  have hppiH : ∀ q, (nodeAt st.arena pi).prev = some q →
      q < st.arena.length ∧ q ≠ li ∧ q ≠ ri ∧ q ≠ pi := by
    intro q hq
    rw [hPrevPi, Option.some.injEq] at hq
    subst hq
    exact ⟨hppiL, hppili, hppiri, hppipi⟩
  obtain ⟨a8, f1, heq, _, hf1s, hlen8, hother8, hdelLi, hdelRi, hdelPi, hnp8, hrm8⟩ :=
    performMerge_spec_prev hliL hriL hpiL hliri hpili hpiri hnxLi hPrevLi hlook hppiH
  have hf1 : f1 = st.first := hf1s ppi hPrevPi
  subst hf1
  rw [heq]
  have h8ppi : nodeAt a8 ppi =
      { nodeAt st.arena ppi with next := some st.arena.length } :=
    (hother8 ppi hppiL hppili hppiri hppipi).1 hPrevPi
  have h8o : ∀ j, j < st.arena.length → j ≠ li → j ≠ ri → j ≠ pi → j ≠ ppi →
      nodeAt a8 j = nodeAt st.arena j := by
    intro j h1 h2 h3 h4 h5
    refine (hother8 j h1 h2 h3 h4).2 ?_
    rw [hPrevPi]
    intro hc
    exact h5 ((Option.some.inj hc).symm)
  have hstrNp : nodeStr t a8 st.arena.length = nodeStr t st.arena pi := by
    unfold nodeStr
    rw [hnp8]
  have hstrRm : nodeStr t a8 (st.arena.length + 1) =
      nodeStr t st.arena li ++ nodeStr t st.arena ri := by
    unfold nodeStr
    rw [hrm8]
    show t.tokens.getD mid [] = _
    rw [hsound.2, hmtsEq]
    rfl
  have hstrPpi : nodeStr t a8 ppi = nodeStr t st.arena ppi := by
    unfold nodeStr
    rw [h8ppi]
  have hnsPreQ : ∀ j, (nodeAt a8 j).deleted = false →
      noSpace (nodeStr t a8 j) := by
    intro j hal
    have hjlt : j < a8.length := alive_lt hal
    rw [hlen8] at hjlt
    by_cases hjL : j < st.arena.length
    · by_cases hjli : j = li
      · subst hjli
        rw [hdelLi] at hal
        cases hal
      · by_cases hjri : j = ri
        · subst hjri
          rw [hdelRi] at hal
          cases hal
        · by_cases hjpi : j = pi
          · subst hjpi
            rw [hdelPi] at hal
            cases hal
          · by_cases hjppi : j = ppi
            · subst hjppi
              rw [hstrPpi]
              exact (hstrs j (by simp)).1
            · rw [h8o j hjL hjli hjri hjpi hjppi] at hal
              rw [show nodeStr t a8 j = nodeStr t st.arena j from by
                unfold nodeStr
                rw [h8o j hjL hjli hjri hjpi hjppi]]
              exact (hstrs j (hexact j hjL hal)).1
    · by_cases hjnp : j = st.arena.length
      · subst hjnp
        rw [hstrNp]
        exact (hstrs pi (by simp)).1
      · have hjrm : j = st.arena.length + 1 := by omega
        subst hjrm
        rw [hstrRm]
        exact noSpace_append (hstrs li (by simp)).1 (hstrs ri (by simp)).1
  have hheapPreQ : ∀ y ∈ st.heap, heapEntryOK t a8 y := by
    intro y hy
    have hOldE := hheap y hy
    by_cases hyppi : y = ppi
    · subst hyppi
      refine ⟨lt_of_lt_of_le hOldE.1 (by rw [hlen8]; omega), ?_⟩
      intro hal j hj hjal
      have hjnp : j = st.arena.length := by
        rw [h8ppi] at hj
        exact (Option.some.inj hj).symm
      subst hjnp
      have hold := hOldE.2 hPpiAlive pi hNextPpi hPiAlive
      constructor
      · rw [show (nodeAt a8 y).mergeToString = (nodeAt st.arena y).mergeToString
          from by rw [h8ppi], hstrPpi, hstrNp]
        exact hold.1
      · rw [show (nodeAt a8 y).mergeToString = (nodeAt st.arena y).mergeToString
          from by rw [h8ppi]]
        exact hold.2
    · refine heapEntryOK_after (by rw [hlen8]; omega) hOldE ?_
      by_cases hyli : y = li
      · subst hyli
        exact Or.inl hdelLi
      · by_cases hyri : y = ri
        · subst hyri
          exact Or.inl hdelRi
        · by_cases hypi : y = pi
          · subst hypi
            exact Or.inl hdelPi
          · have hfy := h8o y hOldE.1 hyli hyri hypi hyppi
            refine Or.inr ⟨by rw [hfy], by rw [hfy], by rw [hfy], by rw [hfy], ?_⟩
            intro j hyal hj
            have hymem := hexact y hOldE.1 hyal
            obtain ⟨C2, D2, hdec⟩ := chain_decomp hchain hlastnext hymem hj
            have hjmem : j ∈ A00 ++ ppi :: pi :: li :: ri :: B := by
              rw [hdec]
              simp
            have hjlt : j < st.arena.length := hbnd j hjmem
            by_cases hjli : j = li
            · subst hjli
              exact Or.inl hdelLi
            · by_cases hjri : j = ri
              · subst hjri
                exact Or.inl hdelRi
              · by_cases hjpi : j = pi
                · subst hjpi
                  exact Or.inl hdelPi
                · by_cases hjppi : j = ppi
                  · subst hjppi
                    exact Or.inr ⟨by rw [h8ppi], by rw [h8ppi]⟩
                  · have hfj := h8o j hjlt hjli hjri hjpi hjppi
                    exact Or.inr ⟨by rw [hfj], by rw [hfj]⟩
  obtain ⟨hQfirst, hQlen, hQf, hQsub, hQok⟩ :=
    addToMergeQueue_entries { arena := a8, heap := st.heap, first := st.first }
      st.arena.length plen hclosed hheapPreQ hnsPreQ
  have hQstr : ∀ j, nodeStr t (addToMergeQueue t
      { arena := a8, heap := st.heap, first := st.first }
      st.arena.length plen).arena j = nodeStr t a8 j :=
    fun j => nodeStr_congr (hQf j).2.2.1
  have h8B : ∀ x ∈ B, nodeAt a8 x = nodeAt st.arena x := by
    intro x hx
    exact h8o x (hbnd x (by simp [hx])) (fun hc => hliB (hc ▸ hx))
      (fun hc => hriB (hc ▸ hx)) (fun hc => hpiB (hc ▸ hx))
      (fun hc => hppiB (hc ▸ hx))
  have h8A00 : ∀ x ∈ A00, nodeAt a8 x = nodeAt st.arena x := by
    intro x hx
    obtain ⟨h1, h2, h3, h4, _⟩ := hA00not x hx
    exact h8o x (hbnd x (by simp [hx])) h3 h4 h2 h1
  refine relinkNext_inv _ _ (A00 ++ [ppi, st.arena.length]) B hclosed
    ?_ ?_ ?_ ?_ ?_ ?_ ?_ ?_ ?_ ?_ ?_ ?_ ?_ ?_
  · simp only [List.append_assoc, List.cons_append, List.nil_append]
    rw [hQfirst]
    show _ = some st.first
    rw [← hhead]
    exact head?_append_cons_congr A00 ppi _ _
  · simp only [List.append_assoc, List.cons_append, List.nil_append]
    rw [List.nodup_append]
    refine ⟨hndA00, ?_, ?_⟩
    · rw [List.nodup_cons]
      constructor
      · intro hc
        rcases List.mem_cons.mp hc with hc1 | hc2
        · omega
        · rcases List.mem_cons.mp hc2 with hc3 | hc4
          · omega
          · exact hppiB hc4
      · rw [List.nodup_cons]
        constructor
        · intro hc
          rcases List.mem_cons.mp hc with hc1 | hc2
          · omega
          · have := hbnd st.arena.length (by simp [hc2])
            omega
        · rw [List.nodup_cons]
          constructor
          · intro hc
            have := hbnd (st.arena.length + 1) (by simp [hc])
            omega
          · exact hndB
    · intro x hx hc
      obtain ⟨h1, _, _, _, h5⟩ := hA00not x hx
      have hxL := hbnd x (by simp [hx])
      rcases List.mem_cons.mp hc with hc1 | hc2
      · exact h1 hc1
      · rcases List.mem_cons.mp hc2 with hc3 | hc4
        · omega
        · rcases List.mem_cons.mp hc4 with hc5 | hc6
          · omega
          · exact h5 hc6
  · simp only [List.append_assoc, List.cons_append, List.nil_append]
    refine List.chain'_append.mpr ⟨?_, ?_, ?_⟩
    · refine chain'_mem_imp hchainA00 (fun x hx y hy hadj => ?_)
      unfold chainAdj at hadj ⊢
      rw [(hQf x).2.1, (hQf y).1, h8A00 x hx, h8A00 y hy]
      exact hadj
    · refine List.chain'_cons.mpr ⟨?_, List.chain'_cons.mpr
        ⟨?_, List.chain'_singleton _⟩⟩
      · constructor
        · rw [(hQf ppi).2.1, h8ppi]
        · rw [(hQf st.arena.length).1, hnp8]
          show (nodeAt st.arena pi).prev = some ppi
          exact hPrevPi
      · constructor
        · rw [(hQf st.arena.length).2.1, hnp8]
        · rw [(hQf (st.arena.length + 1)).1, hrm8]
    · intro x hx y hy
      rw [List.head?_cons] at hy
      have hy2 : ppi = y := Option.some.inj hy
      subst hy2
      have hxmem : x ∈ A00 := by
        cases hA : A00 with
        | nil =>
          subst hA
          simp at hx
        | cons a A2 =>
          subst hA
          exact List.mem_of_getLast?_eq_some hx
      have hadj : chainAdj st.arena x ppi := by
        refine hboundA x ?_ ppi (by simp)
        exact hx
      constructor
      · rw [(hQf x).2.1, h8A00 x hxmem]
        exact hadj.1
      · rw [(hQf ppi).1, h8ppi]
        show (nodeAt st.arena ppi).prev = some x
        exact hadj.2
  · have hchainB : List.Chain' (chainAdj st.arena) B :=
      ((hchainR2.tail).tail).tail
    refine chain'_mem_imp hchainB (fun x hx y hy hadj => ?_)
    unfold chainAdj at hadj ⊢
    rw [(hQf x).2.1, (hQf y).1, h8B x hx, h8B y hy]
    exact hadj
  · intro nx hnxB
    rw [(hQf (st.arena.length + 1)).2.1, hrm8]
    show (nodeAt st.arena ri).next = some nx
    cases hB : B with
    | nil =>
      subst hB
      cases hnxB
    | cons b B2 =>
      subst hB
      rw [List.head?_cons, Option.some.injEq] at hnxB
      subst hnxB
      exact ((List.chain'_cons.mp (hchainR2.tail.tail)).1).1
  · intro hB
    rw [(hQf (st.arena.length + 1)).2.1, hrm8]
    show (nodeAt st.arena ri).next = none
    refine hlastnext ri ?_
    rw [hB, getLast?_append_ne (by simp)]
    rfl
  · intro i hi
    rw [hQlen]
    show i < a8.length
    rw [hlen8]
    simp only [List.append_assoc, List.cons_append, List.nil_append] at hi
    rcases List.mem_append.mp hi with hiA | hiT
    · have := hbnd i (by simp [hiA])
      omega
    · rcases List.mem_cons.mp hiT with rfl | hi2
      · omega
      · rcases List.mem_cons.mp hi2 with rfl | hi3
        · omega
        · rcases List.mem_cons.mp hi3 with rfl | hi4
          · omega
          · have := hbnd i (by simp [hi4])
            omega
  · intro hd hhd
    simp only [List.append_assoc, List.cons_append, List.nil_append] at hhd
    have hhd0 : (A00 ++ ppi :: pi :: li :: ri :: B).head? = some hd := by
      rw [head?_append_cons_congr A00 ppi _ (pi :: li :: ri :: B)] at hhd
      exact hhd
    have hdmem : hd ∈ A00 ++ ppi :: pi :: li :: ri :: B :=
      List.mem_of_mem_head? hhd0
    have hdA : hd ∈ A00 ∨ hd = ppi := by
      cases hA : A00 with
      | nil =>
        subst hA
        rw [List.nil_append, List.head?_cons, Option.some.injEq] at hhd0
        exact Or.inr hhd0.symm
      | cons a A2 =>
        subst hA
        rw [List.cons_append, List.head?_cons, Option.some.injEq] at hhd0
        exact Or.inl (by rw [← hhd0]; simp)
    rcases hdA with hdA00 | rfl
    · rw [(hQf hd).1, h8A00 hd hdA00]
      exact hheadprev hd hhd0
    · rw [(hQf hd).1, h8ppi]
      show (nodeAt st.arena hd).prev = none
      exact hheadprev hd hhd0
  · intro lt hlt
    cases hB : B with
    | nil =>
      subst hB
      simp only [List.getLast?_singleton, Option.some.injEq] at hlt
      subst hlt
      rw [(hQf (st.arena.length + 1)).2.1, hrm8]
      show (nodeAt st.arena ri).next = none
      refine hlastnext ri ?_
      rw [getLast?_append_ne (by simp)]
      rfl
    | cons b B2 =>
      subst hB
      rw [List.getLast?_cons_cons] at hlt
      have hltB : lt ∈ b :: B2 := List.mem_of_getLast?_eq_some hlt
      have hltL : lt < st.arena.length := hbnd lt (by simp [hltB])
      rw [(hQf lt).2.1, h8B lt hltB]
      refine hlastnext lt ?_
      rw [getLast?_append_ne (by simp), List.getLast?_cons_cons,
        List.getLast?_cons_cons, List.getLast?_cons_cons,
        List.getLast?_cons_cons]
      exact hlt
  · intro i hi
    simp only [List.append_assoc, List.cons_append, List.nil_append] at hi
    rcases List.mem_append.mp hi with hiA | hiT
    · rw [(hQf i).2.2.2, h8A00 i hiA]
      exact halive i (by simp [hiA])
    · rcases List.mem_cons.mp hiT with rfl | hi2
      · rw [(hQf i).2.2.2, h8ppi]
        show (nodeAt st.arena i).deleted = false
        exact hPpiAlive
      · rcases List.mem_cons.mp hi2 with rfl | hi3
        · rw [(hQf st.arena.length).2.2.2, hnp8]
        · rcases List.mem_cons.mp hi3 with rfl | hi4
          · rw [(hQf (st.arena.length + 1)).2.2.2, hrm8]
          · rw [(hQf i).2.2.2, h8B i hi4]
            exact halive i (by simp [hi4])
  · intro i hi hal
    rw [hQlen] at hi
    rw [(hQf i).2.2.2] at hal
    have hi8 : i < a8.length := hi
    rw [hlen8] at hi8
    simp only [List.append_assoc, List.cons_append, List.nil_append]
    by_cases hiL : i < st.arena.length
    · by_cases hili : i = li
      · subst hili
        rw [hdelLi] at hal
        cases hal
      · by_cases hiri : i = ri
        · subst hiri
          rw [hdelRi] at hal
          cases hal
        · by_cases hipi : i = pi
          · subst hipi
            rw [hdelPi] at hal
            cases hal
          · by_cases hippi : i = ppi
            · subst hippi
              simp
            · rw [h8o i hiL hili hiri hipi hippi] at hal
              have := hexact i hiL hal
              rcases List.mem_append.mp this with hiA | hiT
              · simp [hiA]
              · rcases List.mem_cons.mp hiT with rfl | h2
                · exact absurd rfl hippi
                · rcases List.mem_cons.mp h2 with rfl | h3
                  · exact absurd rfl hipi
                  · rcases List.mem_cons.mp h3 with rfl | h4
                    · exact absurd rfl hili
                    · rcases List.mem_cons.mp h4 with rfl | h5
                      · exact absurd rfl hiri
                      · simp [h5]
    · by_cases hinp : i = st.arena.length
      · simp [hinp]
      · have : i = st.arena.length + 1 := by omega
        simp [this]
  · simp only [List.append_assoc, List.cons_append, List.nil_append,
      List.map_append, List.map_cons, List.flatten_append, List.flatten_cons]
    have hmapA : A00.map (fun i => nodeStr t (addToMergeQueue t
        { arena := a8, heap := st.heap, first := st.first }
        st.arena.length plen).arena i) = A00.map (fun i => nodeStr t st.arena i) :=
      List.map_congr_left (fun x hx => by
        rw [hQstr x]
        unfold nodeStr
        rw [h8A00 x hx])
    have hmapB : B.map (fun i => nodeStr t (addToMergeQueue t
        { arena := a8, heap := st.heap, first := st.first }
        st.arena.length plen).arena i) = B.map (fun i => nodeStr t st.arena i) :=
      List.map_congr_left (fun x hx => by
        rw [hQstr x]
        unfold nodeStr
        rw [h8B x hx])
    rw [hmapA, hmapB, hQstr ppi, hQstr st.arena.length,
      hQstr (st.arena.length + 1), hstrPpi, hstrNp, hstrRm]
    have hc2 := hconcat
    simp only [List.map_append, List.map_cons, List.flatten_append,
      List.flatten_cons] at hc2
    rw [← hc2]
    simp only [List.append_assoc]
  · intro i hi
    simp only [List.append_assoc, List.cons_append, List.nil_append] at hi
    rcases List.mem_append.mp hi with hiA | hiT
    · constructor
      · rw [hQstr i]
        rw [show nodeStr t a8 i = nodeStr t st.arena i from by
          unfold nodeStr
          rw [h8A00 i hiA]]
        exact (hstrs i (by simp [hiA])).1
      · rw [(hQf i).2.2.1, h8A00 i hiA]
        exact (hstrs i (by simp [hiA])).2
    · rcases List.mem_cons.mp hiT with rfl | hi2
      · constructor
        · rw [hQstr i, hstrPpi]
          exact (hstrs i (by simp)).1
        · rw [(hQf i).2.2.1, h8ppi]
          show (nodeAt st.arena i).tokenID < t.tokens.length
          exact (hstrs i (by simp)).2
      · rcases List.mem_cons.mp hi2 with rfl | hi3
        · constructor
          · rw [hQstr st.arena.length, hstrNp]
            exact (hstrs pi (by simp)).1
          · rw [(hQf st.arena.length).2.2.1, hnp8]
            show (nodeAt st.arena pi).tokenID < t.tokens.length
            exact (hstrs pi (by simp)).2
        · rcases List.mem_cons.mp hi3 with rfl | hi4
          · constructor
            · rw [hQstr (st.arena.length + 1), hstrRm]
              exact noSpace_append (hstrs li (by simp)).1 (hstrs ri (by simp)).1
            · rw [(hQf (st.arena.length + 1)).2.2.1, hrm8]
              exact hsound.1
          · have hio := h8B i hi4
            constructor
            · rw [hQstr i]
              rw [show nodeStr t a8 i = nodeStr t st.arena i from by
                unfold nodeStr
                rw [hio]]
              exact (hstrs i (by simp [hi4])).1
            · rw [(hQf i).2.2.1, hio]
              exact (hstrs i (by simp [hi4])).2
  · exact hQok

end MergePrevInner

section MergeDispatch

/-- `performMerge` preserves the loop invariant for any valid popped
node whose heap entry was well formed. -/
lemma performMerge_inv {t : Tok} {goal : Str} {st : BPEState} {li plen : Nat}
    (hclosed : ∀ s, (t.merges s).isSome = true →
      (tokenLookup t.tokens (removeSpaces s)).isSome = true)
    (hInv : BPEInv t goal st)
    (hok : heapEntryOK t st.arena li)
    (hvalid : isValidMerge st.arena li = true) :
    BPEInv t goal (performMerge t st li plen) := by
  obtain ⟨ch, hne, hhead, hnd, ⟨hchain, hbnd, hheadprev, hlastnext⟩, halive,
    hexact, hconcat, hstrs, hheap⟩ := hInv
  unfold isValidMerge at hvalid
  rw [Bool.and_eq_true] at hvalid
  obtain ⟨hla, hmv⟩ := hvalid
  have hLiAlive : (nodeAt st.arena li).deleted = false := by
    simpa using hla
  cases hnxLi : (nodeAt st.arena li).next with
  | none =>
    rw [hnxLi] at hmv
    simp at hmv
  | some ri =>
    have hlimem : li ∈ ch := hexact li (alive_lt hLiAlive) hLiAlive
    obtain ⟨A, B, hAB⟩ := chain_decomp hchain hlastnext hlimem hnxLi
    subst hAB
    rcases List.eq_nil_or_concat A with rfl | ⟨A0, pi, rfl⟩
    · simp only [List.nil_append] at *
      have hPrevLi : (nodeAt st.arena li).prev = none := hheadprev li (by simp)
      exact performMerge_inv_noPrev hclosed hnd hchain hbnd hPrevLi hlastnext
        halive hexact hconcat hstrs hheap hok hnxLi
    · rcases List.eq_nil_or_concat A0 with rfl | ⟨A00, ppi, rfl⟩
      · simp only [List.concat_eq_append, List.nil_append, List.singleton_append, List.cons_append] at *
        have hPrevPi : (nodeAt st.arena pi).prev = none := hheadprev pi (by simp)
        exact performMerge_inv_prevHead hclosed hnd hchain hbnd hPrevPi
          hlastnext halive hexact hconcat hstrs hheap hok hnxLi
      · simp only [List.concat_eq_append, List.append_assoc, List.singleton_append, List.cons_append] at *
        exact performMerge_inv_prevInner hclosed hhead hnd hchain hbnd
          hheadprev hlastnext halive hexact hconcat hstrs hheap hok hnxLi

end MergeDispatch

section LoopInvariant

/-- The merge loop preserves the invariant for any fuel. -/
lemma mergeLoop_inv {t : Tok} {goal : Str} (plen : Nat)
    (hclosed : ∀ s, (t.merges s).isSome = true →
      (tokenLookup t.tokens (removeSpaces s)).isSome = true) :
    ∀ fuel st, BPEInv t goal st → BPEInv t goal (mergeLoop t plen fuel st) := by
  intro fuel
  induction fuel with
  | zero => intro st h; exact h
  | succ f ih =>
    intro st h
    rw [mergeLoop]
    cases hpop : heapPop (heapKey st.arena) st.heap with
    | none => exact h
    | some p =>
      obtain ⟨li, heap2⟩ := p
      obtain ⟨hmemli, hsub⟩ := heapPop_popped_mem hpop
      obtain ⟨ch, hne, hhead, hnd, hcOK, halive, hexact, hconcat, hstrs, hheap⟩ := h
      have h2 : BPEInv t goal { arena := st.arena, heap := heap2, first := st.first } :=
        ⟨ch, hne, hhead, hnd, hcOK, halive, hexact, hconcat, hstrs,
          fun y hy => hheap y (hsub y hy)⟩
      dsimp only
      by_cases hv : isValidMerge st.arena li = true
      · rw [if_pos hv]
        exact ih _ (performMerge_inv hclosed h2 (hheap li hmemli) hv)
      · rw [if_neg hv]
        exact ih _ h2

/-- Seeding: with every codepoint in the vocabulary, `pretokenToIDs`
produces one id per codepoint, concatenating back to the pre-token. -/
lemma pretokenToIDs_spec {t : Tok} : ∀ p : Str,
    (∀ u ∈ p, (tokenLookup t.tokens [u]).isSome = true) →
    (∀ u ∈ p, u ≠ 32) →
    ((pretokenToIDs t p).map (fun id => t.tokens.getD id [])).flatten = p ∧
    (∀ id ∈ pretokenToIDs t p, noSpace (t.tokens.getD id []) ∧
      id < t.tokens.length) ∧
    (pretokenToIDs t p).length = p.length := by
  intro p
  induction p with
  | nil => intro _ _; exact ⟨rfl, fun id hid => absurd hid (by simp [pretokenToIDs]), rfl⟩
  | cons u p2 ih =>
    intro hchars hns
    obtain ⟨id, hid⟩ := Option.isSome_iff_exists.mp (hchars u (by simp))
    have hs := tokenLookup_sound hid
    obtain ⟨ih1, ih2, ih3⟩ := ih (fun v hv => hchars v (by simp [hv]))
      (fun v hv => hns v (by simp [hv]))
    have hstep : pretokenToIDs t (u :: p2) = id :: pretokenToIDs t p2 := by
      unfold pretokenToIDs
      rw [List.filterMap_cons]
      rw [hid]
    refine ⟨?_, ?_, ?_⟩
    · rw [hstep, List.map_cons, List.flatten_cons, ih1, hs.2]
      rfl
    · intro x hx
      rw [hstep] at hx
      rcases List.mem_cons.mp hx with rfl | hx2
      · refine ⟨?_, hs.1⟩
        rw [hs.2]
        intro v hv
        rcases List.mem_singleton.mp hv with rfl
        exact hns v (by simp)
      · exact ih2 x hx2
    · rw [hstep, List.length_cons, ih3]
      rfl

/-- `performBPE` output decodes to the pre-token, with in-range ids,
whenever every codepoint is in the vocabulary and none is a space. -/
lemma performBPE_concat {t : Tok} {pretoken : Str}
    (hclosed : ∀ s, (t.merges s).isSome = true →
      (tokenLookup t.tokens (removeSpaces s)).isSome = true)
    (hchars : ∀ u ∈ pretoken, (tokenLookup t.tokens [u]).isSome = true)
    (hnospace : ∀ u ∈ pretoken, u ≠ 32) :
    ((performBPE t pretoken).map (fun id => t.tokens.getD id [])).flatten
      = pretoken ∧
    ∀ id ∈ performBPE t pretoken, id < t.tokens.length := by
  obtain ⟨hflat, hids, hlen⟩ := pretokenToIDs_spec pretoken hchars hnospace
  unfold performBPE
  cases hdir : tokenLookup t.tokens pretoken with
  | some tid =>
    have hs := tokenLookup_sound hdir
    refine ⟨?_, ?_⟩
    · rw [List.map_cons, List.map_nil, List.flatten_cons, List.flatten_nil,
        List.append_nil]
      exact hs.2
    · intro id hid
      rcases List.mem_singleton.mp hid with rfl
      exact hs.1
  | none =>
    dsimp only
    by_cases hlen1 : (pretokenToIDs t pretoken).length ≤ 1
    · rw [if_pos hlen1]
      exact ⟨hflat, fun id hid => (hids id hid).2⟩
    · rw [if_neg hlen1]
      have hInv0 : BPEInv t pretoken
          (buildMergeList t (pretokenToIDs t pretoken)
            (utf8Bytes pretoken).length) := by
        have := buildMergeList_inv (utf8Bytes pretoken).length hclosed (by omega)
          (fun id hid => hids id hid)
        rw [hflat] at this
        exact this
      set stF := mergeLoop t (utf8Bytes pretoken).length ((buildMergeList t (pretokenToIDs t pretoken) (utf8Bytes pretoken).length).heap.length + 2 * (buildMergeList t (pretokenToIDs t pretoken) (utf8Bytes pretoken).length).arena.length + 1) (buildMergeList t (pretokenToIDs t pretoken) (utf8Bytes pretoken).length) with hstF
      have hInvF : BPEInv t pretoken stF :=
        mergeLoop_inv (utf8Bytes pretoken).length hclosed _ _ hInv0
      obtain ⟨ch, hne, hhead, hnd, hcOK, halive, hexact, hconcat, hstrs, _⟩ :=
        hInvF
      have hwalk := collectWalk_eq stF.arena ch (stF.arena.length + 1)
        (chainOK_nextChain hcOK)
        (le_trans (nodup_bounded_length hnd hcOK.2.1) (by omega))
        stF.first hhead
      rw [hwalk]
      constructor
      · rw [List.map_map]
        exact hconcat
      · intro id hid
        rw [List.mem_map] at hid
        obtain ⟨x, hx, rfl⟩ := hid
        exact (hstrs x hx).2

end LoopInvariant

section RoundTrip

lemma utf8Bytes_append (a b : Str) :
    utf8Bytes (a ++ b) = utf8Bytes a ++ utf8Bytes b := by
  unfold utf8Bytes
  rw [List.flatMap_append]

lemma utf8Bytes_flatten : ∀ L : List Str,
    utf8Bytes L.flatten = (L.map (fun s => utf8Bytes s)).flatten := by
  intro L
  induction L with
  | nil => rfl
  | cons x xs ih =>
    rw [List.flatten_cons, utf8Bytes_append, List.map_cons, List.flatten_cons, ih]

lemma DecodeBytes_append (t : Tok) (l1 l2 : List Nat) :
    DecodeBytes t (l1 ++ l2) = DecodeBytes t l1 ++ DecodeBytes t l2 := by
  unfold DecodeBytes
  rw [List.flatMap_append]

lemma decodeTokenBytes_append (s1 s2 : Str) :
    decodeTokenBytes (s1 ++ s2) = decodeTokenBytes s1 ++ decodeTokenBytes s2 := by
  unfold decodeTokenBytes
  rw [List.filterMap_append]

/-- In-range ids decode to the decoded concatenation of their tokens. -/
lemma DecodeBytes_inrange {t : Tok} : ∀ {ids : List Nat},
    (∀ id ∈ ids, id < t.tokens.length) →
    DecodeBytes t ids =
      decodeTokenBytes ((ids.map (fun id => t.tokens.getD id [])).flatten) := by
  intro ids
  induction ids with
  | nil => intro _; rfl
  | cons id rest ih =>
    intro h
    rw [List.map_cons, List.flatten_cons, decodeTokenBytes_append,
      ← ih (fun x hx => h x (List.mem_cons_of_mem _ hx))]
    unfold DecodeBytes
    rw [List.flatMap_cons, if_pos (h id (List.mem_cons_self _ _))]

/-- An ASCII printable string is fixed by both the byte decoder and the
UTF-8 encoder. -/
lemma ascii_str_id : ∀ {piece : Str}, (∀ c ∈ piece, 33 ≤ c ∧ c ≤ 126) →
    decodeTokenBytes piece = piece ∧ utf8Bytes piece = piece := by
  intro piece
  induction piece with
  | nil => intro _; exact ⟨rfl, rfl⟩
  | cons c rest ih =>
    intro h
    obtain ⟨h1, h2⟩ := h c (List.mem_cons_self _ _)
    obtain ⟨hu, he⟩ := ascii_roundtrip h1 h2
    obtain ⟨ihd, ihe⟩ := ih (fun x hx => h x (List.mem_cons_of_mem _ hx))
    constructor
    · unfold decodeTokenBytes at ihd ⊢
      rw [List.filterMap_cons, hu, ihd]
    · unfold utf8Bytes at ihe ⊢
      rw [List.flatMap_cons, he, ihe]
      rfl

/-- A split piece emitted as a single special-token id decodes back to
the piece's bytes. -/
lemma special_piece_decode {t : Tok} {piece : Str}
    (hascii : ∀ c ∈ piece, 33 ≤ c ∧ c ≤ 126)
    (hlk : lookupD t piece ≠ 0) :
    DecodeBytes t [lookupD t piece] = utf8Bytes piece := by
  cases hq : tokenLookup t.tokens piece with
  | none =>
    unfold lookupD at hlk
    rw [hq] at hlk
    simp at hlk
  | some id =>
    have hs := tokenLookup_sound hq
    unfold DecodeBytes lookupD
    rw [hq]
    show (if id < t.tokens.length then decodeTokenBytes (t.tokens.getD id [])
      else []) ++ [].flatMap _ = _
    rw [if_pos hs.1, hs.2]
    obtain ⟨hd, he⟩ := ascii_str_id hascii
    rw [hd, he]
    simp

/-- A non-special piece round-trips through pre-tokenization, byte
encoding, BPE and decoding. -/
lemma encodePiece_decode {t : Tok} {cc : CharClasses} {piece : Str}
    (hclosed : ∀ s, (t.merges s).isSome = true →
      (tokenLookup t.tokens (removeSpaces s)).isSome = true)
    (hchars : ∀ c ∈ piece, ∀ b ∈ utf8Encode c, ∀ u, bytesToUnicode b = some u →
      (tokenLookup t.tokens [u]).isSome = true)
    (hcp : ∀ c ∈ piece, c < 0x110000) :
    DecodeBytes t (encodePiece t cc piece) = utf8Bytes piece := by
  unfold encodePiece pretokenize
  obtain ⟨hflatparts, _⟩ := pretokenize_total_coverage cc piece
  have hpartsub : ∀ part ∈ Tokenize cc piece, ∀ c ∈ part, c ∈ piece := by
    intro part hpart c hcp2
    rw [← hflatparts]
    exact List.mem_flatten.mpr ⟨part, hpart, hcp2⟩
  suffices h : ∀ parts : List Str, (∀ part ∈ parts, ∀ c ∈ part, c ∈ piece) →
      DecodeBytes t ((parts.map (fun part => encodeBytes (utf8Bytes part))).flatMap
        (fun pretoken => if pretoken.isEmpty then [] else performBPE t pretoken)) =
      (parts.map (fun part => utf8Bytes part)).flatten by
    rw [h (Tokenize cc piece) hpartsub, ← utf8Bytes_flatten, hflatparts]
  intro parts
  induction parts with
  | nil => intro _; rfl
  | cons part rest ih =>
    intro hpsub
    rw [List.map_cons, List.flatMap_cons, List.map_cons, List.flatten_cons,
      DecodeBytes_append, ih (fun q hq => hpsub q (List.mem_cons_of_mem _ hq))]
    congr 1
    have hbytes256 : ∀ b ∈ utf8Bytes part, b < 256 := by
      intro b hb
      unfold utf8Bytes at hb
      obtain ⟨c, hcmem, hbc⟩ := List.mem_flatMap.mp hb
      exact utf8Encode_lt_256 (hcp c (hpsub part (List.mem_cons_self _ _) c hcmem))
        b hbc
    by_cases he : (encodeBytes (utf8Bytes part)).isEmpty
    · rw [if_pos he]
      have hnil : utf8Bytes part = [] := by
        have hdec := encode_decode_bytes hbytes256
        rw [List.isEmpty_iff.mp he] at hdec
        exact hdec.symm
      rw [hnil]
      rfl
    · rw [if_neg he]
      have hch : ∀ u ∈ encodeBytes (utf8Bytes part),
          (tokenLookup t.tokens [u]).isSome = true := by
        intro u hu
        unfold encodeBytes at hu
        obtain ⟨b, hbmem, hbu⟩ := List.mem_filterMap.mp hu
        obtain ⟨c, hcmem, hbc⟩ := List.mem_flatMap.mp hbmem
        exact hchars c (hpsub part (List.mem_cons_self _ _) c hcmem) b hbc u hbu
      have hns : ∀ u ∈ encodeBytes (utf8Bytes part), u ≠ 32 := by
        intro u hu
        unfold encodeBytes at hu
        obtain ⟨b, hbmem, hbu⟩ := List.mem_filterMap.mp hu
        obtain ⟨v, hv1, _, hv3⟩ := bytesToUnicode_roundtrip (hbytes256 b hbmem)
        rw [hv1, Option.some.injEq] at hbu
        omega
      obtain ⟨hcat, hidlt⟩ := performBPE_concat hclosed hch hns
      rw [DecodeBytes_inrange hidlt, hcat, encode_decode_bytes hbytes256]

/-- C1: with the default vocabulary data — every byte-level unit token
present, merge results closed under the vocabulary, and strict special
matches resolving to printable-ASCII vocabulary entries — encoding with
`BOS:false, EOS:false` and decoding returns exactly the UTF-8 bytes of
the input: `Decode(Encode(s)) == s`. -/
theorem encode_decode_roundtrip (t : Tok) (cc : CharClasses) (text : Str)
    (ms : List (Nat × Nat))
    (hms : MatchesSorted 0 text.length ms)
    (hclosed : ∀ s, (t.merges s).isSome = true →
      (tokenLookup t.tokens (removeSpaces s)).isSome = true)
    (hspecial : ∀ piece ∈ splitBySpecialTokens text ms,
      containsStrict piece = true → lookupD t piece ≠ 0 →
      ∀ c ∈ piece, 33 ≤ c ∧ c ≤ 126)
    (hcp : ∀ c ∈ text, c < 0x110000)
    (htext : ∀ c ∈ text, ∀ b ∈ utf8Encode c, ∀ u, bytesToUnicode b = some u →
      (tokenLookup t.tokens [u]).isSome = true) :
    DecodeBytes t (Encode t cc text ms ⟨false, false⟩) = utf8Bytes text := by
  have henc : Encode t cc text ms ⟨false, false⟩ = encodeBody t cc text ms := by
    unfold Encode
    simp
  rw [henc]
  unfold encodeBody
  have hflat := splitBySpecialTokens_flatten hms
  suffices h : ∀ ps : List Str, (∀ piece ∈ ps, piece ∈ splitBySpecialTokens text ms) →
      DecodeBytes t (ps.flatMap (fun piece =>
        if containsStrict piece = true ∧ lookupD t piece ≠ 0 then [lookupD t piece]
        else encodePiece t cc piece)) =
      (ps.map (fun piece => utf8Bytes piece)).flatten by
    rw [h (splitBySpecialTokens text ms) (fun p hp => hp), ← utf8Bytes_flatten,
      hflat]
  intro ps
  induction ps with
  | nil => intro _; rfl
  | cons p ps2 ih =>
    intro hps
    have hpmem := hps p (List.mem_cons_self _ _)
    rw [List.flatMap_cons, List.map_cons, List.flatten_cons, DecodeBytes_append,
      ih (fun q hq => hps q (List.mem_cons_of_mem _ hq))]
    congr 1
    by_cases hc : containsStrict p = true ∧ lookupD t p ≠ 0
    · rw [if_pos hc]
      exact special_piece_decode (hspecial p hpmem hc.1 hc.2) hc.2
    · rw [if_neg hc]
      have hsubp := splitBySpecialTokens_piece_subset hpmem
      exact encodePiece_decode hclosed
        (fun c hcmem => htext c (hsubp c hcmem))
        (fun c hcmem => hcp c (hsubp c hcmem))

end RoundTrip

/-- Data of a minimal tokenizer whose vocabulary is the single byte-level
token `"a"` (id 0) with no merge rules, used for the round-trip witness. -/
def rtTok : Tok := { tokens := [[97]], merges := fun _ => none }

theorem encode_decode_roundtrip_witness :
    MatchesSorted 0 ([97] : Str).length [] ∧
    DecodeBytes rtTok (Encode rtTok asciiClasses [97] [] ⟨false, false⟩)
      = utf8Bytes [97] := by
  constructor
  · trivial
  · refine encode_decode_roundtrip rtTok asciiClasses [97] [] trivial ?_ ?_ ?_ ?_
    · intro s h
      simp [rtTok] at h
    · intro piece hp hcs hlk
      have hsplit : splitBySpecialTokens [97] [] = [[97]] := rfl
      rw [hsplit] at hp
      rcases List.mem_singleton.mp hp with rfl
      exact absurd (by decide : lookupD rtTok [97] = 0) hlk
    · decide
    · intro c hc b hb u hu
      rcases List.mem_singleton.mp hc with rfl
      have he : utf8Encode 97 = [97] := by decide
      rw [he] at hb
      rcases List.mem_singleton.mp hb with rfl
      have hbu : bytesToUnicode 97 = some 97 := by decide
      rw [hbu, Option.some.injEq] at hu
      subst hu
      decide
